import Mathlib

/-!
Shallow embedding of the AEGIS source tokenizer/normalizer engines
(`src/cpp/src/tokenizers/python_normalizer.cpp` and
`src/cpp/src/tokenizers/cpp_normalizer.cpp`), together with proofs about
the line-classification metrics, hashing discipline, indentation stack,
and literal scanning of the two engines.

Modelling conventions:
- the raw text is a `List Char` (one entry per byte of the C++
  `std::string_view`); `peek` past the end returns the NUL character,
  exactly as in the C++ helper;
- `size_t` quantities (`pos`, indentation widths, the C++ engine's
  line counters) are modelled as `Nat` (no input of length `2 ^ 64` or
  more is representable in the C++ program, so their arithmetic never
  wraps);
- `uint32_t` fields (`line`, the Python engine's metric counters) wrap
  modulo `2 ^ 32` and `uint16_t` fields (`column`, token lengths) wrap
  modulo `2 ^ 16`, written explicitly where the source increments or
  casts them;
- `while` loops over the input become fuel-indexed recursions; every
  call site passes fuel `source.length + 1`, and the termination
  theorem below proves this fuel is never exhausted for the main scan
  loops;
- `std::isalpha` / `std::isalnum` are evaluated in the classic "C"
  locale, where they recognise exactly the ASCII ranges.
-/

/-- Modelled from the spec (§3, "Token Model"): the closed token-kind
enumeration.  The defining header `token_normalizer.hpp` is not part of
the provided sources; only its clients are. -/
inductive TokenType where
  | KEYWORD
  | TYPE
  | IDENTIFIER
  | STRING_LITERAL
  | NUMBER_LITERAL
  | OPERATOR
  | PUNCTUATION
  | NEWLINE
  | INDENT
  | DEDENT
deriving DecidableEq, Repr

/-- Modelled from the spec (§4.1): the content hash over arbitrary text,
"deterministic and stable across calls and processes".  The concrete
algorithm lives in the missing `token_normalizer.hpp`; here it is
modelled as a radix encoding of the character list (a deterministic,
injective content fingerprint). -/
def hashChars : List Char → Nat :=
  List.foldl (fun h c => h * 4294967296 + (c.toNat + 1)) 1

/-- Modelled from the spec (§4.1): `hash_string` applied to an
accumulated `std::string` value. -/
def hash_string (s : String) : Nat := hashChars s.data

/-- Modelled from the spec (§4.1, §3): the placeholder hash "keyed only
by token kind", a fixed value per kind independent of content. -/
def hash_placeholder : TokenType → Nat
  | TokenType.KEYWORD => 10000
  | TokenType.TYPE => 10001
  | TokenType.IDENTIFIER => 10002
  | TokenType.STRING_LITERAL => 10003
  | TokenType.NUMBER_LITERAL => 10004
  | TokenType.OPERATOR => 10005
  | TokenType.PUNCTUATION => 10006
  | TokenType.NEWLINE => 10007
  | TokenType.INDENT => 10008
  | TokenType.DEDENT => 10009

/-- Modelled from the spec (§3, "Token"): kind, 1-based source line and
column, length in characters, and the two hashes. -/
structure NormalizedToken where
  type : TokenType := TokenType.IDENTIFIER
  line : Nat := 0
  column : Nat := 0
  length : Nat := 0
  original_hash : Nat := 0
  normalized_hash : Nat := 0
deriving DecidableEq, Repr

/-- Modelled from the spec (§3, "Tokenized file result"): ordered token
sequence plus the four line counters.  The `path` field is caller-filled
and never touched by the engines, so it is omitted. -/
structure TokenizedFile where
  tokens : List NormalizedToken := []
  total_lines : Nat := 0
  code_lines : Nat := 0
  blank_lines : Nat := 0
  comment_lines : Nat := 0
deriving DecidableEq, Repr

namespace PythonNormalizer

/-- `PythonNormalizer::TokenizerState` (python_normalizer.hpp). -/
structure TokenizerState where
  src : List Char
  pos : Nat := 0
  line : Nat := 1
  column : Nat := 1
  indentStack : List Nat := [0]
  atLineStart : Bool := true
deriving Repr

/-- `TokenizerState::eof`. -/
def TokenizerState.eof (st : TokenizerState) : Bool :=
  st.src.length ≤ st.pos

/-- `TokenizerState::peek` (NUL past the end). -/
def TokenizerState.peek (st : TokenizerState) : Char :=
  st.src.getD st.pos '\x00'

/-- `TokenizerState::peek_next`. -/
def TokenizerState.peek_next (st : TokenizerState) : Char :=
  st.src.getD (st.pos + 1) '\x00'

/-- `TokenizerState::advance`: consume one character, maintaining the
1-based `line` (uint32), `column` (uint16) and the line-start flag
(field-wise rendering of the two-branch C++ body). -/
def TokenizerState.advance (st : TokenizerState) : TokenizerState :=
  let c := st.peek
  { st with
    pos := st.pos + 1,
    line := if c = '\n' then (st.line + 1) % 4294967296 else st.line,
    column := if c = '\n' then 1 else (st.column + 1) % 65536,
    atLineStart := if c = '\n' then true else st.atLineStart }

/-- `LineMetrics` (python_normalizer.hpp): uint32 counters and the
per-line flags. -/
structure LineMetrics where
  code_lines : Nat := 0
  blank_lines : Nat := 0
  comment_lines : Nat := 0
  current_line : Nat := 0
  line_has_code : Bool := false
  line_has_comment : Bool := false
deriving DecidableEq, Repr

/-- `PythonNormalizer::is_digit`. -/
def is_digit (c : Char) : Bool := '0' ≤ c ∧ c ≤ '9'

/-- `PythonNormalizer::is_hex_digit`. -/
def is_hex_digit (c : Char) : Bool :=
  is_digit c ∨ ('a' ≤ c ∧ c ≤ 'f') ∨ ('A' ≤ c ∧ c ≤ 'F')

/-- `std::isalpha` in the "C" locale, as used by `is_identifier_start`. -/
def is_alpha (c : Char) : Bool :=
  ('a' ≤ c ∧ c ≤ 'z') ∨ ('A' ≤ c ∧ c ≤ 'Z')

/-- `PythonNormalizer::is_identifier_start`. -/
def is_identifier_start (c : Char) : Bool := is_alpha c ∨ c = '_'

/-- `PythonNormalizer::is_identifier_char`. -/
def is_identifier_char (c : Char) : Bool :=
  is_alpha c ∨ is_digit c ∨ c = '_'

/-- `PythonNormalizer::is_operator_char`. -/
def is_operator_char (c : Char) : Bool :=
  c = '+' ∨ c = '-' ∨ c = '*' ∨ c = '/' ∨ c = '%' ∨
  c = '=' ∨ c = '<' ∨ c = '>' ∨ c = '!' ∨ c = '&' ∨
  c = '|' ∨ c = '^' ∨ c = '~' ∨ c = '@' ∨ c = '(' ∨
  c = ')' ∨ c = '[' ∨ c = ']' ∨ c = '\x7b' ∨ c = '\x7d' ∨
  c = ',' ∨ c = ':' ∨ c = ';' ∨ c = '.'

/-- The `keywords_` set built in the `PythonNormalizer` constructor. -/
def keywords : List String :=
  ["False", "None", "True", "and", "as", "assert", "async", "await",
   "break", "class", "continue", "def", "del", "elif", "else", "except",
   "finally", "for", "from", "global", "if", "import", "in", "is",
   "lambda", "nonlocal", "not", "or", "pass", "raise", "return", "try",
   "while", "with", "yield"]

/-- The `builtin_types_` set built in the `PythonNormalizer` constructor. -/
def builtin_types : List String :=
  ["int", "float", "str", "bool", "list", "dict", "set", "tuple",
   "bytes", "bytearray", "complex", "frozenset", "object", "type",
   "range", "slice", "memoryview", "property", "classmethod",
   "staticmethod", "super"]

/-- The scan loop of `PythonNormalizer::parse_string`: consume until the
closing quote (or closing triple quote), treating a backslash and its
follower as a raw two-character unit, stopping at a line break for
single-quoted strings and at end of input otherwise. -/
def parse_string_loop (quote : Char) (triple : Bool) :
    Nat → TokenizerState → List Char → TokenizerState × List Char
  | 0, st, v => (st, v)
  | fuel + 1, st, v =>
    if st.eof then (st, v) else
    let c := st.peek
    if triple ∧ c = quote ∧ st.peek_next = quote ∧
       st.pos + 2 < st.src.length ∧ st.src.getD (st.pos + 2) '\x00' = quote then
      (st.advance.advance.advance, v)
    else if ¬triple ∧ c = quote then
      (st.advance, v)
    else if ¬triple ∧ c = '\n' then
      (st, v)
    else if c = '\\' then
      let st1 := st.advance
      parse_string_loop quote triple fuel (if st1.eof then st1 else st1.advance) v
    else
      parse_string_loop quote triple fuel st.advance (v ++ [c])

/-- `PythonNormalizer::parse_string`. -/
def parse_string (st0 : TokenizerState) : NormalizedToken × TokenizerState :=
  let line := st0.line
  let column := st0.column
  let quote := st0.peek
  let st1 := st0.advance
  let opened :=
    if st1.peek = quote ∧ st1.peek_next = quote then (st1.advance.advance, true)
    else (st1, false)
  let st2 := opened.1
  let triple := opened.2
  let start_pos := st2.pos
  let scanned := parse_string_loop quote triple (st2.src.length + 1) st2 []
  ({ type := TokenType.STRING_LITERAL, line := line, column := column,
     length := (scanned.1.pos - start_pos + (if triple then 3 else 1)) % 65536,
     original_hash := hashChars scanned.2,
     normalized_hash := hash_placeholder TokenType.STRING_LITERAL }, scanned.1)

/-- The digit-consuming loops shared (textually identical, up to the
digit predicate) by the numeric helpers: consume characters satisfying
`p` or the `_` separator, appending the non-separator ones to `value`. -/
def digits_loop (p : Char → Bool) :
    Nat → TokenizerState → List Char → TokenizerState × List Char
  | 0, st, v => (st, v)
  | fuel + 1, st, v =>
    if st.eof then (st, v) else
    let c := st.peek
    if p c ∨ c = '_' then
      digits_loop p fuel st.advance (if c = '_' then v else v ++ [c])
    else (st, v)

/-- `PythonNormalizer::parse_hex_number` (`none` models `return false`). -/
def parse_hex_number (st : TokenizerState) (v : List Char) :
    Option (TokenizerState × List Char) :=
  if st.peek ≠ '0' ∨ st.eof then none else
  let next := st.peek_next
  if next ≠ 'x' ∧ next ≠ 'X' then none else
  some (digits_loop is_hex_digit (st.src.length + 1) st.advance.advance
          (v ++ [st.peek, next]))

/-- `PythonNormalizer::parse_binary_number`. -/
def parse_binary_number (st : TokenizerState) (v : List Char) :
    Option (TokenizerState × List Char) :=
  if st.peek ≠ '0' ∨ st.eof then none else
  let next := st.peek_next
  if next ≠ 'b' ∧ next ≠ 'B' then none else
  some (digits_loop (fun c => c = '0' ∨ c = '1') (st.src.length + 1)
          st.advance.advance (v ++ [st.peek, next]))

/-- `PythonNormalizer::parse_octal_number`. -/
def parse_octal_number (st : TokenizerState) (v : List Char) :
    Option (TokenizerState × List Char) :=
  if st.peek ≠ '0' ∨ st.eof then none else
  let next := st.peek_next
  if next ≠ 'o' ∧ next ≠ 'O' then none else
  some (digits_loop (fun c => '0' ≤ c ∧ c ≤ '7') (st.src.length + 1)
          st.advance.advance (v ++ [st.peek, next]))

/-- `PythonNormalizer::parse_integer_part`: a bare leading zero is
consumed alone; otherwise a run of digits and separators. -/
def parse_integer_part (st : TokenizerState) (v : List Char) :
    TokenizerState × List Char :=
  if st.peek = '0' then (st.advance, v ++ ['0'])
  else digits_loop is_digit (st.src.length + 1) st v

/-- `PythonNormalizer::parse_decimal_part`. -/
def parse_decimal_part (st : TokenizerState) (v : List Char) :
    TokenizerState × List Char :=
  if st.peek ≠ '.' ∨ ¬is_digit st.peek_next then (st, v)
  else digits_loop is_digit (st.src.length + 1) st.advance (v ++ ['.'])

/-- `PythonNormalizer::parse_exponent_part`. -/
def parse_exponent_part (st : TokenizerState) (v : List Char) :
    TokenizerState × List Char :=
  if st.peek ≠ 'e' ∧ st.peek ≠ 'E' then (st, v) else
  let st1 := st.advance
  let v1 := v ++ [st.peek]
  let signed :=
    if st1.peek = '+' ∨ st1.peek = '-' then (st1.advance, v1 ++ [st1.peek])
    else (st1, v1)
  digits_loop is_digit (st.src.length + 1) signed.1 signed.2

/-- `PythonNormalizer::skip_complex_suffix`. -/
def skip_complex_suffix (st : TokenizerState) (v : List Char) :
    TokenizerState × List Char :=
  if st.peek = 'j' ∨ st.peek = 'J' then (st.advance, v ++ [st.peek])
  else (st, v)

/-- `PythonNormalizer::parse_number`. -/
def parse_number (st0 : TokenizerState) : NormalizedToken × TokenizerState :=
  let line := st0.line
  let column := st0.column
  let start_pos := st0.pos
  let special :=
    match parse_hex_number st0 [] with
    | some r => some r
    | none =>
      match parse_binary_number st0 [] with
      | some r => some r
      | none => parse_octal_number st0 []
  let afterInt :=
    match special with
    | some r => r
    | none =>
      let r1 := parse_integer_part st0 []
      let r2 := parse_decimal_part r1.1 r1.2
      parse_exponent_part r2.1 r2.2
  let final := skip_complex_suffix afterInt.1 afterInt.2
  ({ type := TokenType.NUMBER_LITERAL, line := line, column := column,
     length := (final.1.pos - start_pos) % 65536,
     original_hash := hashChars final.2,
     normalized_hash := hash_placeholder TokenType.NUMBER_LITERAL }, final.1)

/-- The identifier-consuming loop of
`PythonNormalizer::parse_identifier_or_keyword`. -/
def ident_loop : Nat → TokenizerState → List Char → TokenizerState × List Char
  | 0, st, v => (st, v)
  | fuel + 1, st, v =>
    if st.eof then (st, v) else
    if is_identifier_char st.peek then ident_loop fuel st.advance (v ++ [st.peek])
    else (st, v)

/-- `PythonNormalizer::parse_identifier_or_keyword`. -/
def parse_identifier_or_keyword (st0 : TokenizerState) :
    NormalizedToken × TokenizerState :=
  let line := st0.line
  let column := st0.column
  let start_pos := st0.pos
  let scanned := ident_loop (st0.src.length + 1) st0 []
  let value := String.mk scanned.2
  let base : NormalizedToken :=
    { line := line, column := column,
      length := (scanned.1.pos - start_pos) % 65536,
      original_hash := hash_string value }
  let tok :=
    if value ∈ keywords then
      { base with type := TokenType.KEYWORD,
                  normalized_hash := base.original_hash }
    else if value ∈ builtin_types then
      { base with type := TokenType.TYPE,
                  normalized_hash := hash_placeholder TokenType.TYPE }
    else
      { base with type := TokenType.IDENTIFIER,
                  normalized_hash := hash_placeholder TokenType.IDENTIFIER }
  (tok, scanned.1)

/-- The fixed table of `PythonNormalizer::try_match_three_char_operator`. -/
def three_char_ops : List (List Char) :=
  ["...", "<<=", ">>=", "**=", "//="].map String.data

/-- `PythonNormalizer::try_match_three_char_operator`. -/
def try_match_three_char_operator (st : TokenizerState) :
    Option (TokenizerState × List Char) :=
  if st.src.length ≤ st.pos + 2 then none else
  let three := (st.src.drop st.pos).take 3
  if three ∈ three_char_ops then some (st.advance.advance.advance, three)
  else none

/-- The fixed table of `PythonNormalizer::try_match_two_char_operator`. -/
def two_char_ops : List (List Char) :=
  ["==", "!=", "<=", ">=", "+=", "-=", "*=", "/=", "%=", "&=", "|=",
   "^=", "**", "//", "<<", ">>", "->", "@="].map String.data

/-- `PythonNormalizer::try_match_two_char_operator`. -/
def try_match_two_char_operator (st : TokenizerState) :
    Option (TokenizerState × List Char) :=
  if st.src.length ≤ st.pos + 1 then none else
  let two := (st.src.drop st.pos).take 2
  if two ∈ two_char_ops then some (st.advance.advance, two)
  else none

/-- `PythonNormalizer::is_punctuation`. -/
def is_punctuation (op : List Char) : Bool :=
  op ∈ (["(", ")", "[", "]", "\x7b", "\x7d", ",", ":", ";", "."].map
          String.data)

/-- `PythonNormalizer::parse_operator`. -/
def parse_operator (st0 : TokenizerState) : NormalizedToken × TokenizerState :=
  let line := st0.line
  let column := st0.column
  let start_pos := st0.pos
  let matched :=
    match try_match_three_char_operator st0 with
    | some r => r
    | none =>
      match try_match_two_char_operator st0 with
      | some r => r
      | none => (st0.advance, [st0.peek])
  let value := matched.2
  let h := hashChars value
  ({ type := if is_punctuation value then TokenType.PUNCTUATION
             else TokenType.OPERATOR,
     line := line, column := column,
     length := (matched.1.pos - start_pos) % 65536,
     original_hash := h, normalized_hash := h }, matched.1)

/-- `PythonNormalizer::skip_comment`. -/
def skip_comment : Nat → TokenizerState → TokenizerState
  | 0, st => st
  | fuel + 1, st =>
    if st.eof then st else
    if st.peek = '\n' then st
    else skip_comment fuel st.advance

/-- The scan loop of `PythonNormalizer::skip_docstring`: consume until
the closing triple quote (bounds-checked) or end of input. -/
def skip_docstring_loop (quote : Char) : Nat → TokenizerState → TokenizerState
  | 0, st => st
  | fuel + 1, st =>
    if st.eof then st else
    let c := st.peek
    if c = quote ∧ st.pos + 2 < st.src.length ∧
       st.src.getD (st.pos + 1) '\x00' = quote ∧
       st.src.getD (st.pos + 2) '\x00' = quote then
      st.advance.advance.advance
    else if c = '\\' then
      let st1 := st.advance
      skip_docstring_loop quote fuel (if st1.eof then st1 else st1.advance)
    else skip_docstring_loop quote fuel st.advance

/-- `PythonNormalizer::skip_docstring`: skip the opening triple quote,
then scan for the closing one. -/
def skip_docstring (st : TokenizerState) (quote : Char) : TokenizerState :=
  let st3 := st.advance.advance.advance
  skip_docstring_loop quote (st3.src.length + 1) st3

/-- The backwards scan of `PythonNormalizer::is_docstring_context`,
running over the reversed token list. -/
def is_docstring_context_rev : List NormalizedToken → Bool
  | [] => true
  | t :: rest =>
    if t.type = TokenType.NEWLINE ∨ t.type = TokenType.INDENT then
      is_docstring_context_rev rest
    else if t.type = TokenType.PUNCTUATION then
      t.original_hash = hash_string ":"
    else false

/-- `PythonNormalizer::is_docstring_context`. -/
def is_docstring_context (tokens : List NormalizedToken) : Bool :=
  is_docstring_context_rev tokens.reverse

/-- `PythonNormalizer::is_import_statement`. -/
def is_import_statement (st : TokenizerState) : Bool :=
  let remaining := st.src.drop st.pos
  "import ".data.isPrefixOf remaining ∨ "from ".data.isPrefixOf remaining

/-- The parenthesis-skipping inner loop of
`PythonNormalizer::skip_to_end_of_line`. -/
def skip_parens_loop : Nat → TokenizerState → Nat → TokenizerState
  | 0, st, _ => st
  | fuel + 1, st, depth =>
    if st.eof ∨ depth = 0 then st else
    let inner := st.peek
    let depth1 := if inner = '(' then depth + 1
                  else if inner = ')' then depth - 1 else depth
    skip_parens_loop fuel st.advance depth1

/-- `PythonNormalizer::skip_to_end_of_line`: consume up to (not
including) the next significant line break, honouring backslash
continuations and parenthesised groups. -/
def skip_to_end_of_line : Nat → TokenizerState → TokenizerState
  | 0, st => st
  | fuel + 1, st =>
    if st.eof then st else
    let c := st.peek
    if c = '\n' then st
    else if c = '\\' then
      let st1 := st.advance
      if ¬st1.eof ∧ st1.peek = '\n' then skip_to_end_of_line fuel st1.advance
      else skip_to_end_of_line fuel st1
    else if c = '(' then
      skip_to_end_of_line fuel (skip_parens_loop (st.src.length + 1) st.advance 1)
    else skip_to_end_of_line fuel st.advance

/-- The pop phase of `PythonNormalizer::handle_indentation`: pop stack
entries strictly greater than the new width, counting the pops. -/
def dedent_pop : List Nat → Nat → List Nat × Nat
  | [], _ => ([], 0)
  | top :: rest, cur =>
    if cur < top then
      ((dedent_pop rest cur).1, (dedent_pop rest cur).2 + 1)
    else (top :: rest, 0)

/-- `PythonNormalizer::handle_indentation` (the stack head is the
C++ vector's back). -/
def handle_indentation (st : TokenizerState) (current_indent : Nat) :
    TokenizerState × List NormalizedToken :=
  let prev_indent := st.indentStack.headD 0
  if prev_indent < current_indent then
    ({ st with indentStack := current_indent :: st.indentStack },
     [{ type := TokenType.INDENT, original_hash := hash_string "INDENT",
        normalized_hash := hash_string "INDENT", line := st.line, column := 1,
        length := current_indent % 65536 }])
  else if current_indent < prev_indent then
    let popped := dedent_pop st.indentStack current_indent
    ({ st with indentStack := popped.1 },
     List.replicate popped.2
       { type := TokenType.DEDENT, original_hash := hash_string "DEDENT",
         normalized_hash := hash_string "DEDENT", line := st.line, column := 1,
         length := 0 })
  else (st, [])

/-- `PythonNormalizer::update_line_metrics`: on a line change, classify
the previous physical line (code beats comment beats blank) and reset
the per-line flags. -/
def update_line_metrics (st : TokenizerState) (m : LineMetrics) : LineMetrics :=
  if st.line ≠ m.current_line then
    let m1 :=
      if 0 < m.current_line then
        if m.line_has_code then
          { m with code_lines := (m.code_lines + 1) % 4294967296 }
        else if m.line_has_comment then
          { m with comment_lines := (m.comment_lines + 1) % 4294967296 }
        else
          { m with blank_lines := (m.blank_lines + 1) % 4294967296 }
      else m
    { m1 with current_line := st.line, line_has_code := false,
              line_has_comment := false }
  else m

/-- `PythonNormalizer::skip_whitespace`. -/
def skip_whitespace (st : TokenizerState) (c : Char) : Option TokenizerState :=
  if c = ' ' ∨ c = '\t' then some st.advance else none

/-- `PythonNormalizer::process_newline`: emit a NEWLINE token unless the
token list is empty or already ends in a NEWLINE. -/
def process_newline (st : TokenizerState) (c : Char) (r : TokenizedFile) :
    Option (TokenizerState × TokenizedFile) :=
  if c ≠ '\n' then none else
  let r1 :=
    match r.tokens.getLast? with
    | none => r
    | some last =>
      if last.type ≠ TokenType.NEWLINE then
        { r with tokens := r.tokens ++
            [{ type := TokenType.NEWLINE, original_hash := hash_string "\n",
               normalized_hash := hash_string "\n", line := st.line,
               column := st.column, length := 1 }] }
      else r
  some (st.advance, r1)

/-- `PythonNormalizer::process_comment`. -/
def process_comment (st : TokenizerState) (c : Char) (m : LineMetrics) :
    Option (TokenizerState × LineMetrics) :=
  if c ≠ '#' then none else
  some (skip_comment (st.src.length + 1) st, { m with line_has_comment := true })

/-- `PythonNormalizer::process_import`. -/
def process_import (st : TokenizerState) (m : LineMetrics) :
    Option (TokenizerState × LineMetrics) :=
  if m.line_has_code ∨ ¬is_import_statement st then none else
  some (skip_to_end_of_line (st.src.length + 1) st,
        { m with line_has_code := true })

/-- `PythonNormalizer::process_string_or_docstring`. -/
def process_string_or_docstring (st : TokenizerState) (c : Char)
    (r : TokenizedFile) (m : LineMetrics) :
    Option (TokenizerState × TokenizedFile × LineMetrics) :=
  if c = '"' ∨ c = '\'' then
    if (st.peek_next = c ∧ st.pos + 2 < st.src.length ∧
        st.src.getD (st.pos + 2) '\x00' = c) ∧
       (¬m.line_has_code ∧ is_docstring_context r.tokens) then
      some (skip_docstring st c, r, { m with line_has_comment := true })
    else
      let p := parse_string st
      some (p.2, { r with tokens := r.tokens ++ [p.1] },
            { m with line_has_code := true })
  else if (c = 'f' ∨ c = 'F' ∨ c = 'r' ∨ c = 'R' ∨ c = 'b' ∨ c = 'B') ∧
          (st.peek_next = '"' ∨ st.peek_next = '\'') then
    let p := parse_string st.advance
    some (p.2, { r with tokens := r.tokens ++ [p.1] },
          { m with line_has_code := true })
  else if (c = 'f' ∨ c = 'F' ∨ c = 'r' ∨ c = 'R') ∧
          (st.peek_next = 'r' ∨ st.peek_next = 'R' ∨
           st.peek_next = 'f' ∨ st.peek_next = 'F') ∧
          (st.pos + 2 < st.src.length ∧
           (st.src.getD (st.pos + 2) '\x00' = '"' ∨
            st.src.getD (st.pos + 2) '\x00' = '\'')) then
    let p := parse_string st.advance.advance
    some (p.2, { r with tokens := r.tokens ++ [p.1] },
          { m with line_has_code := true })
  else none

/-- `PythonNormalizer::process_number`. -/
def process_number (st : TokenizerState) (c : Char) (r : TokenizedFile)
    (m : LineMetrics) :
    Option (TokenizerState × TokenizedFile × LineMetrics) :=
  if ¬(is_digit c ∨ (c = '.' ∧ is_digit st.peek_next)) then none else
  let p := parse_number st
  some (p.2, { r with tokens := r.tokens ++ [p.1] },
        { m with line_has_code := true })

/-- `PythonNormalizer::process_identifier`. -/
def process_identifier (st : TokenizerState) (c : Char) (r : TokenizedFile)
    (m : LineMetrics) :
    Option (TokenizerState × TokenizedFile × LineMetrics) :=
  if ¬is_identifier_start c then none else
  let p := parse_identifier_or_keyword st
  some (p.2, { r with tokens := r.tokens ++ [p.1] },
        { m with line_has_code := true })

/-- `PythonNormalizer::process_operator`. -/
def process_operator (st : TokenizerState) (c : Char) (r : TokenizedFile)
    (m : LineMetrics) :
    Option (TokenizerState × TokenizedFile × LineMetrics) :=
  if ¬is_operator_char c then none else
  let p := parse_operator st
  some (p.2, { r with tokens := r.tokens ++ [p.1] },
        { m with line_has_code := true })

/-- `PythonNormalizer::process_indentation`: measure the leading
whitespace (tabs advance to the next multiple of 8), then emit
INDENT/DEDENT tokens unless the line is blank or comment-only, and
clear the line-start flag. -/
def indent_ws_loop : Nat → TokenizerState → Nat → TokenizerState × Nat
  | 0, st, ind => (st, ind)
  | fuel + 1, st, ind =>
    if st.eof then (st, ind) else
    let c := st.peek
    if c = ' ' ∨ c = '\t' then
      indent_ws_loop fuel st.advance
        (if c = '\t' then ind + (8 - ind % 8) else ind + 1)
    else (st, ind)

/-- `PythonNormalizer::process_indentation` (see `indent_ws_loop`). -/
def process_indentation (st : TokenizerState) (r : TokenizedFile) :
    TokenizerState × TokenizedFile :=
  let w := indent_ws_loop (st.src.length + 1) st 0
  let st1 := w.1
  let stepped :=
    if ¬st1.eof ∧ st1.peek ≠ '\n' ∧ st1.peek ≠ '#' then
      let h := handle_indentation st1 w.2
      (h.1, { r with tokens := r.tokens ++ h.2 })
    else (st1, r)
  ({ stepped.1 with atLineStart := false }, stepped.2)

/-- `PythonNormalizer::emit_remaining_dedents`: pop every entry above
the sentinel, appending one (identical) DEDENT token per pop. -/
def emit_remaining_dedents (st : TokenizerState) (r : TokenizedFile) :
    TokenizerState × TokenizedFile :=
  let k := st.indentStack.length - 1
  let tok : NormalizedToken :=
    { type := TokenType.DEDENT, original_hash := hash_string "DEDENT",
      normalized_hash := hash_string "DEDENT", line := st.line,
      column := 1, length := 0 }
  ({ st with indentStack := st.indentStack.drop k },
   { r with tokens := r.tokens ++ List.replicate k tok })

/-- `PythonNormalizer::finalize_metrics`. -/
def finalize_metrics (st : TokenizerState) (m : LineMetrics)
    (r : TokenizedFile) : TokenizedFile :=
  { r with
    total_lines :=
      if st.src.isEmpty then 0
      else if st.column = 1 ∧ 1 < st.line then st.line - 1 else st.line,
    code_lines := m.code_lines,
    blank_lines := m.blank_lines,
    comment_lines := m.comment_lines }

/-- The `process each token type` dispatch chain inside
`PythonNormalizer::normalize` (with the final defensive skip). -/
def dispatch (st : TokenizerState) (c : Char) (m : LineMetrics)
    (r : TokenizedFile) : TokenizerState × LineMetrics × TokenizedFile :=
  match skip_whitespace st c with
  | some st1 => (st1, m, r)
  | none =>
  match process_newline st c r with
  | some p => (p.1, m, p.2)
  | none =>
  match process_comment st c m with
  | some p => (p.1, p.2, r)
  | none =>
  match process_import st m with
  | some p => (p.1, p.2, r)
  | none =>
  match process_string_or_docstring st c r m with
  | some p => (p.1, p.2.2, p.2.1)
  | none =>
  match process_number st c r m with
  | some p => (p.1, p.2.2, p.2.1)
  | none =>
  match process_identifier st c r m with
  | some p => (p.1, p.2.2, p.2.1)
  | none =>
  match process_operator st c r m with
  | some p => (p.1, p.2.2, p.2.1)
  | none => (st.advance, m, r)

/-- The main `while (!state.eof())` loop of
`PythonNormalizer::normalize`; `none` is fuel exhaustion (shown
unreachable for fuel `source.length + 1` by the termination theorem). -/
def loop : Nat → TokenizerState → LineMetrics → TokenizedFile →
    Option (TokenizerState × LineMetrics × TokenizedFile)
  | 0, _, _, _ => none
  | fuel + 1, st, m, r =>
    if st.eof then some (st, m, r) else
    let m1 := update_line_metrics st m
    let c := st.peek
    if st.atLineStart ∧ c ≠ '\n' ∧ c ≠ '#' then
      let p := process_indentation st r
      if p.1.eof then some (p.1, m1, p.2) else
      let d := dispatch p.1 p.1.peek m1 p.2
      loop fuel d.1 d.2.1 d.2.2
    else
      let d := dispatch st c m1 r
      loop fuel d.1 d.2.1 d.2.2

/-- The `Handle final line metrics` block at the end of
`PythonNormalizer::normalize`. -/
def final_line_bump (m : LineMetrics) : LineMetrics :=
  if 0 < m.current_line then
    if m.line_has_code then
      { m with code_lines := (m.code_lines + 1) % 4294967296 }
    else if m.line_has_comment then
      { m with comment_lines := (m.comment_lines + 1) % 4294967296 }
    else
      { m with blank_lines := (m.blank_lines + 1) % 4294967296 }
  else m

/-- `PythonNormalizer::normalize`. -/
def normalize (source : List Char) : TokenizedFile :=
  match loop (source.length + 1) { src := source } {} {} with
  | none => {}
  | some (st, m, r) =>
    let m1 := final_line_bump m
    let e := emit_remaining_dedents st r
    finalize_metrics e.1 m1 e.2

end PythonNormalizer

namespace CppNormalizer

/-- `CppNormalizer::TokenizerState` (cpp_normalizer.hpp); unlike the
Python engine, `advance` clears the line-start flag on every character
other than space and tab. -/
structure TokenizerState where
  src : List Char
  pos : Nat := 0
  line : Nat := 1
  column : Nat := 1
  atLineStart : Bool := true
deriving Repr

/-- `TokenizerState::eof`. -/
def TokenizerState.eof (st : TokenizerState) : Bool :=
  st.src.length ≤ st.pos

/-- `TokenizerState::peek`. -/
def TokenizerState.peek (st : TokenizerState) : Char :=
  st.src.getD st.pos '\x00'

/-- `TokenizerState::peek_next`. -/
def TokenizerState.peek_next (st : TokenizerState) : Char :=
  st.src.getD (st.pos + 1) '\x00'

/-- `TokenizerState::peek_at`. -/
def TokenizerState.peek_at (st : TokenizerState) (offset : Nat) : Char :=
  st.src.getD (st.pos + offset) '\x00'

/-- `TokenizerState::advance` (field-wise rendering of the two-branch
C++ body). -/
def TokenizerState.advance (st : TokenizerState) : TokenizerState :=
  let c := st.peek
  { st with
    pos := st.pos + 1,
    line := if c = '\n' then (st.line + 1) % 4294967296 else st.line,
    column := if c = '\n' then 1 else (st.column + 1) % 65536,
    atLineStart :=
      if c = '\n' then true
      else if c ≠ ' ' ∧ c ≠ '\t' then false
      else st.atLineStart }

/-- Iterated `advance` (the marker-consuming `for` loop of
`parse_raw_string`). -/
def TokenizerState.advance_n (st : TokenizerState) : Nat → TokenizerState
  | 0 => st
  | n + 1 => st.advance.advance_n n

/-- The `keywords_` set of the `CppNormalizer` constructor. -/
def keywords : List String :=
  ["break", "case", "continue", "default", "do", "else", "for", "goto",
   "if", "return", "switch", "while",
   "auto", "char", "const", "double", "enum", "extern", "float", "inline",
   "int", "long", "register", "short", "signed", "sizeof", "static",
   "struct", "typedef", "union", "unsigned", "void", "volatile",
   "alignas", "alignof", "and", "and_eq", "asm", "bitand", "bitor",
   "bool", "catch", "class", "compl", "const_cast", "delete",
   "dynamic_cast", "explicit", "export", "false", "friend", "mutable",
   "namespace", "new", "not", "not_eq", "operator", "or", "or_eq",
   "private", "protected", "public", "reinterpret_cast", "static_cast",
   "template", "this", "throw", "true", "try", "typeid", "typename",
   "using", "virtual", "wchar_t", "xor", "xor_eq"]

/-- The `modern_keywords_` set of the `CppNormalizer` constructor. -/
def modern_keywords : List String :=
  ["alignas", "alignof", "char8_t", "char16_t", "char32_t", "concept",
   "consteval", "constexpr", "constinit", "co_await", "co_return",
   "co_yield", "decltype", "final", "noexcept", "nullptr", "override",
   "requires", "static_assert", "thread_local"]

/-- The `builtin_types_` set of the `CppNormalizer` constructor. -/
def builtin_types : List String :=
  ["int8_t", "int16_t", "int32_t", "int64_t",
   "uint8_t", "uint16_t", "uint32_t", "uint64_t",
   "size_t", "ptrdiff_t", "intptr_t", "uintptr_t",
   "string", "wstring", "string_view",
   "vector", "array", "list", "deque", "forward_list",
   "set", "map", "multiset", "multimap",
   "unordered_set", "unordered_map", "unordered_multiset",
   "unordered_multimap",
   "stack", "queue", "priority_queue",
   "pair", "tuple", "optional", "variant", "any",
   "unique_ptr", "shared_ptr", "weak_ptr",
   "function", "bind", "reference_wrapper",
   "thread", "mutex", "condition_variable", "future", "promise",
   "atomic", "atomic_flag"]

/-- `CppNormalizer::is_identifier_start`. -/
def is_identifier_start (c : Char) : Bool := PythonNormalizer.is_alpha c ∨ c = '_'

/-- `CppNormalizer::is_identifier_char`. -/
def is_identifier_char (c : Char) : Bool :=
  PythonNormalizer.is_alpha c ∨ PythonNormalizer.is_digit c ∨ c = '_'

/-- `CppNormalizer::is_digit`. -/
def is_digit (c : Char) : Bool := '0' ≤ c ∧ c ≤ '9'

/-- `CppNormalizer::is_hex_digit`. -/
def is_hex_digit (c : Char) : Bool :=
  is_digit c ∨ ('a' ≤ c ∧ c ≤ 'f') ∨ ('A' ≤ c ∧ c ≤ 'F')

/-- `CppNormalizer::is_binary_digit`. -/
def is_binary_digit (c : Char) : Bool := c = '0' ∨ c = '1'

/-- `CppNormalizer::is_octal_digit`. -/
def is_octal_digit (c : Char) : Bool := '0' ≤ c ∧ c ≤ '7'

/-- `CppNormalizer::is_operator_char`. -/
def is_operator_char (c : Char) : Bool :=
  c = '+' ∨ c = '-' ∨ c = '*' ∨ c = '/' ∨ c = '%' ∨
  c = '=' ∨ c = '<' ∨ c = '>' ∨ c = '!' ∨ c = '&' ∨
  c = '|' ∨ c = '^' ∨ c = '~' ∨ c = '?' ∨ c = ':' ∨
  c = '(' ∨ c = ')' ∨ c = '[' ∨ c = ']' ∨ c = '\x7b' ∨
  c = '\x7d' ∨ c = ',' ∨ c = ';' ∨ c = '.' ∨ c = '#'

/-- The optional wide/UTF prefix skip shared by `parse_string` and
`parse_char` (`L`, `U`, `u`, `u8`). -/
def skip_encoding_prefixes (st : TokenizerState) : TokenizerState :=
  if st.peek = 'L' ∨ st.peek = 'U' then st.advance
  else if st.peek = 'u' then
    let st1 := st.advance
    if st1.peek = '8' then st1.advance else st1
  else st

/-- The scan loop of `CppNormalizer::parse_string`. -/
def parse_string_loop : Nat → TokenizerState → List Char →
    TokenizerState × List Char
  | 0, st, v => (st, v)
  | fuel + 1, st, v =>
    if st.eof then (st, v) else
    let c := st.peek
    if c = '"' then (st.advance, v)
    else if c = '\n' then (st, v)
    else if c = '\\' then
      let st1 := st.advance
      parse_string_loop fuel (if st1.eof then st1 else st1.advance) v
    else parse_string_loop fuel st.advance (v ++ [c])

/-- `CppNormalizer::parse_string`. -/
def parse_string (st0 : TokenizerState) : NormalizedToken × TokenizerState :=
  let line := st0.line
  let column := st0.column
  let start_pos := st0.pos
  let st1 := (skip_encoding_prefixes st0).advance
  let scanned := parse_string_loop (st1.src.length + 1) st1 []
  ({ type := TokenType.STRING_LITERAL, line := line, column := column,
     length := (scanned.1.pos - start_pos) % 65536,
     original_hash := hashChars scanned.2,
     normalized_hash := hash_placeholder TokenType.STRING_LITERAL }, scanned.1)

/-- The delimiter-reading loop of `CppNormalizer::parse_raw_string`. -/
def raw_delim_loop : Nat → TokenizerState → List Char →
    TokenizerState × List Char
  | 0, st, d => (st, d)
  | fuel + 1, st, d =>
    if st.eof then (st, d) else
    if st.peek = '(' then (st, d)
    else raw_delim_loop fuel st.advance (d ++ [st.peek])

/-- The end-marker comparison of `CppNormalizer::parse_raw_string`
(`peek_at` against every marker character, NUL past the end). -/
def marker_match (st : TokenizerState) (marker : List Char) : Bool :=
  (List.range marker.length).all fun i => st.peek_at i = marker.getD i '\x00'

/-- The content-scanning loop of `CppNormalizer::parse_raw_string`. -/
def raw_scan_loop (marker : List Char) : Nat → TokenizerState → List Char →
    TokenizerState × List Char
  | 0, st, v => (st, v)
  | fuel + 1, st, v =>
    if st.eof then (st, v) else
    if marker_match st marker then (st.advance_n marker.length, v)
    else raw_scan_loop marker fuel st.advance (v ++ [st.peek])

/-- `CppNormalizer::parse_raw_string`: read the custom delimiter, build
the exact closing marker, and scan for it. -/
def parse_raw_string (st0 : TokenizerState) : NormalizedToken × TokenizerState :=
  let line := st0.line
  let column := st0.column
  let start_pos := st0.pos
  let st1 := st0.advance.advance
  let delim := raw_delim_loop (st1.src.length + 1) st1 []
  let st2 := if delim.1.eof then delim.1 else delim.1.advance
  let end_marker := [')'] ++ delim.2 ++ ['"']
  let scanned := raw_scan_loop end_marker (st2.src.length + 1) st2 []
  ({ type := TokenType.STRING_LITERAL, line := line, column := column,
     length := (scanned.1.pos - start_pos) % 65536,
     original_hash := hashChars scanned.2,
     normalized_hash := hash_placeholder TokenType.STRING_LITERAL }, scanned.1)

/-- The scan loop of `CppNormalizer::parse_char` (note: unlike
`parse_string`, the escaped character is appended to the value). -/
def parse_char_loop : Nat → TokenizerState → List Char →
    TokenizerState × List Char
  | 0, st, v => (st, v)
  | fuel + 1, st, v =>
    if st.eof then (st, v) else
    if st.peek = '\'' then (st, v) else
    let c := st.peek
    if c = '\n' then (st, v)
    else if c = '\\' then
      let st1 := st.advance
      if st1.eof then parse_char_loop fuel st1 v
      else parse_char_loop fuel st1.advance (v ++ [st1.peek])
    else parse_char_loop fuel st.advance (v ++ [c])

/-- `CppNormalizer::parse_char` (classified STRING_LITERAL). -/
def parse_char (st0 : TokenizerState) : NormalizedToken × TokenizerState :=
  let line := st0.line
  let column := st0.column
  let start_pos := st0.pos
  let st1 := (skip_encoding_prefixes st0).advance
  let scanned := parse_char_loop (st1.src.length + 1) st1 []
  let st2 := if scanned.1.eof then scanned.1 else scanned.1.advance
  ({ type := TokenType.STRING_LITERAL, line := line, column := column,
     length := (st2.pos - start_pos) % 65536,
     original_hash := hashChars scanned.2,
     normalized_hash := hash_placeholder TokenType.STRING_LITERAL }, st2)

/-- `CppNormalizer::consume_digits_with_separator` (the separator is
the C++14 digit separator, a single quote). -/
def consume_digits_with_separator (p : Char → Bool) :
    Nat → TokenizerState → List Char → TokenizerState × List Char
  | 0, st, v => (st, v)
  | fuel + 1, st, v =>
    if st.eof then (st, v) else
    let c := st.peek
    if p c then consume_digits_with_separator p fuel st.advance (v ++ [c])
    else if c = '\'' then consume_digits_with_separator p fuel st.advance v
    else (st, v)

/-- `CppNormalizer::parse_hex_number` (the caller checked the leading
zero). -/
def parse_hex_number (st : TokenizerState) (v : List Char) :
    Option (TokenizerState × List Char) :=
  let next := st.peek_next
  if next ≠ 'x' ∧ next ≠ 'X' then none else
  some (consume_digits_with_separator is_hex_digit (st.src.length + 1)
          st.advance.advance (v ++ [st.peek, next]))

/-- `CppNormalizer::parse_binary_number`. -/
def parse_binary_number (st : TokenizerState) (v : List Char) :
    Option (TokenizerState × List Char) :=
  let next := st.peek_next
  if next ≠ 'b' ∧ next ≠ 'B' then none else
  some (consume_digits_with_separator is_binary_digit (st.src.length + 1)
          st.advance.advance (v ++ [st.peek, next]))

/-- `CppNormalizer::parse_octal_number` (a digit `0`–`7` after the
leading zero). -/
def parse_octal_number (st : TokenizerState) (v : List Char) :
    Option (TokenizerState × List Char) :=
  let next := st.peek_next
  if next < '0' ∨ '7' < next then none else
  some (consume_digits_with_separator is_octal_digit (st.src.length + 1)
          st.advance (v ++ [st.peek]))

/-- `CppNormalizer::parse_integer_part`. -/
def parse_integer_part (st : TokenizerState) (v : List Char) :
    TokenizerState × List Char :=
  consume_digits_with_separator is_digit (st.src.length + 1) st v

/-- `CppNormalizer::parse_decimal_part`. -/
def parse_decimal_part (st : TokenizerState) (v : List Char) :
    TokenizerState × List Char :=
  if st.peek ≠ '.' then (st, v) else
  let next := st.peek_next
  if ¬is_digit next ∧ next ≠ 'e' ∧ next ≠ 'E' then (st, v) else
  consume_digits_with_separator is_digit (st.src.length + 1) st.advance
    (v ++ ['.'])

/-- `CppNormalizer::parse_exponent_part`. -/
def parse_exponent_part (st : TokenizerState) (v : List Char) :
    TokenizerState × List Char :=
  if st.peek ≠ 'e' ∧ st.peek ≠ 'E' then (st, v) else
  let st1 := st.advance
  let v1 := v ++ [st.peek]
  let signed :=
    if st1.peek = '+' ∨ st1.peek = '-' then (st1.advance, v1 ++ [st1.peek])
    else (st1, v1)
  consume_digits_with_separator is_digit (st.src.length + 1) signed.1 signed.2

/-- `CppNormalizer::skip_number_suffix`. -/
def skip_number_suffix : Nat → TokenizerState → TokenizerState
  | 0, st => st
  | fuel + 1, st =>
    if st.eof then st else
    let c := st.peek
    if c = 'u' ∨ c = 'U' ∨ c = 'l' ∨ c = 'L' ∨ c = 'f' ∨ c = 'F' then
      skip_number_suffix fuel st.advance
    else st

/-- `CppNormalizer::parse_number`. -/
def parse_number (st0 : TokenizerState) : NormalizedToken × TokenizerState :=
  let line := st0.line
  let column := st0.column
  let start_pos := st0.pos
  let afterZero :=
    if st0.peek = '0' ∧ ¬st0.eof then
      match parse_hex_number st0 [] with
      | some r => r
      | none =>
        match parse_binary_number st0 [] with
        | some r => r
        | none =>
          match parse_octal_number st0 [] with
          | some r => r
          | none => (st0.advance, [st0.peek])
    else (st0, [])
  let afterInt :=
    if afterZero.2.isEmpty then parse_integer_part afterZero.1 afterZero.2
    else afterZero
  let r2 := parse_decimal_part afterInt.1 afterInt.2
  let r3 := parse_exponent_part r2.1 r2.2
  let st4 := skip_number_suffix (r3.1.src.length + 1) r3.1
  ({ type := TokenType.NUMBER_LITERAL, line := line, column := column,
     length := (st4.pos - start_pos) % 65536,
     original_hash := hashChars r3.2,
     normalized_hash := hash_placeholder TokenType.NUMBER_LITERAL }, st4)

/-- The identifier-consuming loop of
`CppNormalizer::parse_identifier_or_keyword`. -/
def ident_loop : Nat → TokenizerState → List Char → TokenizerState × List Char
  | 0, st, v => (st, v)
  | fuel + 1, st, v =>
    if st.eof then (st, v) else
    if is_identifier_char st.peek then ident_loop fuel st.advance (v ++ [st.peek])
    else (st, v)

/-- `CppNormalizer::parse_identifier_or_keyword`. -/
def parse_identifier_or_keyword (st0 : TokenizerState) :
    NormalizedToken × TokenizerState :=
  let line := st0.line
  let column := st0.column
  let start_pos := st0.pos
  let scanned := ident_loop (st0.src.length + 1) st0 []
  let value := String.mk scanned.2
  let base : NormalizedToken :=
    { line := line, column := column,
      length := (scanned.1.pos - start_pos) % 65536,
      original_hash := hash_string value }
  let tok :=
    if value ∈ keywords ∨ value ∈ modern_keywords then
      { base with type := TokenType.KEYWORD,
                  normalized_hash := base.original_hash }
    else if value ∈ builtin_types then
      { base with type := TokenType.TYPE,
                  normalized_hash := hash_placeholder TokenType.TYPE }
    else
      { base with type := TokenType.IDENTIFIER,
                  normalized_hash := hash_placeholder TokenType.IDENTIFIER }
  (tok, scanned.1)

/-- `CppNormalizer::try_match_four_char_operator` (the single
non-standard `>>>=` entry, preserved for fidelity). -/
def try_match_four_char_operator (st : TokenizerState) :
    Option (TokenizerState × List Char) :=
  if st.src.length ≤ st.pos + 3 then none else
  let four := (st.src.drop st.pos).take 4
  if four = ">>>=".data then some (st.advance_n 4, four) else none

/-- The fixed table of `CppNormalizer::try_match_three_char_operator`. -/
def three_char_ops : List (List Char) :=
  ["<<=", ">>=", "<=>", "->*", "..."].map String.data

/-- `CppNormalizer::try_match_three_char_operator`. -/
def try_match_three_char_operator (st : TokenizerState) :
    Option (TokenizerState × List Char) :=
  if st.src.length ≤ st.pos + 2 then none else
  let three := (st.src.drop st.pos).take 3
  if three ∈ three_char_ops then some (st.advance.advance.advance, three)
  else none

/-- The fixed table of `CppNormalizer::try_match_two_char_operator`. -/
def two_char_ops : List (List Char) :=
  ["==", "!=", "<=", ">=", "+=", "-=", "*=", "/=", "%=", "&=", "|=",
   "^=", "++", "--", "&&", "||", "<<", ">>", "->", "::", ".*", "##"].map
    String.data

/-- `CppNormalizer::try_match_two_char_operator`. -/
def try_match_two_char_operator (st : TokenizerState) :
    Option (TokenizerState × List Char) :=
  if st.src.length ≤ st.pos + 1 then none else
  let two := (st.src.drop st.pos).take 2
  if two ∈ two_char_ops then some (st.advance.advance, two)
  else none

/-- `CppNormalizer::is_punctuation`. -/
def is_punctuation (op : List Char) : Bool :=
  op ∈ (["(", ")", "[", "]", "\x7b", "\x7d", ",", ":", ";", "."].map
          String.data)

/-- `CppNormalizer::parse_operator`. -/
def parse_operator (st0 : TokenizerState) : NormalizedToken × TokenizerState :=
  let line := st0.line
  let column := st0.column
  let start_pos := st0.pos
  let matched :=
    match try_match_four_char_operator st0 with
    | some r => r
    | none =>
      match try_match_three_char_operator st0 with
      | some r => r
      | none =>
        match try_match_two_char_operator st0 with
        | some r => r
        | none => (st0.advance, [st0.peek])
  let value := matched.2
  let h := hashChars value
  ({ type := if is_punctuation value then TokenType.PUNCTUATION
             else TokenType.OPERATOR,
     line := line, column := column,
     length := (matched.1.pos - start_pos) % 65536,
     original_hash := h, normalized_hash := h }, matched.1)

/-- The directive-consuming loop of `CppNormalizer::skip_preprocessor`
(backslash line continuations honoured, no parenthesis handling). -/
def skip_preprocessor_loop : Nat → TokenizerState → TokenizerState
  | 0, st => st
  | fuel + 1, st =>
    if st.eof then st else
    let c := st.peek
    if c = '\n' then st
    else if c = '\\' then
      let st1 := st.advance
      if ¬st1.eof ∧ st1.peek = '\n' then skip_preprocessor_loop fuel st1.advance
      else skip_preprocessor_loop fuel st1
    else skip_preprocessor_loop fuel st.advance

/-- `CppNormalizer::skip_preprocessor`. -/
def skip_preprocessor (st : TokenizerState) : TokenizerState :=
  skip_preprocessor_loop (st.src.length + 1) st.advance

/-- `CppNormalizer::skip_single_line_comment`. -/
def skip_single_line_comment : Nat → TokenizerState → TokenizerState
  | 0, st => st
  | fuel + 1, st =>
    if st.eof then st else
    if st.peek = '\n' then st
    else skip_single_line_comment fuel st.advance

/-- The closing-marker search of `CppNormalizer::skip_multi_line_comment`. -/
def multi_line_comment_loop : Nat → TokenizerState → TokenizerState
  | 0, st => st
  | fuel + 1, st =>
    if st.eof then st else
    if st.peek = '*' ∧ st.peek_next = '/' then st.advance.advance
    else multi_line_comment_loop fuel st.advance

/-- `CppNormalizer::skip_multi_line_comment`. -/
def skip_multi_line_comment (st : TokenizerState) : TokenizerState :=
  let st2 := st.advance.advance
  multi_line_comment_loop (st2.src.length + 1) st2

/-- The local line-metric state of `CppNormalizer::normalize`
(`size_t` counters, `uint32_t` current line, two flags). -/
structure LineMetrics where
  code_lines : Nat := 0
  blank_lines : Nat := 0
  comment_lines : Nat := 0
  current_line : Nat := 0
  line_has_code : Bool := false
  line_has_comment : Bool := false
deriving DecidableEq, Repr

/-- `CppNormalizer::handle_line_metrics`. -/
def handle_line_metrics (st : TokenizerState) (m : LineMetrics) : LineMetrics :=
  if st.line ≠ m.current_line then
    let m1 :=
      if 0 < m.current_line then
        if m.line_has_code then { m with code_lines := m.code_lines + 1 }
        else if m.line_has_comment then
          { m with comment_lines := m.comment_lines + 1 }
        else { m with blank_lines := m.blank_lines + 1 }
      else m
    { m1 with current_line := st.line, line_has_code := false,
              line_has_comment := false }
  else m

/-- `CppNormalizer::skip_whitespace_and_newline`. -/
def skip_whitespace_and_newline (st : TokenizerState) :
    Option TokenizerState :=
  let c := st.peek
  if c = ' ' ∨ c = '\t' ∨ c = '\r' then some st.advance
  else if c = '\n' then some st.advance
  else none

/-- `CppNormalizer::process_preprocessor`: a directive is recognised
only with `#` at true line start; the whole line is consumed, counted
as code, and no token is emitted. -/
def process_preprocessor (st : TokenizerState) (m : LineMetrics) :
    Option (TokenizerState × LineMetrics) :=
  if st.peek = '#' ∧ st.atLineStart then
    some (skip_preprocessor st, { m with line_has_code := true })
  else none

/-- `CppNormalizer::process_comment`. -/
def process_comment (st : TokenizerState) (m : LineMetrics) :
    Option (TokenizerState × LineMetrics) :=
  if st.peek = '/' ∧ st.peek_next = '/' then
    some (skip_single_line_comment (st.src.length + 1) st,
          { m with line_has_comment := true })
  else if st.peek = '/' ∧ st.peek_next = '*' then
    some (skip_multi_line_comment st, { m with line_has_comment := true })
  else none

/-- `CppNormalizer::process_string_literal` (raw, plain/prefixed, and
character literals, in that priority order). -/
def process_string_literal (st : TokenizerState) (r : TokenizedFile)
    (m : LineMetrics) :
    Option (TokenizerState × TokenizedFile × LineMetrics) :=
  let c := st.peek
  if c = 'R' ∧ st.peek_next = '"' then
    let p := parse_raw_string st
    some (p.2, { r with tokens := r.tokens ++ [p.1] },
          { m with line_has_code := true })
  else if c = '"' ∨
          ((c = 'L' ∨ c = 'u' ∨ c = 'U') ∧ st.peek_next = '"') ∨
          (c = 'u' ∧ st.peek_next = '8' ∧ st.peek_at 2 = '"') then
    let p := parse_string st
    some (p.2, { r with tokens := r.tokens ++ [p.1] },
          { m with line_has_code := true })
  else if c = '\'' ∨
          ((c = 'L' ∨ c = 'u' ∨ c = 'U') ∧ st.peek_next = '\'') ∨
          (c = 'u' ∧ st.peek_next = '8' ∧ st.peek_at 2 = '\'') then
    let p := parse_char st
    some (p.2, { r with tokens := r.tokens ++ [p.1] },
          { m with line_has_code := true })
  else none

/-- `CppNormalizer::process_number`. -/
def process_number (st : TokenizerState) (r : TokenizedFile)
    (m : LineMetrics) :
    Option (TokenizerState × TokenizedFile × LineMetrics) :=
  if is_digit st.peek ∨ (st.peek = '.' ∧ is_digit st.peek_next) then
    let p := parse_number st
    some (p.2, { r with tokens := r.tokens ++ [p.1] },
          { m with line_has_code := true })
  else none

/-- `CppNormalizer::process_identifier`. -/
def process_identifier (st : TokenizerState) (r : TokenizedFile)
    (m : LineMetrics) :
    Option (TokenizerState × TokenizedFile × LineMetrics) :=
  if is_identifier_start st.peek then
    let p := parse_identifier_or_keyword st
    some (p.2, { r with tokens := r.tokens ++ [p.1] },
          { m with line_has_code := true })
  else none

/-- `CppNormalizer::process_operator`. -/
def process_operator (st : TokenizerState) (r : TokenizedFile)
    (m : LineMetrics) :
    Option (TokenizerState × TokenizedFile × LineMetrics) :=
  if is_operator_char st.peek then
    let p := parse_operator st
    some (p.2, { r with tokens := r.tokens ++ [p.1] },
          { m with line_has_code := true })
  else none

/-- The token-class dispatch chain inside `CppNormalizer::normalize`. -/
def dispatch (st : TokenizerState) (m : LineMetrics) (r : TokenizedFile) :
    TokenizerState × LineMetrics × TokenizedFile :=
  match skip_whitespace_and_newline st with
  | some st1 => (st1, m, r)
  | none =>
  match process_preprocessor st m with
  | some p => (p.1, p.2, r)
  | none =>
  match process_comment st m with
  | some p => (p.1, p.2, r)
  | none =>
  match process_string_literal st r m with
  | some p => (p.1, p.2.2, p.2.1)
  | none =>
  match process_number st r m with
  | some p => (p.1, p.2.2, p.2.1)
  | none =>
  match process_identifier st r m with
  | some p => (p.1, p.2.2, p.2.1)
  | none =>
  match process_operator st r m with
  | some p => (p.1, p.2.2, p.2.1)
  | none => (st.advance, m, r)

/-- The main `while (!state.eof())` loop of `CppNormalizer::normalize`. -/
def loop : Nat → TokenizerState → LineMetrics → TokenizedFile →
    Option (TokenizerState × LineMetrics × TokenizedFile)
  | 0, _, _, _ => none
  | fuel + 1, st, m, r =>
    if st.eof then some (st, m, r) else
    let m1 := handle_line_metrics st m
    let d := dispatch st m1 r
    loop fuel d.1 d.2.1 d.2.2

/-- The `Handle final line` block at the end of
`CppNormalizer::normalize`. -/
def final_line_bump (m : LineMetrics) : LineMetrics :=
  if 0 < m.current_line then
    if m.line_has_code then { m with code_lines := m.code_lines + 1 }
    else if m.line_has_comment then
      { m with comment_lines := m.comment_lines + 1 }
    else { m with blank_lines := m.blank_lines + 1 }
  else m

/-- `CppNormalizer::normalize`. -/
def normalize (source : List Char) : TokenizedFile :=
  match loop (source.length + 1) { src := source } {} {} with
  | none => {}
  | some (st, m, r) =>
    let m1 := final_line_bump m
    { r with
      total_lines :=
        if source.isEmpty then 0
        else if st.column = 1 ∧ 1 < st.line then st.line - 1 else st.line,
      code_lines := m1.code_lines,
      blank_lines := m1.blank_lines,
      comment_lines := m1.comment_lines }

end CppNormalizer

/-!  Auxiliary predicates used by the theorems below. -/

/-- The per-token hashing discipline of spec §3: structural kinds
(KEYWORD/OPERATOR/PUNCTUATION) keep their content hash; abstracted kinds
(IDENTIFIER/TYPE/STRING_LITERAL/NUMBER_LITERAL) get the fixed per-kind
placeholder; the Python structural markers also keep their hash. -/
def TokOK (t : NormalizedToken) : Prop :=
  (t.type = TokenType.KEYWORD ∨ t.type = TokenType.OPERATOR ∨
     t.type = TokenType.PUNCTUATION → t.normalized_hash = t.original_hash) ∧
  (t.type = TokenType.IDENTIFIER ∨ t.type = TokenType.TYPE ∨
     t.type = TokenType.STRING_LITERAL ∨ t.type = TokenType.NUMBER_LITERAL →
     t.normalized_hash = hash_placeholder t.type) ∧
  (t.type = TokenType.NEWLINE ∨ t.type = TokenType.INDENT ∨
     t.type = TokenType.DEDENT → t.normalized_hash = t.original_hash)

/-- Number of INDENT tokens in a token list. -/
def countIndent (l : List NormalizedToken) : Nat :=
  l.countP (fun t => t.type = TokenType.INDENT)

/-- Number of DEDENT tokens in a token list. -/
def countDedent (l : List NormalizedToken) : Nat :=
  l.countP (fun t => t.type = TokenType.DEDENT)

/-- No two adjacent NEWLINE tokens. -/
def NoAdjacentNewlines (l : List NormalizedToken) : Prop :=
  List.Chain' (fun a b => ¬(a.type = TokenType.NEWLINE ∧
                            b.type = TokenType.NEWLINE)) l

/-- The docstring-context condition exactly as the claim words it:
walking back from the end of the token list, skip NEWLINE, INDENT *and
DEDENT* tokens; the literal is a docstring iff nothing remains (first
token of the file) or the first remaining token is a PUNCTUATION `:`.
Written from the claim, to be compared against the code's
`is_docstring_context` (which does not skip DEDENT). -/
def docstring_context_claim (tokens : List NormalizedToken) : Bool :=
  match (tokens.reverse.dropWhile
          (fun t => t.type = TokenType.NEWLINE ∨ t.type = TokenType.INDENT ∨
                    t.type = TokenType.DEDENT)) with
  | [] => true
  | t :: _ => t.type = TokenType.PUNCTUATION ∧ t.original_hash = hash_string ":"

/-- The backwards scan the amended C5 claim describes (newest token first):
skip NEWLINE and INDENT only — not DEDENT — and demand start of file or a
PUNCTUATION token spelling a colon. -/
def docstring_amended_rev (l : List NormalizedToken) : Bool :=
  match (l.dropWhile
          (fun t => t.type = TokenType.NEWLINE ∨ t.type = TokenType.INDENT)) with
  | [] => true
  | t :: _ => t.type = TokenType.PUNCTUATION ∧ t.original_hash = hash_string ":"

/-- The docstring-context condition of the amended C5 claim. -/
def docstring_context_amended (tokens : List NormalizedToken) : Bool :=
  docstring_amended_rev tokens.reverse

/-!  Basic lemmas about the engine states. -/

namespace PythonNormalizer

theorem advance_src (st : TokenizerState) : st.advance.src = st.src := rfl

theorem advance_pos (st : TokenizerState) : st.advance.pos = st.pos + 1 := rfl

theorem not_eof_of_peek {st : TokenizerState} (h : st.peek ≠ '\x00') :
    ¬st.eof := by
  unfold TokenizerState.eof
  unfold TokenizerState.peek at h
  intro hle
  exact h (List.getD_eq_default _ _ (by simpa using hle))

end PythonNormalizer

namespace CppNormalizer

theorem advance_src_c (st : TokenizerState) : st.advance.src = st.src := rfl

theorem advance_pos_c (st : TokenizerState) : st.advance.pos = st.pos + 1 := rfl

theorem not_eof_of_peek_c {st : TokenizerState} (h : st.peek ≠ '\x00') :
    ¬st.eof := by
  unfold TokenizerState.eof
  unfold TokenizerState.peek at h
  intro hle
  exact h (List.getD_eq_default _ _ (by simpa using hle))

end CppNormalizer

/-!  Every token either engine ever appends satisfies `TokOK`. -/

namespace PythonNormalizer

theorem tokOK_parse_string (st : TokenizerState) : TokOK (parse_string st).1 := by
  unfold parse_string TokOK
  refine ⟨fun h => ?_, fun _ => rfl, fun h => ?_⟩
  · rcases h with h | h | h <;> simp at h
  · rcases h with h | h | h <;> simp at h

theorem tokOK_parse_number (st : TokenizerState) : TokOK (parse_number st).1 := by
  unfold parse_number TokOK
  refine ⟨fun h => ?_, fun _ => rfl, fun h => ?_⟩
  · rcases h with h | h | h <;> simp at h
  · rcases h with h | h | h <;> simp at h

theorem tokOK_parse_operator (st : TokenizerState) : TokOK (parse_operator st).1 := by
  unfold parse_operator TokOK
  refine ⟨fun _ => rfl, fun h => ?_, fun h => ?_⟩
  · rcases h with h | h | h | h <;> revert h <;> dsimp only <;>
      split <;> intro h <;> simp at h
  · rcases h with h | h | h <;> revert h <;> dsimp only <;>
      split <;> intro h <;> simp at h

theorem tokOK_parse_identifier_or_keyword (st : TokenizerState) :
    TokOK (parse_identifier_or_keyword st).1 := by
  unfold parse_identifier_or_keyword TokOK
  dsimp only
  split
  · refine ⟨fun _ => rfl, fun h => ?_, fun h => ?_⟩
    · rcases h with h | h | h | h <;> simp at h
    · rcases h with h | h | h <;> simp at h
  · split
    · refine ⟨fun h => ?_, fun _ => rfl, fun h => ?_⟩
      · rcases h with h | h | h <;> simp at h
      · rcases h with h | h | h <;> simp at h
    · refine ⟨fun h => ?_, fun _ => rfl, fun h => ?_⟩
      · rcases h with h | h | h <;> simp at h
      · rcases h with h | h | h <;> simp at h

theorem tokOK_handle_indentation (st : TokenizerState) (cur : Nat) :
    ∀ t ∈ (handle_indentation st cur).2, TokOK t := by
  unfold handle_indentation
  dsimp only
  split
  · intro t ht
    simp only [List.mem_singleton] at ht
    subst ht
    exact ⟨fun h => by rcases h with h | h | h <;> simp at h,
           fun h => by rcases h with h | h | h | h <;> simp at h,
           fun _ => rfl⟩
  · split
    · intro t ht
      rw [List.eq_of_mem_replicate ht]
      exact ⟨fun h => by rcases h with h | h | h <;> simp at h,
             fun h => by rcases h with h | h | h | h <;> simp at h,
             fun _ => rfl⟩
    · intro t ht
      simp at ht

theorem tokens_process_newline {st : TokenizerState} {c : Char}
    {r : TokenizedFile} {out : TokenizerState × TokenizedFile}
    (h : process_newline st c r = some out) :
    ∀ t ∈ out.2.tokens, t ∈ r.tokens ∨ TokOK t := by
  unfold process_newline at h
  split at h
  · exact absurd h (by simp)
  · split at h
    · cases h
      intro t ht
      exact Or.inl ht
    · split at h
      · cases h
        intro t ht
        rcases List.mem_append.mp ht with h1 | h1
        · exact Or.inl h1
        · simp only [List.mem_singleton] at h1
          subst h1
          exact Or.inr ⟨fun h => by rcases h with h | h | h <;> simp at h,
            fun h => by rcases h with h | h | h | h <;> simp at h,
            fun _ => rfl⟩
      · cases h
        intro t ht
        exact Or.inl ht

theorem tokens_process_string_or_docstring {st : TokenizerState} {c : Char}
    {r : TokenizedFile} {m : LineMetrics}
    {out : TokenizerState × TokenizedFile × LineMetrics}
    (h : process_string_or_docstring st c r m = some out) :
    ∀ t ∈ out.2.1.tokens, t ∈ r.tokens ∨ TokOK t := by
  unfold process_string_or_docstring at h
  split at h
  · split at h
    · cases h
      intro t ht
      exact Or.inl ht
    · cases h
      intro t ht
      rcases List.mem_append.mp ht with h1 | h1
      · exact Or.inl h1
      · simp only [List.mem_singleton] at h1
        subst h1
        exact Or.inr (tokOK_parse_string st)
  · split at h
    · cases h
      intro t ht
      rcases List.mem_append.mp ht with h1 | h1
      · exact Or.inl h1
      · simp only [List.mem_singleton] at h1
        subst h1
        exact Or.inr (tokOK_parse_string st.advance)
    · split at h
      · cases h
        intro t ht
        rcases List.mem_append.mp ht with h1 | h1
        · exact Or.inl h1
        · simp only [List.mem_singleton] at h1
          subst h1
          exact Or.inr (tokOK_parse_string st.advance.advance)
      · exact absurd h (by simp)

theorem tokens_process_number {st : TokenizerState} {c : Char}
    {r : TokenizedFile} {m : LineMetrics}
    {out : TokenizerState × TokenizedFile × LineMetrics}
    (h : process_number st c r m = some out) :
    ∀ t ∈ out.2.1.tokens, t ∈ r.tokens ∨ TokOK t := by
  unfold process_number at h
  split at h
  · exact absurd h (by simp)
  · cases h
    intro t ht
    rcases List.mem_append.mp ht with h1 | h1
    · exact Or.inl h1
    · simp only [List.mem_singleton] at h1
      subst h1
      exact Or.inr (tokOK_parse_number st)

theorem tokens_process_identifier {st : TokenizerState} {c : Char}
    {r : TokenizedFile} {m : LineMetrics}
    {out : TokenizerState × TokenizedFile × LineMetrics}
    (h : process_identifier st c r m = some out) :
    ∀ t ∈ out.2.1.tokens, t ∈ r.tokens ∨ TokOK t := by
  unfold process_identifier at h
  split at h
  · exact absurd h (by simp)
  · cases h
    intro t ht
    rcases List.mem_append.mp ht with h1 | h1
    · exact Or.inl h1
    · simp only [List.mem_singleton] at h1
      subst h1
      exact Or.inr (tokOK_parse_identifier_or_keyword st)

theorem tokens_process_operator {st : TokenizerState} {c : Char}
    {r : TokenizedFile} {m : LineMetrics}
    {out : TokenizerState × TokenizedFile × LineMetrics}
    (h : process_operator st c r m = some out) :
    ∀ t ∈ out.2.1.tokens, t ∈ r.tokens ∨ TokOK t := by
  unfold process_operator at h
  split at h
  · exact absurd h (by simp)
  · cases h
    intro t ht
    rcases List.mem_append.mp ht with h1 | h1
    · exact Or.inl h1
    · simp only [List.mem_singleton] at h1
      subst h1
      exact Or.inr (tokOK_parse_operator st)

theorem tokens_process_indentation (st : TokenizerState) (r : TokenizedFile) :
    ∀ t ∈ (process_indentation st r).2.tokens, t ∈ r.tokens ∨ TokOK t := by
  unfold process_indentation
  dsimp only
  split
  · intro t ht
    rcases List.mem_append.mp ht with h1 | h1
    · exact Or.inl h1
    · exact Or.inr (tokOK_handle_indentation _ _ _ h1)
  · intro t ht
    exact Or.inl ht

theorem tokens_dispatch (st : TokenizerState) (c : Char) (m : LineMetrics)
    (r : TokenizedFile) :
    ∀ t ∈ (dispatch st c m r).2.2.tokens, t ∈ r.tokens ∨ TokOK t := by
  unfold dispatch
  cases h1 : skip_whitespace st c with
  | some _ => exact fun t ht => Or.inl ht
  | none =>
  cases h2 : process_newline st c r with
  | some p => exact tokens_process_newline h2
  | none =>
  cases h3 : process_comment st c m with
  | some _ => exact fun t ht => Or.inl ht
  | none =>
  cases h4 : process_import st m with
  | some _ => exact fun t ht => Or.inl ht
  | none =>
  cases h5 : process_string_or_docstring st c r m with
  | some p => exact tokens_process_string_or_docstring h5
  | none =>
  cases h6 : process_number st c r m with
  | some p => exact tokens_process_number h6
  | none =>
  cases h7 : process_identifier st c r m with
  | some p => exact tokens_process_identifier h7
  | none =>
  cases h8 : process_operator st c r m with
  | some p => exact tokens_process_operator h8
  | none => exact fun t ht => Or.inl ht

theorem tokens_loop :
    ∀ (fuel : Nat) (st : TokenizerState) (m : LineMetrics) (r : TokenizedFile)
      (out : TokenizerState × LineMetrics × TokenizedFile),
      loop fuel st m r = some out →
      ∀ t ∈ out.2.2.tokens, t ∈ r.tokens ∨ TokOK t := by
  intro fuel
  induction fuel with
  | zero => intro st m r out h; exact absurd h (by simp [loop])
  | succ fuel ih =>
    intro st m r out h
    unfold loop at h
    split at h
    · cases h
      exact fun t ht => Or.inl ht
    · simp only [] at h
      split at h
      · split at h
        · cases h
          exact tokens_process_indentation st r
        · intro t ht
          rcases ih _ _ _ _ h t ht with h1 | h1
          · rcases tokens_dispatch _ _ _ _ t h1 with h2 | h2
            · rcases tokens_process_indentation st r t h2 with h3 | h3
              · exact Or.inl h3
              · exact Or.inr h3
            · exact Or.inr h2
          · exact Or.inr h1
      · intro t ht
        rcases ih _ _ _ _ h t ht with h1 | h1
        · exact tokens_dispatch _ _ _ _ t h1
        · exact Or.inr h1

/-- Every token produced by the Python engine satisfies the per-kind
hashing discipline. -/
theorem tokens_ok (source : List Char) :
    ∀ t ∈ (normalize source).tokens, TokOK t := by
  unfold normalize
  cases h : loop (source.length + 1) { src := source } {} {} with
  | none => intro t ht; exact absurd ht (by simp)
  | some out =>
    obtain ⟨st, m, r⟩ := out
    intro t ht
    unfold finalize_metrics emit_remaining_dedents at ht
    dsimp only at ht
    rcases List.mem_append.mp ht with h1 | h1
    · rcases tokens_loop _ _ _ _ _ h t h1 with h2 | h2
      · exact absurd h2 (by simp)
      · exact h2
    · rw [List.eq_of_mem_replicate h1]
      exact ⟨fun h => by rcases h with h | h | h <;> simp at h,
             fun h => by rcases h with h | h | h | h <;> simp at h,
             fun _ => rfl⟩

end PythonNormalizer

namespace CppNormalizer

theorem tokOK_parse_string_c (st : TokenizerState) : TokOK (parse_string st).1 := by
  unfold parse_string TokOK
  refine ⟨fun h => ?_, fun _ => rfl, fun h => ?_⟩
  · rcases h with h | h | h <;> simp at h
  · rcases h with h | h | h <;> simp at h

theorem tokOK_parse_raw_string (st : TokenizerState) :
    TokOK (parse_raw_string st).1 := by
  unfold parse_raw_string TokOK
  refine ⟨fun h => ?_, fun _ => rfl, fun h => ?_⟩
  · rcases h with h | h | h <;> simp at h
  · rcases h with h | h | h <;> simp at h

theorem tokOK_parse_char (st : TokenizerState) : TokOK (parse_char st).1 := by
  unfold parse_char TokOK
  refine ⟨fun h => ?_, fun _ => rfl, fun h => ?_⟩
  · rcases h with h | h | h <;> simp at h
  · rcases h with h | h | h <;> simp at h

theorem tokOK_parse_number_c (st : TokenizerState) : TokOK (parse_number st).1 := by
  unfold parse_number TokOK
  refine ⟨fun h => ?_, fun _ => rfl, fun h => ?_⟩
  · rcases h with h | h | h <;> simp at h
  · rcases h with h | h | h <;> simp at h

theorem tokOK_parse_operator_c (st : TokenizerState) : TokOK (parse_operator st).1 := by
  unfold parse_operator TokOK
  refine ⟨fun _ => rfl, fun h => ?_, fun h => ?_⟩
  · rcases h with h | h | h | h <;> revert h <;> dsimp only <;>
      split <;> intro h <;> simp at h
  · rcases h with h | h | h <;> revert h <;> dsimp only <;>
      split <;> intro h <;> simp at h

theorem tokOK_parse_identifier_or_keyword_c (st : TokenizerState) :
    TokOK (parse_identifier_or_keyword st).1 := by
  unfold parse_identifier_or_keyword TokOK
  dsimp only
  split
  · refine ⟨fun _ => rfl, fun h => ?_, fun h => ?_⟩
    · rcases h with h | h | h | h <;> simp at h
    · rcases h with h | h | h <;> simp at h
  · split
    · refine ⟨fun h => ?_, fun _ => rfl, fun h => ?_⟩
      · rcases h with h | h | h <;> simp at h
      · rcases h with h | h | h <;> simp at h
    · refine ⟨fun h => ?_, fun _ => rfl, fun h => ?_⟩
      · rcases h with h | h | h <;> simp at h
      · rcases h with h | h | h <;> simp at h

theorem tokens_process_string_literal {st : TokenizerState}
    {r : TokenizedFile} {m : LineMetrics}
    {out : TokenizerState × TokenizedFile × LineMetrics}
    (h : process_string_literal st r m = some out) :
    ∀ t ∈ out.2.1.tokens, t ∈ r.tokens ∨ TokOK t := by
  unfold process_string_literal at h
  simp only [] at h
  split at h
  · obtain rfl := Option.some.inj h
    intro t ht
    rcases List.mem_append.mp ht with h1 | h1
    · exact Or.inl h1
    · simp only [List.mem_singleton] at h1
      subst h1
      exact Or.inr (tokOK_parse_raw_string st)
  · split at h
    · obtain rfl := Option.some.inj h
      intro t ht
      rcases List.mem_append.mp ht with h1 | h1
      · exact Or.inl h1
      · simp only [List.mem_singleton] at h1
        subst h1
        exact Or.inr (tokOK_parse_string_c st)
    · split at h
      · obtain rfl := Option.some.inj h
        intro t ht
        rcases List.mem_append.mp ht with h1 | h1
        · exact Or.inl h1
        · simp only [List.mem_singleton] at h1
          subst h1
          exact Or.inr (tokOK_parse_char st)
      · exact Option.noConfusion h

theorem tokens_process_number_c {st : TokenizerState}
    {r : TokenizedFile} {m : LineMetrics}
    {out : TokenizerState × TokenizedFile × LineMetrics}
    (h : process_number st r m = some out) :
    ∀ t ∈ out.2.1.tokens, t ∈ r.tokens ∨ TokOK t := by
  unfold process_number at h
  split at h
  · obtain rfl := Option.some.inj h
    intro t ht
    rcases List.mem_append.mp ht with h1 | h1
    · exact Or.inl h1
    · simp only [List.mem_singleton] at h1
      subst h1
      exact Or.inr (tokOK_parse_number_c st)
  · exact Option.noConfusion h

theorem tokens_process_identifier_c {st : TokenizerState}
    {r : TokenizedFile} {m : LineMetrics}
    {out : TokenizerState × TokenizedFile × LineMetrics}
    (h : process_identifier st r m = some out) :
    ∀ t ∈ out.2.1.tokens, t ∈ r.tokens ∨ TokOK t := by
  unfold process_identifier at h
  split at h
  · obtain rfl := Option.some.inj h
    intro t ht
    rcases List.mem_append.mp ht with h1 | h1
    · exact Or.inl h1
    · simp only [List.mem_singleton] at h1
      subst h1
      exact Or.inr (tokOK_parse_identifier_or_keyword_c st)
  · exact Option.noConfusion h

theorem tokens_process_operator_c {st : TokenizerState}
    {r : TokenizedFile} {m : LineMetrics}
    {out : TokenizerState × TokenizedFile × LineMetrics}
    (h : process_operator st r m = some out) :
    ∀ t ∈ out.2.1.tokens, t ∈ r.tokens ∨ TokOK t := by
  unfold process_operator at h
  split at h
  · obtain rfl := Option.some.inj h
    intro t ht
    rcases List.mem_append.mp ht with h1 | h1
    · exact Or.inl h1
    · simp only [List.mem_singleton] at h1
      subst h1
      exact Or.inr (tokOK_parse_operator_c st)
  · exact Option.noConfusion h

theorem tokens_dispatch_c (st : TokenizerState) (m : LineMetrics)
    (r : TokenizedFile) :
    ∀ t ∈ (dispatch st m r).2.2.tokens, t ∈ r.tokens ∨ TokOK t := by
  unfold dispatch
  cases h1 : skip_whitespace_and_newline st with
  | some _ => exact fun t ht => Or.inl ht
  | none =>
  cases h2 : process_preprocessor st m with
  | some _ => exact fun t ht => Or.inl ht
  | none =>
  cases h3 : process_comment st m with
  | some _ => exact fun t ht => Or.inl ht
  | none =>
  cases h4 : process_string_literal st r m with
  | some p => exact tokens_process_string_literal h4
  | none =>
  cases h5 : process_number st r m with
  | some p => exact tokens_process_number_c h5
  | none =>
  cases h6 : process_identifier st r m with
  | some p => exact tokens_process_identifier_c h6
  | none =>
  cases h7 : process_operator st r m with
  | some p => exact tokens_process_operator_c h7
  | none => exact fun t ht => Or.inl ht

theorem tokens_loop_c :
    ∀ (fuel : Nat) (st : TokenizerState) (m : LineMetrics) (r : TokenizedFile)
      (out : TokenizerState × LineMetrics × TokenizedFile),
      loop fuel st m r = some out →
      ∀ t ∈ out.2.2.tokens, t ∈ r.tokens ∨ TokOK t := by
  intro fuel
  induction fuel with
  | zero => intro st m r out h; exact absurd h (by simp [loop])
  | succ fuel ih =>
    intro st m r out h
    unfold loop at h
    split at h
    · cases h
      exact fun t ht => Or.inl ht
    · simp only [] at h
      intro t ht
      rcases ih _ _ _ _ h t ht with h1 | h1
      · exact tokens_dispatch_c _ _ _ t h1
      · exact Or.inr h1

/-- Every token produced by the C/C++-family engine satisfies the
per-kind hashing discipline. -/
theorem tokens_ok_c (source : List Char) :
    ∀ t ∈ (normalize source).tokens, TokOK t := by
  unfold normalize
  cases h : loop (source.length + 1) { src := source } {} {} with
  | none => intro t ht; exact absurd ht (by simp)
  | some out =>
    obtain ⟨st, m, r⟩ := out
    intro t ht
    dsimp only at ht
    rcases tokens_loop_c _ _ _ _ _ h t ht with h2 | h2
    · exact absurd h2 (by simp)
    · exact h2

end CppNormalizer

/-- C3.  For every input text and every token in the output of
`normalize` (Python or C/C++ engine), a token of kind KEYWORD, OPERATOR
or PUNCTUATION has `normalized_hash = original_hash`. -/
theorem C3_structural_tokens_preserve_hash (src : List Char)
    (t : NormalizedToken)
    (hmem : t ∈ (PythonNormalizer.normalize src).tokens ∨
            t ∈ (CppNormalizer.normalize src).tokens)
    (hkind : t.type = TokenType.KEYWORD ∨ t.type = TokenType.OPERATOR ∨
             t.type = TokenType.PUNCTUATION) :
    t.normalized_hash = t.original_hash := by
  rcases hmem with h | h
  · exact (PythonNormalizer.tokens_ok src t h).1 hkind
  · exact (CppNormalizer.tokens_ok_c src t h).1 hkind

/-- Witness for C3: the PUNCTUATION token `;` of the C++ input `;`. -/
theorem C3_structural_tokens_preserve_hash_witness :
    ({ type := TokenType.PUNCTUATION, line := 1, column := 1, length := 1,
       original_hash := 4294967356, normalized_hash := 4294967356 } :
        NormalizedToken).normalized_hash =
      ({ type := TokenType.PUNCTUATION, line := 1, column := 1, length := 1,
         original_hash := 4294967356, normalized_hash := 4294967356 } :
          NormalizedToken).original_hash :=
  C3_structural_tokens_preserve_hash ";".data _ (Or.inr (by decide))
    (Or.inr (Or.inr rfl))

/-- C2 counterexample.  The claim quantifies over *any* two files that
are identical except for identifier spelling.  Renaming the identifier
`x` of the Python file `x"a"` to the identifier `f` (which is neither a
keyword nor a builtin type name) produces `f"a"`, where `f` is consumed
as an f-string prefix: the engine emits one token instead of two, and
the normalized_hash sequences differ instead of coinciding. -/
theorem C2_identifier_renaming_counterexample :
    (PythonNormalizer.normalize "x\"a\"".data).tokens.map
        (fun t => t.normalized_hash) ≠
      (PythonNormalizer.normalize "f\"a\"".data).tokens.map
        (fun t => t.normalized_hash) ∧
    ¬("f" ∈ PythonNormalizer.keywords ∨ "f" ∈ PythonNormalizer.builtin_types) := by
  decide

/-- C2 as amended.  Normalized hashes are content-blind: in either
engine, every IDENTIFIER/TYPE/STRING_LITERAL/NUMBER_LITERAL token
carries the fixed per-kind placeholder as its `normalized_hash`, so a
respelling of identifiers that leaves the token structure unchanged
leaves the normalized_hash sequence unchanged while changing the
original_hash sequence (demonstrated on the renamed pair
`x = 1` / `y = 1`); renamings that form a string prefix before a quote
are excluded, since they change the token sequence itself. -/
theorem C2_amended_normalized_hashes_content_blind :
    (∀ (src : List Char) (t : NormalizedToken),
       t ∈ (PythonNormalizer.normalize src).tokens ∨
         t ∈ (CppNormalizer.normalize src).tokens →
       t.type = TokenType.IDENTIFIER ∨ t.type = TokenType.TYPE ∨
         t.type = TokenType.STRING_LITERAL ∨
         t.type = TokenType.NUMBER_LITERAL →
       t.normalized_hash = hash_placeholder t.type) ∧
    ((PythonNormalizer.normalize "x = 1".data).tokens.map
        (fun t => t.normalized_hash) =
      (PythonNormalizer.normalize "y = 1".data).tokens.map
        (fun t => t.normalized_hash) ∧
     (PythonNormalizer.normalize "x = 1".data).tokens.map
        (fun t => t.original_hash) ≠
      (PythonNormalizer.normalize "y = 1".data).tokens.map
        (fun t => t.original_hash)) := by
  refine ⟨fun src t hmem hkind => ?_, by decide, by decide⟩
  rcases hmem with h | h
  · exact (PythonNormalizer.tokens_ok src t h).2.1 hkind
  · exact (CppNormalizer.tokens_ok_c src t h).2.1 hkind

/-- Witness for the amended C2: the IDENTIFIER token `x` of the Python
input `x = 1` carries the IDENTIFIER placeholder hash. -/
theorem C2_amended_normalized_hashes_content_blind_witness :
    ({ type := TokenType.IDENTIFIER, line := 1, column := 1, length := 1,
       original_hash := 4294967417, normalized_hash := 10002 } :
        NormalizedToken).normalized_hash =
      hash_placeholder TokenType.IDENTIFIER :=
  C2_amended_normalized_hashes_content_blind.1 "x = 1".data _
    (Or.inl (by decide)) (Or.inl rfl)

/-!  NEWLINE adjacency (Python engine). -/

namespace PythonNormalizer

/-- The invariant maintained for C7: no two adjacent NEWLINE tokens,
and the first token is never a NEWLINE. -/
def NewlineInv (l : List NormalizedToken) : Prop :=
  NoAdjacentNewlines l ∧
  ∀ t, l.head? = some t → t.type ≠ TokenType.NEWLINE

theorem chain_of_no_newline :
    ∀ l : List NormalizedToken, (∀ t ∈ l, t.type ≠ TokenType.NEWLINE) →
      List.Chain' (fun a b => ¬(a.type = TokenType.NEWLINE ∧
                                b.type = TokenType.NEWLINE)) l
  | [], _ => List.chain'_nil
  | [_], _ => List.chain'_singleton _
  | a :: b :: l, h => by
    rw [List.chain'_cons]
    exact ⟨fun hc => h b (by simp) hc.2,
           chain_of_no_newline (b :: l) (fun t ht => h t (by simp [ht]))⟩

theorem newlineInv_append {l l₂ : List NormalizedToken}
    (h : NewlineInv l) (h₂ : ∀ t ∈ l₂, t.type ≠ TokenType.NEWLINE) :
    NewlineInv (l ++ l₂) := by
  constructor
  · exact List.chain'_append.mpr
      ⟨h.1, chain_of_no_newline l₂ h₂,
       fun x _ y hy => fun hc => h₂ y (List.mem_of_mem_head? hy) hc.2⟩
  · intro t ht
    cases l with
    | nil => exact h₂ t (by simpa using List.mem_of_mem_head? ht)
    | cons a l =>
      exact h.2 t (by simpa using ht)

theorem newlineInv_append_one {l : List NormalizedToken}
    {tok : NormalizedToken} (h : NewlineInv l)
    (ht : tok.type ≠ TokenType.NEWLINE) : NewlineInv (l ++ [tok]) := by
  refine newlineInv_append h ?_
  intro t htm
  rw [List.mem_singleton] at htm
  subst htm
  exact ht

theorem newlineInv_append_after {l : List NormalizedToken}
    {last tok : NormalizedToken} (h : NewlineInv l)
    (hl : l.getLast? = some last) (hlast : last.type ≠ TokenType.NEWLINE) :
    NewlineInv (l ++ [tok]) := by
  constructor
  · refine List.chain'_append.mpr ⟨h.1, List.chain'_singleton _, ?_⟩
    intro x hx y hy
    rw [hl, Option.mem_def, Option.some_inj] at hx
    simp only [List.head?_cons, Option.mem_def, Option.some_inj] at hy
    subst hx; subst hy
    exact fun hc => hlast hc.1
  · intro t ht
    cases l with
    | nil => simp at hl
    | cons a l => exact h.2 t (by simpa using ht)

theorem type_parse_string (st : TokenizerState) :
    (parse_string st).1.type = TokenType.STRING_LITERAL := rfl

theorem type_parse_number (st : TokenizerState) :
    (parse_number st).1.type = TokenType.NUMBER_LITERAL := rfl

theorem type_parse_operator (st : TokenizerState) :
    (parse_operator st).1.type ≠ TokenType.NEWLINE := by
  unfold parse_operator
  dsimp only
  split <;> simp

theorem type_parse_identifier_or_keyword (st : TokenizerState) :
    (parse_identifier_or_keyword st).1.type ≠ TokenType.NEWLINE := by
  unfold parse_identifier_or_keyword
  dsimp only
  split
  · simp
  · split <;> simp

theorem types_handle_indentation (st : TokenizerState) (cur : Nat) :
    ∀ t ∈ (handle_indentation st cur).2, t.type ≠ TokenType.NEWLINE := by
  unfold handle_indentation
  dsimp only
  split
  · intro t ht
    rw [List.mem_singleton] at ht
    subst ht
    simp
  · split
    · intro t ht
      rw [List.eq_of_mem_replicate ht]
      simp
    · intro t ht
      simp at ht

theorem newlineInv_process_indentation {st : TokenizerState}
    {r : TokenizedFile} (h : NewlineInv r.tokens) :
    NewlineInv (process_indentation st r).2.tokens := by
  unfold process_indentation
  dsimp only
  split
  · exact newlineInv_append h (types_handle_indentation _ _)
  · exact h

theorem newlineInv_dispatch {st : TokenizerState} {c : Char}
    {m : LineMetrics} {r : TokenizedFile} (h : NewlineInv r.tokens) :
    NewlineInv (dispatch st c m r).2.2.tokens := by
  unfold dispatch
  cases h1 : skip_whitespace st c with
  | some _ => exact h
  | none =>
  cases h2 : process_newline st c r with
  | some p =>
    unfold process_newline at h2
    split at h2
    · exact Option.noConfusion h2
    · split at h2
      · obtain rfl := Option.some.inj h2
        exact h
      · split at h2
        · obtain rfl := Option.some.inj h2
          exact newlineInv_append_after h (by assumption) (by assumption)
        · obtain rfl := Option.some.inj h2
          exact h
  | none =>
  cases h3 : process_comment st c m with
  | some _ => exact h
  | none =>
  cases h4 : process_import st m with
  | some _ => exact h
  | none =>
  cases h5 : process_string_or_docstring st c r m with
  | some p =>
    unfold process_string_or_docstring at h5
    split at h5
    · split at h5
      · obtain rfl := Option.some.inj h5
        exact h
      · obtain rfl := Option.some.inj h5
        exact newlineInv_append_one h (by rw [type_parse_string]; simp)
    · split at h5
      · obtain rfl := Option.some.inj h5
        exact newlineInv_append_one h (by rw [type_parse_string]; simp)
      · split at h5
        · obtain rfl := Option.some.inj h5
          exact newlineInv_append_one h (by rw [type_parse_string]; simp)
        · exact Option.noConfusion h5
  | none =>
  cases h6 : process_number st c r m with
  | some p =>
    unfold process_number at h6
    split at h6
    · exact Option.noConfusion h6
    · obtain rfl := Option.some.inj h6
      exact newlineInv_append_one h (by rw [type_parse_number]; simp)
  | none =>
  cases h7 : process_identifier st c r m with
  | some p =>
    unfold process_identifier at h7
    split at h7
    · exact Option.noConfusion h7
    · obtain rfl := Option.some.inj h7
      exact newlineInv_append_one h (type_parse_identifier_or_keyword st)
  | none =>
  cases h8 : process_operator st c r m with
  | some p =>
    unfold process_operator at h8
    split at h8
    · exact Option.noConfusion h8
    · obtain rfl := Option.some.inj h8
      exact newlineInv_append_one h (type_parse_operator st)
  | none => exact h

theorem newlineInv_loop :
    ∀ (fuel : Nat) (st : TokenizerState) (m : LineMetrics) (r : TokenizedFile)
      (out : TokenizerState × LineMetrics × TokenizedFile),
      loop fuel st m r = some out → NewlineInv r.tokens →
      NewlineInv out.2.2.tokens := by
  intro fuel
  induction fuel with
  | zero => intro st m r out h; exact absurd h (by simp [loop])
  | succ fuel ih =>
    intro st m r out h hr
    unfold loop at h
    split at h
    · obtain rfl := Option.some.inj h
      exact hr
    · simp only [] at h
      split at h
      · split at h
        · obtain rfl := Option.some.inj h
          exact newlineInv_process_indentation hr
        · exact ih _ _ _ _ h
            (newlineInv_dispatch (newlineInv_process_indentation hr))
      · exact ih _ _ _ _ h (newlineInv_dispatch hr)

/-- The full Python token stream never contains two adjacent NEWLINE
tokens, and never starts with one. -/
theorem newlineInv_normalize (source : List Char) :
    NewlineInv (normalize source).tokens := by
  unfold normalize
  cases h : loop (source.length + 1) { src := source } {} {} with
  | none => exact ⟨List.chain'_nil, by simp⟩
  | some out =>
    obtain ⟨st, m, r⟩ := out
    unfold finalize_metrics emit_remaining_dedents
    dsimp only
    exact newlineInv_append
      (newlineInv_loop _ _ _ _ _ h ⟨List.chain'_nil, by simp⟩)
      (by intro t ht; rw [List.eq_of_mem_replicate ht]; simp)

end PythonNormalizer

/-- C7.  In the Python engine NEWLINE tokens are never duplicated: for
every input text, the output token sequence contains no two adjacent
NEWLINE tokens (and never begins with a NEWLINE), so consecutive line
breaks collapse to a single NEWLINE token. -/
theorem C7_no_adjacent_newline_tokens (src : List Char) :
    NoAdjacentNewlines (PythonNormalizer.normalize src).tokens ∧
    (∀ t, (PythonNormalizer.normalize src).tokens.head? = some t →
      t.type ≠ TokenType.NEWLINE) :=
  PythonNormalizer.newlineInv_normalize src

/-!  State evolution: every scanning step preserves the source and the
indentation stack (only the indentation handlers touch the stack) and
never moves the cursor backwards. -/

namespace PythonNormalizer

/-- What every non-indentation scanning step does to the cursor state:
same source, same indentation stack, position not decreased. -/
def Evolves (a b : TokenizerState) : Prop :=
  b.src = a.src ∧ b.indentStack = a.indentStack ∧ a.pos ≤ b.pos

theorem Evolves.refl {a : TokenizerState} : Evolves a a :=
  ⟨Eq.refl _, Eq.refl _, Nat.le_refl _⟩

theorem Evolves.trans {a b c : TokenizerState} (h1 : Evolves a b)
    (h2 : Evolves b c) : Evolves a c :=
  ⟨h2.1.trans h1.1, h2.2.1.trans h1.2.1, h1.2.2.trans h2.2.2⟩

theorem evolves_advance (st : TokenizerState) : Evolves st st.advance :=
  ⟨rfl, rfl, Nat.le_succ _⟩

theorem evolves_parse_string_loop (quote : Char) (triple : Bool) :
    ∀ (fuel : Nat) (st : TokenizerState) (v : List Char),
      Evolves st (parse_string_loop quote triple fuel st v).1 := by
  intro fuel
  induction fuel with
  | zero => intro st v; exact Evolves.refl
  | succ fuel ih =>
    intro st v
    unfold parse_string_loop
    dsimp only
    split
    · exact Evolves.refl
    · split
      · exact (evolves_advance st).trans ((evolves_advance _).trans
          (evolves_advance _))
      · split
        · exact evolves_advance st
        · split
          · exact Evolves.refl
          · split
            · refine (evolves_advance st).trans (Evolves.trans ?_ (ih _ _))
              split
              · exact Evolves.refl
              · exact evolves_advance _
            · exact (evolves_advance st).trans (ih _ _)

theorem evolves_parse_string (st : TokenizerState) :
    Evolves st (parse_string st).2 := by
  unfold parse_string
  dsimp only
  split
  · exact (evolves_advance st).trans ((evolves_advance _).trans
      ((evolves_advance _).trans (evolves_parse_string_loop _ _ _ _ _)))
  · exact (evolves_advance st).trans (evolves_parse_string_loop _ _ _ _ _)

theorem evolves_digits_loop (p : Char → Bool) :
    ∀ (fuel : Nat) (st : TokenizerState) (v : List Char),
      Evolves st (digits_loop p fuel st v).1 := by
  intro fuel
  induction fuel with
  | zero => intro st v; exact Evolves.refl
  | succ fuel ih =>
    intro st v
    unfold digits_loop
    dsimp only
    split
    · exact Evolves.refl
    · split
      · exact (evolves_advance st).trans (ih _ _)
      · exact Evolves.refl

theorem evolves_parse_hex_number {st : TokenizerState} {v : List Char}
    {out : TokenizerState × List Char} (h : parse_hex_number st v = some out) :
    Evolves st out.1 := by
  unfold parse_hex_number at h
  simp only [] at h
  split at h
  · exact Option.noConfusion h
  · split at h
    · exact Option.noConfusion h
    · obtain rfl := Option.some.inj h
      exact ((evolves_advance st).trans (evolves_advance _)).trans
        (evolves_digits_loop _ _ _ _)

theorem evolves_parse_binary_number {st : TokenizerState} {v : List Char}
    {out : TokenizerState × List Char}
    (h : parse_binary_number st v = some out) : Evolves st out.1 := by
  unfold parse_binary_number at h
  simp only [] at h
  split at h
  · exact Option.noConfusion h
  · split at h
    · exact Option.noConfusion h
    · obtain rfl := Option.some.inj h
      exact ((evolves_advance st).trans (evolves_advance _)).trans
        (evolves_digits_loop _ _ _ _)

theorem evolves_parse_octal_number {st : TokenizerState} {v : List Char}
    {out : TokenizerState × List Char}
    (h : parse_octal_number st v = some out) : Evolves st out.1 := by
  unfold parse_octal_number at h
  simp only [] at h
  split at h
  · exact Option.noConfusion h
  · split at h
    · exact Option.noConfusion h
    · obtain rfl := Option.some.inj h
      exact ((evolves_advance st).trans (evolves_advance _)).trans
        (evolves_digits_loop _ _ _ _)

theorem evolves_parse_integer_part (st : TokenizerState) (v : List Char) :
    Evolves st (parse_integer_part st v).1 := by
  unfold parse_integer_part
  split
  · exact evolves_advance st
  · exact evolves_digits_loop _ _ _ _

theorem evolves_parse_decimal_part (st : TokenizerState) (v : List Char) :
    Evolves st (parse_decimal_part st v).1 := by
  unfold parse_decimal_part
  split
  · exact Evolves.refl
  · exact (evolves_advance st).trans (evolves_digits_loop _ _ _ _)

theorem evolves_parse_exponent_part (st : TokenizerState) (v : List Char) :
    Evolves st (parse_exponent_part st v).1 := by
  unfold parse_exponent_part
  dsimp only
  split
  · exact Evolves.refl
  · split
    · exact ((evolves_advance st).trans (evolves_advance _)).trans
        (evolves_digits_loop _ _ _ _)
    · exact (evolves_advance st).trans (evolves_digits_loop _ _ _ _)

theorem evolves_skip_complex_suffix (st : TokenizerState) (v : List Char) :
    Evolves st (skip_complex_suffix st v).1 := by
  unfold skip_complex_suffix
  split
  · exact evolves_advance st
  · exact Evolves.refl

theorem evolves_parse_number (st : TokenizerState) :
    Evolves st (parse_number st).2 := by
  unfold parse_number
  dsimp only
  rcases hh : parse_hex_number st [] with _ | r
  · rcases hb : parse_binary_number st [] with _ | r
    · rcases ho : parse_octal_number st [] with _ | r
      · simp only [hh, hb, ho]
        exact ((((evolves_parse_integer_part st []).trans
          (evolves_parse_decimal_part _ _)).trans
          (evolves_parse_exponent_part _ _)).trans
          (evolves_skip_complex_suffix _ _))
      · simp only [hh, hb, ho]
        exact (evolves_parse_octal_number ho).trans
          (evolves_skip_complex_suffix _ _)
    · simp only [hh, hb]
      exact (evolves_parse_binary_number hb).trans
        (evolves_skip_complex_suffix _ _)
  · simp only [hh]
    exact (evolves_parse_hex_number hh).trans (evolves_skip_complex_suffix _ _)

theorem evolves_ident_loop :
    ∀ (fuel : Nat) (st : TokenizerState) (v : List Char),
      Evolves st (ident_loop fuel st v).1 := by
  intro fuel
  induction fuel with
  | zero => intro st v; exact Evolves.refl
  | succ fuel ih =>
    intro st v
    unfold ident_loop
    split
    · exact Evolves.refl
    · split
      · exact (evolves_advance st).trans (ih _ _)
      · exact Evolves.refl

theorem evolves_parse_identifier_or_keyword (st : TokenizerState) :
    Evolves st (parse_identifier_or_keyword st).2 := by
  unfold parse_identifier_or_keyword
  exact evolves_ident_loop _ _ _

theorem evolves_try_match_three_char_operator {st : TokenizerState}
    {out : TokenizerState × List Char}
    (h : try_match_three_char_operator st = some out) : Evolves st out.1 := by
  unfold try_match_three_char_operator at h
  simp only [] at h
  split at h
  · exact Option.noConfusion h
  · split at h
    · obtain rfl := Option.some.inj h
      exact ((evolves_advance st).trans (evolves_advance _)).trans
        (evolves_advance _)
    · exact Option.noConfusion h

theorem evolves_try_match_two_char_operator {st : TokenizerState}
    {out : TokenizerState × List Char}
    (h : try_match_two_char_operator st = some out) : Evolves st out.1 := by
  unfold try_match_two_char_operator at h
  simp only [] at h
  split at h
  · exact Option.noConfusion h
  · split at h
    · obtain rfl := Option.some.inj h
      exact (evolves_advance st).trans (evolves_advance _)
    · exact Option.noConfusion h

theorem evolves_parse_operator (st : TokenizerState) :
    Evolves st (parse_operator st).2 := by
  unfold parse_operator
  dsimp only
  rcases h3 : try_match_three_char_operator st with _ | r
  · rcases h2 : try_match_two_char_operator st with _ | r
    · simp only [h3, h2]
      exact evolves_advance st
    · simp only [h3, h2]
      exact evolves_try_match_two_char_operator h2
  · simp only [h3]
    exact evolves_try_match_three_char_operator h3

theorem evolves_skip_comment :
    ∀ (fuel : Nat) (st : TokenizerState),
      Evolves st (skip_comment fuel st) := by
  intro fuel
  induction fuel with
  | zero => intro st; exact Evolves.refl
  | succ fuel ih =>
    intro st
    unfold skip_comment
    split
    · exact Evolves.refl
    · split
      · exact Evolves.refl
      · exact (evolves_advance st).trans (ih _)

theorem evolves_skip_docstring_loop (quote : Char) :
    ∀ (fuel : Nat) (st : TokenizerState),
      Evolves st (skip_docstring_loop quote fuel st) := by
  intro fuel
  induction fuel with
  | zero => intro st; exact Evolves.refl
  | succ fuel ih =>
    intro st
    unfold skip_docstring_loop
    dsimp only
    split
    · exact Evolves.refl
    · split
      · exact ((evolves_advance st).trans (evolves_advance _)).trans
          (evolves_advance _)
      · split
        · refine (evolves_advance st).trans (Evolves.trans ?_ (ih _))
          split
          · exact Evolves.refl
          · exact evolves_advance _
        · exact (evolves_advance st).trans (ih _)

theorem evolves_skip_docstring (st : TokenizerState) (quote : Char) :
    Evolves st (skip_docstring st quote) := by
  unfold skip_docstring
  exact (((evolves_advance st).trans (evolves_advance _)).trans
    (evolves_advance _)).trans (evolves_skip_docstring_loop _ _ _)

theorem evolves_skip_parens_loop :
    ∀ (fuel : Nat) (st : TokenizerState) (depth : Nat),
      Evolves st (skip_parens_loop fuel st depth) := by
  intro fuel
  induction fuel with
  | zero => intro st depth; exact Evolves.refl
  | succ fuel ih =>
    intro st depth
    unfold skip_parens_loop
    dsimp only
    split
    · exact Evolves.refl
    · exact (evolves_advance st).trans (ih _ _)

theorem evolves_skip_to_end_of_line :
    ∀ (fuel : Nat) (st : TokenizerState),
      Evolves st (skip_to_end_of_line fuel st) := by
  intro fuel
  induction fuel with
  | zero => intro st; exact Evolves.refl
  | succ fuel ih =>
    intro st
    unfold skip_to_end_of_line
    dsimp only
    split
    · exact Evolves.refl
    · split
      · exact Evolves.refl
      · split
        · split
          · exact ((evolves_advance st).trans (evolves_advance _)).trans (ih _)
          · exact (evolves_advance st).trans (ih _)
        · split
          · exact ((evolves_advance st).trans
              (evolves_skip_parens_loop _ _ _)).trans (ih _)
          · exact (evolves_advance st).trans (ih _)

theorem evolves_indent_ws_loop :
    ∀ (fuel : Nat) (st : TokenizerState) (ind : Nat),
      Evolves st (indent_ws_loop fuel st ind).1 := by
  intro fuel
  induction fuel with
  | zero => intro st ind; exact Evolves.refl
  | succ fuel ih =>
    intro st ind
    unfold indent_ws_loop
    dsimp only
    split
    · exact Evolves.refl
    · split
      · exact (evolves_advance st).trans (ih _ _)
      · exact Evolves.refl

end PythonNormalizer

/-!  Indentation-stack bookkeeping (Python engine, C4). -/

/-- The invariant tying the Python engine's indentation stack to the
INDENT/DEDENT tokens emitted so far: the sentinel 0 sits at the bottom
of the stack, the net INDENT surplus equals the number of open levels,
and no prefix of the token list closes more levels than it opened. -/
def StackInv (stack : List Nat) (toks : List NormalizedToken) : Prop :=
  stack.getLast? = some 0 ∧
  countIndent toks + 1 = countDedent toks + stack.length ∧
  ∀ p, p <+: toks → countDedent p ≤ countIndent p

theorem countIndent_append (a b : List NormalizedToken) :
    countIndent (a ++ b) = countIndent a + countIndent b :=
  List.countP_append _ _ _

theorem countDedent_append (a b : List NormalizedToken) :
    countDedent (a ++ b) = countDedent a + countDedent b :=
  List.countP_append _ _ _

theorem prefix_split {α : Type} {p r b : List α} (h : p <+: r ++ b) :
    p <+: r ∨ ∃ q, q <+: b ∧ p = r ++ q := by
  obtain ⟨t, ht⟩ := h
  rcases List.append_eq_append_iff.mp ht with ⟨a, ha, _⟩ | ⟨c, hc, hb⟩
  · exact Or.inl ⟨a, ha.symm⟩
  · exact Or.inr ⟨c, ⟨t, hb.symm⟩, hc⟩

theorem balance_append_single {r : List NormalizedToken}
    (hP : ∀ p, p <+: r → countDedent p ≤ countIndent p)
    {tok : NormalizedToken} (ht : tok.type ≠ TokenType.DEDENT) :
    ∀ p, p <+: r ++ [tok] → countDedent p ≤ countIndent p := by
  intro p hp
  rcases prefix_split hp with h | ⟨q, hq, rfl⟩
  · exact hP p h
  · have hq' : q = [] ∨ q = [tok] := by
      rcases hq with ⟨t, htq⟩
      cases q with
      | nil => exact Or.inl rfl
      | cons a q' =>
        cases q' with
        | nil =>
          rw [List.singleton_append] at htq
          injection htq with h1 h2
          subst h1
          exact Or.inr rfl
        | cons b q'' => simp at htq
    rcases hq' with rfl | rfl
    · simpa using hP r List.prefix_rfl
    · rw [countDedent_append, countIndent_append]
      have hD : countDedent [tok] = 0 := by
        unfold countDedent
        simp [List.countP_cons, ht]
      rw [hD]
      exact le_add_right (by simpa using hP r List.prefix_rfl)

theorem balance_append_replicate {r : List NormalizedToken} {k : Nat}
    {tok : NormalizedToken}
    (hP : ∀ p, p <+: r → countDedent p ≤ countIndent p)
    (hk : countDedent r + k ≤ countIndent r) :
    ∀ p, p <+: r ++ List.replicate k tok → countDedent p ≤ countIndent p := by
  intro p hp
  rcases prefix_split hp with h | ⟨q, hq, rfl⟩
  · exact hP p h
  · rw [countDedent_append, countIndent_append]
    have hqlen : countDedent q ≤ k := by
      have := List.IsPrefix.length_le hq
      rw [List.length_replicate] at this
      exact le_trans (List.countP_le_length _) this
    calc countDedent r + countDedent q ≤ countDedent r + k := by omega
      _ ≤ countIndent r := hk
      _ ≤ countIndent r + countIndent q := le_add_right (le_refl _)

namespace PythonNormalizer

/-- `dedent_pop` is exactly dropWhile/takeWhile with the predicate
"entry exceeds the new width". -/
theorem dedent_pop_eq :
    ∀ (l : List Nat) (cur : Nat),
      dedent_pop l cur =
        (l.dropWhile (fun w => decide (cur < w)),
         (l.takeWhile (fun w => decide (cur < w))).length) := by
  intro l
  induction l with
  | nil => intro cur; rfl
  | cons top rest ih =>
    intro cur
    unfold dedent_pop
    by_cases h : cur < top
    · rw [if_pos h, ih cur]
      simp [List.dropWhile_cons, List.takeWhile_cons, h]
    · rw [if_neg h]
      simp [List.dropWhile_cons, List.takeWhile_cons, h]

theorem dedent_pop_last :
    ∀ (l : List Nat) (cur : Nat), l.getLast? = some 0 →
      (dedent_pop l cur).1.getLast? = some 0 ∧
      1 ≤ (dedent_pop l cur).1.length ∧
      (dedent_pop l cur).2 + (dedent_pop l cur).1.length = l.length := by
  intro l
  induction l with
  | nil => intro cur h; simp at h
  | cons top rest ih =>
    intro cur h
    cases rest with
    | nil =>
      simp only [List.getLast?_singleton, Option.some_inj] at h
      subst h
      unfold dedent_pop
      rw [if_neg (by omega)]
      exact ⟨rfl, by simp, by simp⟩
    | cons y t =>
      rw [List.getLast?_cons_cons] at h
      unfold dedent_pop
      by_cases hc : cur < top
      · rw [if_pos hc]
        obtain ⟨h1, h2, h3⟩ := ih cur h
        refine ⟨h1, h2, ?_⟩
        show (dedent_pop (y :: t) cur).2 + 1 +
            (dedent_pop (y :: t) cur).1.length = (top :: y :: t).length
        rw [show (top :: y :: t).length = (y :: t).length + 1 from rfl]
        omega
      · rw [if_neg hc]
        exact ⟨by rw [List.getLast?_cons_cons]; exact h, by simp,
               by simp⟩

theorem stackInv_handle_indentation {st : TokenizerState} {cur : Nat}
    {toks : List NormalizedToken} (h : StackInv st.indentStack toks) :
    StackInv (handle_indentation st cur).1.indentStack
      (toks ++ (handle_indentation st cur).2) := by
  obtain ⟨hlast, hbal, hpre⟩ := h
  unfold handle_indentation
  dsimp only
  split
  · -- push: one INDENT token
    refine ⟨?_, ?_, ?_⟩
    · cases hst : st.indentStack with
      | nil => rw [hst] at hlast; simp at hlast
      | cons a l =>
        rw [List.getLast?_cons_cons]
        rw [hst] at hlast
        exact hlast
    · rw [countIndent_append, countDedent_append]
      have hI : countIndent
          [({ type := TokenType.INDENT, original_hash := hash_string "INDENT",
              normalized_hash := hash_string "INDENT", line := st.line,
              column := 1, length := cur % 65536 } : NormalizedToken)] = 1 := by
        unfold countIndent
        simp [List.countP_cons]
      have hD : countDedent
          [({ type := TokenType.INDENT, original_hash := hash_string "INDENT",
              normalized_hash := hash_string "INDENT", line := st.line,
              column := 1, length := cur % 65536 } : NormalizedToken)] = 0 := by
        unfold countDedent
        simp [List.countP_cons]
      rw [hI, hD]
      simp only [List.length_cons]
      omega
    · exact balance_append_single hpre (by simp)
  · split
    · -- pop: one DEDENT per popped entry
      obtain ⟨h1, h2, h3⟩ := dedent_pop_last st.indentStack cur hlast
      have hDed : ∀ k : Nat, countDedent (List.replicate k
          ({ type := TokenType.DEDENT, original_hash := hash_string "DEDENT",
             normalized_hash := hash_string "DEDENT", line := st.line,
             column := 1, length := 0 } : NormalizedToken)) = k := by
        intro k
        induction k with
        | zero => rfl
        | succ k ihk =>
          unfold countDedent at ihk ⊢
          rw [List.replicate_succ, List.countP_cons]
          simp [ihk]
      have hInd : ∀ k : Nat, countIndent (List.replicate k
          ({ type := TokenType.DEDENT, original_hash := hash_string "DEDENT",
             normalized_hash := hash_string "DEDENT", line := st.line,
             column := 1, length := 0 } : NormalizedToken)) = 0 := by
        intro k
        induction k with
        | zero => rfl
        | succ k ihk =>
          unfold countIndent at ihk ⊢
          rw [List.replicate_succ, List.countP_cons]
          simp [ihk]
      simp only []
      refine ⟨h1, ?_, ?_⟩
      · rw [countIndent_append, countDedent_append, hDed, hInd]
        omega
      · refine balance_append_replicate hpre ?_
        omega
    · simpa using ⟨hlast, hbal, hpre⟩

theorem drop_length_sub_one_of_getLast :
    ∀ l : List Nat, l.getLast? = some 0 → l.drop (l.length - 1) = [0] := by
  intro l
  induction l with
  | nil => intro h; simp at h
  | cons x rest ih =>
    intro h
    cases rest with
    | nil =>
      simp only [List.getLast?_singleton, Option.some_inj] at h
      subst h
      rfl
    | cons y t =>
      rw [List.getLast?_cons_cons] at h
      have hrec := ih h
      simp only [List.length_cons, Nat.add_sub_cancel] at hrec ⊢
      rw [List.drop_succ_cons]
      exact hrec

theorem stackInv_emit_remaining_dedents {st : TokenizerState}
    {r : TokenizedFile} (h : StackInv st.indentStack r.tokens) :
    (emit_remaining_dedents st r).1.indentStack = [0] ∧
    countIndent (emit_remaining_dedents st r).2.tokens =
      countDedent (emit_remaining_dedents st r).2.tokens ∧
    ∀ p, p <+: (emit_remaining_dedents st r).2.tokens →
      countDedent p ≤ countIndent p := by
  obtain ⟨hlast, hbal, hpre⟩ := h
  unfold emit_remaining_dedents
  dsimp only
  have hne : st.indentStack ≠ [] := by
    intro hnil
    rw [hnil] at hlast
    simp at hlast
  refine ⟨drop_length_sub_one_of_getLast _ hlast, ?_, ?_⟩
  · rw [countIndent_append, countDedent_append]
    have hDed : ∀ (k : Nat) (tok : NormalizedToken),
        tok.type = TokenType.DEDENT →
        countDedent (List.replicate k tok) = k ∧
        countIndent (List.replicate k tok) = 0 := by
      intro k tok htok
      induction k with
      | zero => exact ⟨rfl, rfl⟩
      | succ k ihk =>
        unfold countDedent countIndent at ihk ⊢
        rw [List.replicate_succ, List.countP_cons, List.countP_cons]
        simp [ihk.1, ihk.2, htok]
    obtain ⟨hD, hI⟩ := hDed (st.indentStack.length - 1)
      ({ type := TokenType.DEDENT, original_hash := hash_string "DEDENT",
         normalized_hash := hash_string "DEDENT", line := st.line,
         column := 1, length := 0 }) rfl
    rw [hD, hI]
    have : 1 ≤ st.indentStack.length := by
      cases hst : st.indentStack with
      | nil => exact absurd hst hne
      | cons a l => simp
    omega
  · refine balance_append_replicate hpre ?_
    have : 1 ≤ st.indentStack.length := by
      cases hst : st.indentStack with
      | nil => exact absurd hst hne
      | cons a l => simp
    omega

end PythonNormalizer

namespace PythonNormalizer

theorem evolves_skip_whitespace {st : TokenizerState} {c : Char}
    {out : TokenizerState} (h : skip_whitespace st c = some out) :
    Evolves st out := by
  unfold skip_whitespace at h
  split at h
  · obtain rfl := Option.some.inj h
    exact evolves_advance st
  · exact Option.noConfusion h

theorem evolves_process_newline {st : TokenizerState} {c : Char}
    {r : TokenizedFile} {out : TokenizerState × TokenizedFile}
    (h : process_newline st c r = some out) : Evolves st out.1 := by
  unfold process_newline at h
  split at h
  · exact Option.noConfusion h
  · obtain rfl := Option.some.inj h
    exact evolves_advance st

theorem evolves_process_comment {st : TokenizerState} {c : Char}
    {m : LineMetrics} {out : TokenizerState × LineMetrics}
    (h : process_comment st c m = some out) : Evolves st out.1 := by
  unfold process_comment at h
  split at h
  · exact Option.noConfusion h
  · obtain rfl := Option.some.inj h
    exact evolves_skip_comment _ _

theorem evolves_process_import {st : TokenizerState} {m : LineMetrics}
    {out : TokenizerState × LineMetrics}
    (h : process_import st m = some out) : Evolves st out.1 := by
  unfold process_import at h
  split at h
  · exact Option.noConfusion h
  · obtain rfl := Option.some.inj h
    exact evolves_skip_to_end_of_line _ _

theorem evolves_process_string_or_docstring {st : TokenizerState} {c : Char}
    {r : TokenizedFile} {m : LineMetrics}
    {out : TokenizerState × TokenizedFile × LineMetrics}
    (h : process_string_or_docstring st c r m = some out) :
    Evolves st out.1 := by
  unfold process_string_or_docstring at h
  split at h
  · split at h
    · obtain rfl := Option.some.inj h
      exact evolves_skip_docstring st c
    · obtain rfl := Option.some.inj h
      exact evolves_parse_string st
  · split at h
    · obtain rfl := Option.some.inj h
      exact (evolves_advance st).trans (evolves_parse_string st.advance)
    · split at h
      · obtain rfl := Option.some.inj h
        exact ((evolves_advance st).trans (evolves_advance _)).trans
          (evolves_parse_string st.advance.advance)
      · exact Option.noConfusion h

theorem evolves_process_number {st : TokenizerState} {c : Char}
    {r : TokenizedFile} {m : LineMetrics}
    {out : TokenizerState × TokenizedFile × LineMetrics}
    (h : process_number st c r m = some out) : Evolves st out.1 := by
  unfold process_number at h
  split at h
  · exact Option.noConfusion h
  · obtain rfl := Option.some.inj h
    exact evolves_parse_number st

theorem evolves_process_identifier {st : TokenizerState} {c : Char}
    {r : TokenizedFile} {m : LineMetrics}
    {out : TokenizerState × TokenizedFile × LineMetrics}
    (h : process_identifier st c r m = some out) : Evolves st out.1 := by
  unfold process_identifier at h
  split at h
  · exact Option.noConfusion h
  · obtain rfl := Option.some.inj h
    exact evolves_parse_identifier_or_keyword st

theorem evolves_process_operator {st : TokenizerState} {c : Char}
    {r : TokenizedFile} {m : LineMetrics}
    {out : TokenizerState × TokenizedFile × LineMetrics}
    (h : process_operator st c r m = some out) : Evolves st out.1 := by
  unfold process_operator at h
  split at h
  · exact Option.noConfusion h
  · obtain rfl := Option.some.inj h
    exact evolves_parse_operator st

theorem evolves_dispatch (st : TokenizerState) (c : Char) (m : LineMetrics)
    (r : TokenizedFile) : Evolves st (dispatch st c m r).1 := by
  unfold dispatch
  cases h1 : skip_whitespace st c with
  | some p => exact evolves_skip_whitespace h1
  | none =>
  cases h2 : process_newline st c r with
  | some p => exact evolves_process_newline h2
  | none =>
  cases h3 : process_comment st c m with
  | some p => exact evolves_process_comment h3
  | none =>
  cases h4 : process_import st m with
  | some p => exact evolves_process_import h4
  | none =>
  cases h5 : process_string_or_docstring st c r m with
  | some p => exact evolves_process_string_or_docstring h5
  | none =>
  cases h6 : process_number st c r m with
  | some p => exact evolves_process_number h6
  | none =>
  cases h7 : process_identifier st c r m with
  | some p => exact evolves_process_identifier h7
  | none =>
  cases h8 : process_operator st c r m with
  | some p => exact evolves_process_operator h8
  | none => exact evolves_advance st

theorem type_parse_identifier_or_keyword_cases (st : TokenizerState) :
    (parse_identifier_or_keyword st).1.type = TokenType.KEYWORD ∨
    (parse_identifier_or_keyword st).1.type = TokenType.TYPE ∨
    (parse_identifier_or_keyword st).1.type = TokenType.IDENTIFIER := by
  unfold parse_identifier_or_keyword
  dsimp only
  split
  · exact Or.inl rfl
  · split
    · exact Or.inr (Or.inl rfl)
    · exact Or.inr (Or.inr rfl)

theorem type_parse_operator_cases (st : TokenizerState) :
    (parse_operator st).1.type = TokenType.OPERATOR ∨
    (parse_operator st).1.type = TokenType.PUNCTUATION := by
  unfold parse_operator
  dsimp only
  split
  · exact Or.inr rfl
  · exact Or.inl rfl

/-- `StackInv` transported through one dispatch step: the dispatch
chain never touches the indentation stack and never emits INDENT or
DEDENT tokens. -/
theorem stackInv_dispatch {st : TokenizerState} {c : Char} {m : LineMetrics}
    {r : TokenizedFile} (h : StackInv st.indentStack r.tokens) :
    StackInv (dispatch st c m r).1.indentStack
      (dispatch st c m r).2.2.tokens := by
  have hstack : (dispatch st c m r).1.indentStack = st.indentStack :=
    (evolves_dispatch st c m r).2.1
  rw [hstack]
  obtain ⟨hlast, hbal, hpre⟩ := h
  have key : ∀ tok : NormalizedToken,
      tok.type ≠ TokenType.INDENT → tok.type ≠ TokenType.DEDENT →
      StackInv st.indentStack (r.tokens ++ [tok]) := by
    intro tok hI hD
    refine ⟨hlast, ?_, balance_append_single hpre hD⟩
    rw [countIndent_append, countDedent_append]
    have h1 : countIndent [tok] = 0 := by
      unfold countIndent
      simp [List.countP_cons, hI]
    have h2 : countDedent [tok] = 0 := by
      unfold countDedent
      simp [List.countP_cons, hD]
    rw [h1, h2]
    omega
  unfold dispatch
  cases h1 : skip_whitespace st c with
  | some p => exact ⟨hlast, hbal, hpre⟩
  | none =>
  cases h2 : process_newline st c r with
  | some p =>
    unfold process_newline at h2
    split at h2
    · exact Option.noConfusion h2
    · split at h2
      · obtain rfl := Option.some.inj h2
        exact ⟨hlast, hbal, hpre⟩
      · split at h2
        · obtain rfl := Option.some.inj h2
          exact key _ (by simp) (by simp)
        · obtain rfl := Option.some.inj h2
          exact ⟨hlast, hbal, hpre⟩
  | none =>
  cases h3 : process_comment st c m with
  | some p => exact ⟨hlast, hbal, hpre⟩
  | none =>
  cases h4 : process_import st m with
  | some p => exact ⟨hlast, hbal, hpre⟩
  | none =>
  cases h5 : process_string_or_docstring st c r m with
  | some p =>
    unfold process_string_or_docstring at h5
    split at h5
    · split at h5
      · obtain rfl := Option.some.inj h5
        exact ⟨hlast, hbal, hpre⟩
      · obtain rfl := Option.some.inj h5
        exact key _ (by rw [type_parse_string]; simp)
          (by rw [type_parse_string]; simp)
    · split at h5
      · obtain rfl := Option.some.inj h5
        exact key _ (by rw [type_parse_string]; simp)
          (by rw [type_parse_string]; simp)
      · split at h5
        · obtain rfl := Option.some.inj h5
          exact key _ (by rw [type_parse_string]; simp)
            (by rw [type_parse_string]; simp)
        · exact Option.noConfusion h5
  | none =>
  cases h6 : process_number st c r m with
  | some p =>
    unfold process_number at h6
    split at h6
    · exact Option.noConfusion h6
    · obtain rfl := Option.some.inj h6
      exact key _ (by rw [type_parse_number]; simp)
        (by rw [type_parse_number]; simp)
  | none =>
  cases h7 : process_identifier st c r m with
  | some p =>
    unfold process_identifier at h7
    split at h7
    · exact Option.noConfusion h7
    · obtain rfl := Option.some.inj h7
      rcases type_parse_identifier_or_keyword_cases st with ht | ht | ht <;>
        exact key _ (by rw [ht]; simp) (by rw [ht]; simp)
  | none =>
  cases h8 : process_operator st c r m with
  | some p =>
    unfold process_operator at h8
    split at h8
    · exact Option.noConfusion h8
    · obtain rfl := Option.some.inj h8
      rcases type_parse_operator_cases st with ht | ht <;>
        exact key _ (by rw [ht]; simp) (by rw [ht]; simp)
  | none => exact ⟨hlast, hbal, hpre⟩

theorem stackInv_process_indentation {st : TokenizerState}
    {r : TokenizedFile} (h : StackInv st.indentStack r.tokens) :
    StackInv (process_indentation st r).1.indentStack
      (process_indentation st r).2.tokens := by
  unfold process_indentation
  dsimp only
  have hw : (indent_ws_loop (st.src.length + 1) st 0).1.indentStack =
      st.indentStack := (evolves_indent_ws_loop _ _ _).2.1
  split
  · have := @stackInv_handle_indentation
      ((indent_ws_loop (st.src.length + 1) st 0).1)
      ((indent_ws_loop (st.src.length + 1) st 0).2)
      r.tokens (by rw [hw]; exact h)
    exact this
  · show StackInv (indent_ws_loop (st.src.length + 1) st 0).1.indentStack
      r.tokens
    rw [hw]
    exact h

theorem stackInv_loop :
    ∀ (fuel : Nat) (st : TokenizerState) (m : LineMetrics) (r : TokenizedFile)
      (out : TokenizerState × LineMetrics × TokenizedFile),
      loop fuel st m r = some out → StackInv st.indentStack r.tokens →
      StackInv out.1.indentStack out.2.2.tokens := by
  intro fuel
  induction fuel with
  | zero => intro st m r out h; exact absurd h (by simp [loop])
  | succ fuel ih =>
    intro st m r out h hr
    unfold loop at h
    split at h
    · obtain rfl := Option.some.inj h
      exact hr
    · simp only [] at h
      split at h
      · split at h
        · obtain rfl := Option.some.inj h
          exact stackInv_process_indentation hr
        · exact ih _ _ _ _ h (stackInv_dispatch (stackInv_process_indentation hr))
      · exact ih _ _ _ _ h (stackInv_dispatch hr)

end PythonNormalizer

/-- Dyck-style matching: if the whole list balances INDENTs against
DEDENTs and no prefix over-closes, then every INDENT has a later
DEDENT. -/
theorem matched_dedent {toks : List NormalizedToken}
    (heq : countIndent toks = countDedent toks)
    (hpre : ∀ p, p <+: toks → countDedent p ≤ countIndent p) :
    ∀ i (hi : i < toks.length), (toks.get ⟨i, hi⟩).type = TokenType.INDENT →
      ∃ j, i < j ∧ ∃ (hj : j < toks.length),
        (toks.get ⟨j, hj⟩).type = TokenType.DEDENT := by
  intro i hi hty
  rw [List.get_eq_getElem] at hty
  have hsplit : toks.take (i + 1) ++ toks.drop (i + 1) = toks :=
    List.take_append_drop _ _
  have htake : toks.take (i + 1) = toks.take i ++ [toks.get ⟨i, hi⟩] := by
    rw [List.take_succ]
    congr 1
    rw [List.getElem?_eq_getElem hi]
    simp [List.get_eq_getElem]
  have hIp : countIndent (toks.take (i + 1)) =
      countIndent (toks.take i) + 1 := by
    rw [htake, countIndent_append]
    unfold countIndent
    simp [List.countP_cons, hty]
  have hDp : countDedent (toks.take (i + 1)) = countDedent (toks.take i) := by
    rw [htake, countDedent_append]
    unfold countDedent
    simp [List.countP_cons, hty]
  have hbound := hpre (toks.take i) (List.take_prefix _ _)
  have hItot : countIndent toks =
      countIndent (toks.take (i + 1)) + countIndent (toks.drop (i + 1)) := by
    conv_lhs => rw [← hsplit]
    exact countIndent_append _ _
  have hDtot : countDedent toks =
      countDedent (toks.take (i + 1)) + countDedent (toks.drop (i + 1)) := by
    conv_lhs => rw [← hsplit]
    exact countDedent_append _ _
  have hpos : 0 < countDedent (toks.drop (i + 1)) := by omega
  obtain ⟨t, htmem, htD⟩ := List.countP_pos_iff.mp hpos
  obtain ⟨n, hn, hnt⟩ := List.mem_iff_getElem.mp htmem
  refine ⟨i + 1 + n, by omega, ?_⟩
  have hjlt : i + 1 + n < toks.length := by
    rw [List.length_drop] at hn
    omega
  refine ⟨hjlt, ?_⟩
  have : toks[i + 1 + n] = t := by
    rw [← hnt]
    rw [List.getElem_drop]
  rw [List.get_eq_getElem]
  rw [this]
  simpa using htD

namespace PythonNormalizer

/-- The initial `StackInv`. -/
theorem stackInv_init (src : List Char) :
    StackInv ({ src := src } : TokenizerState).indentStack
      (({} : TokenizedFile)).tokens := by
  refine ⟨rfl, rfl, ?_⟩
  intro p hp
  have : p = [] := List.prefix_nil.mp hp
  subst this
  exact le_refl _

/-- The stack bookkeeping of `normalize` as a whole: the final token
list balances and no prefix over-closes. -/
theorem stack_normalize (source : List Char) :
    countIndent (normalize source).tokens =
      countDedent (normalize source).tokens ∧
    ∀ p, p <+: (normalize source).tokens →
      countDedent p ≤ countIndent p := by
  unfold normalize
  cases h : loop (source.length + 1) { src := source } {} {} with
  | none =>
    constructor
    · rfl
    · intro p hp
      have : p = [] := List.prefix_nil.mp hp
      subst this
      exact le_refl _
  | some out =>
    obtain ⟨st, m, r⟩ := out
    have hinv := stackInv_loop _ _ _ _ _ h (stackInv_init source)
    have hemit := @stackInv_emit_remaining_dedents st r hinv
    exact ⟨hemit.2.1, hemit.2.2⟩

end PythonNormalizer

/-- C4.  The Python engine's indentation discipline: the stack starts
as `[0]`; at the start of a significant logical line
`handle_indentation` pushes and emits exactly one INDENT on a greater
width, pops once per stack entry exceeding the new width (emitting one
DEDENT per pop) on a lesser width, and emits nothing on an equal width;
after the scan loop, `emit_remaining_dedents` returns the stack to
`[0]`; and in the final output INDENTs and DEDENTs balance exactly, no
prefix closes more levels than it opened, and every INDENT token has a
later matching DEDENT token. -/
theorem C4_indentation_stack_discipline (src : List Char) :
    (({ src := src } : PythonNormalizer.TokenizerState).indentStack = [0]) ∧
    (∀ (st : PythonNormalizer.TokenizerState) (cur : Nat),
      (st.indentStack.headD 0 < cur →
        (PythonNormalizer.handle_indentation st cur).1.indentStack =
          cur :: st.indentStack ∧
        (PythonNormalizer.handle_indentation st cur).2.map
            (fun t => t.type) = [TokenType.INDENT]) ∧
      (cur < st.indentStack.headD 0 →
        (PythonNormalizer.handle_indentation st cur).1.indentStack =
          st.indentStack.dropWhile (fun w => decide (cur < w)) ∧
        (PythonNormalizer.handle_indentation st cur).2.map
            (fun t => t.type) =
          List.replicate
            (st.indentStack.takeWhile (fun w => decide (cur < w))).length
            TokenType.DEDENT) ∧
      (st.indentStack.headD 0 = cur →
        PythonNormalizer.handle_indentation st cur = (st, []))) ∧
    (∀ (st : PythonNormalizer.TokenizerState)
       (m : PythonNormalizer.LineMetrics) (r : TokenizedFile),
      PythonNormalizer.loop (src.length + 1) { src := src } {} {} =
          some (st, m, r) →
      (PythonNormalizer.emit_remaining_dedents st r).1.indentStack = [0]) ∧
    (countIndent (PythonNormalizer.normalize src).tokens =
      countDedent (PythonNormalizer.normalize src).tokens) ∧
    (∀ p, p <+: (PythonNormalizer.normalize src).tokens →
      countDedent p ≤ countIndent p) ∧
    (∀ i (hi : i < (PythonNormalizer.normalize src).tokens.length),
      ((PythonNormalizer.normalize src).tokens.get ⟨i, hi⟩).type =
        TokenType.INDENT →
      ∃ j, i < j ∧ ∃ (hj : j < (PythonNormalizer.normalize src).tokens.length),
        ((PythonNormalizer.normalize src).tokens.get ⟨j, hj⟩).type =
          TokenType.DEDENT) := by
  refine ⟨rfl, ?_, ?_, (PythonNormalizer.stack_normalize src).1,
    (PythonNormalizer.stack_normalize src).2, ?_⟩
  · intro st cur
    refine ⟨fun hlt => ?_, fun hlt => ?_, fun heq => ?_⟩
    · unfold PythonNormalizer.handle_indentation
      rw [if_pos hlt]
      exact ⟨rfl, rfl⟩
    · unfold PythonNormalizer.handle_indentation
      rw [if_neg (by omega), if_pos hlt]
      rw [PythonNormalizer.dedent_pop_eq]
      exact ⟨rfl, by rw [List.map_replicate]⟩
    · unfold PythonNormalizer.handle_indentation
      rw [if_neg (by omega), if_neg (by omega)]
  · intro st m r hloop
    have hinv := PythonNormalizer.stackInv_loop _ _ _ _ _ hloop
      (PythonNormalizer.stackInv_init src)
    exact (PythonNormalizer.stackInv_emit_remaining_dedents hinv).1
  · exact matched_dedent (PythonNormalizer.stack_normalize src).1
      (PythonNormalizer.stack_normalize src).2

/-- Witness for C4: pushing width 4 onto the initial stack emits one
INDENT and yields the stack `[4, 0]`. -/
theorem C4_indentation_stack_discipline_witness :
    (PythonNormalizer.handle_indentation
        ({ src := [] } : PythonNormalizer.TokenizerState) 4).1.indentStack =
      4 :: [0] ∧
    (PythonNormalizer.handle_indentation
        ({ src := [] } : PythonNormalizer.TokenizerState) 4).2.map
      (fun t => t.type) = [TokenType.INDENT] :=
  ((C4_indentation_stack_discipline []).2.1
    ({ src := [] } : PythonNormalizer.TokenizerState) 4).1 (by decide)

/-!  Strict progress: every dispatch step consumes at least one
character, so the scan loops terminate within `length + 1` iterations
(C6). -/

namespace PythonNormalizer

theorem peek_head {st : TokenizerState} {c : Char} {tl : List Char}
    (h : st.src.drop st.pos = c :: tl) : st.peek = c ∧ ¬st.eof := by
  have hlt : st.pos < st.src.length := by
    by_contra hge
    rw [List.drop_eq_nil_of_le (by omega)] at h
    exact List.noConfusion h
  constructor
  · unfold TokenizerState.peek
    rw [List.getD_eq_getElem _ _ hlt]
    have hd := List.drop_eq_getElem_cons (l := st.src) (n := st.pos) hlt
    rw [h] at hd
    exact (List.cons.inj hd).1.symm
  · unfold TokenizerState.eof
    simp only [decide_eq_true_eq]
    omega

theorem digits_loop_strict (p : Char → Bool) (fuel : Nat)
    {st : TokenizerState} {v : List Char} (hne : ¬st.eof)
    (hp : p st.peek ∨ st.peek = '_') :
    st.pos < (digits_loop p (fuel + 1) st v).1.pos := by
  unfold digits_loop
  rw [if_neg (by simpa using hne), if_pos (by simpa using hp)]
  have := (evolves_digits_loop p fuel st.advance
    (if st.peek = '_' then v else v ++ [st.peek])).2.2
  rw [advance_pos] at this
  omega

theorem pos_lt_parse_string (st : TokenizerState) :
    st.pos < (parse_string st).2.pos := by
  unfold parse_string
  dsimp only
  split
  · have := (evolves_parse_string_loop st.peek true
      (st.advance.advance.advance.src.length + 1)
      st.advance.advance.advance []).2.2
    simp only [advance_pos] at this ⊢
    omega
  · have := (evolves_parse_string_loop st.peek false
      (st.advance.src.length + 1) st.advance []).2.2
    simp only [advance_pos] at this ⊢
    omega

theorem pos_lt_parse_hex_number {st : TokenizerState} {v : List Char}
    {out : TokenizerState × List Char} (h : parse_hex_number st v = some out) :
    st.pos < out.1.pos := by
  unfold parse_hex_number at h
  simp only [] at h
  split at h
  · exact Option.noConfusion h
  · split at h
    · exact Option.noConfusion h
    · obtain rfl := Option.some.inj h
      have := (evolves_digits_loop is_hex_digit (st.src.length + 1)
        st.advance.advance (v ++ [st.peek, st.peek_next])).2.2
      simp only [advance_pos] at this
      omega

theorem pos_lt_parse_binary_number {st : TokenizerState} {v : List Char}
    {out : TokenizerState × List Char}
    (h : parse_binary_number st v = some out) : st.pos < out.1.pos := by
  unfold parse_binary_number at h
  simp only [] at h
  split at h
  · exact Option.noConfusion h
  · split at h
    · exact Option.noConfusion h
    · obtain rfl := Option.some.inj h
      have := (evolves_digits_loop (fun c => c = '0' ∨ c = '1')
        (st.src.length + 1) st.advance.advance
        (v ++ [st.peek, st.peek_next])).2.2
      simp only [advance_pos] at this
      omega

theorem pos_lt_parse_octal_number {st : TokenizerState} {v : List Char}
    {out : TokenizerState × List Char}
    (h : parse_octal_number st v = some out) : st.pos < out.1.pos := by
  unfold parse_octal_number at h
  simp only [] at h
  split at h
  · exact Option.noConfusion h
  · split at h
    · exact Option.noConfusion h
    · obtain rfl := Option.some.inj h
      have := (evolves_digits_loop (fun c => '0' ≤ c ∧ c ≤ '7')
        (st.src.length + 1) st.advance.advance
        (v ++ [st.peek, st.peek_next])).2.2
      simp only [advance_pos] at this
      omega

theorem pos_lt_parse_number {st : TokenizerState}
    (hg : is_digit st.peek ∨ (st.peek = '.' ∧ is_digit st.peek_next)) :
    st.pos < (parse_number st).2.pos := by
  have hne : ¬st.eof := by
    refine not_eof_of_peek ?_
    rcases hg with h | ⟨h, _⟩
    · intro hc
      rw [hc] at h
      simp [is_digit] at h
    · intro hc
      rw [hc] at h
      simp at h
  unfold parse_number
  dsimp only
  rcases hh : parse_hex_number st [] with _ | r
  · rcases hb : parse_binary_number st [] with _ | r
    · rcases ho : parse_octal_number st [] with _ | r
      · simp only [hh, hb, ho]
        rcases hint : parse_integer_part st [] with ⟨st1, v1⟩
        rcases hdec : parse_decimal_part st1 v1 with ⟨st2, v2⟩
        rcases hexp : parse_exponent_part st2 v2 with ⟨st3, v3⟩
        dsimp only
        have h4 := (evolves_skip_complex_suffix st3 v3).2.2
        have h2 : st1.pos ≤ st2.pos := by
          have := (evolves_parse_decimal_part st1 v1).2.2
          rw [hdec] at this
          exact this
        have h3 : st2.pos ≤ st3.pos := by
          have := (evolves_parse_exponent_part st2 v2).2.2
          rw [hexp] at this
          exact this
        by_cases hz : st.peek = '0'
        · have h1 : st.pos < st1.pos := by
            have hstep : st.pos < (parse_integer_part st []).1.pos := by
              unfold parse_integer_part
              rw [if_pos hz, advance_pos]
              omega
            rw [hint] at hstep
            exact hstep
          omega
        · rcases hg with hdig | ⟨hdot, hnext⟩
          · have h1 : st.pos < st1.pos := by
              have hstep : st.pos < (parse_integer_part st []).1.pos := by
                unfold parse_integer_part
                rw [if_neg hz]
                exact digits_loop_strict _ _ hne (Or.inl hdig)
              rw [hint] at hstep
              exact hstep
            omega
          · have hid : parse_integer_part st [] = (st, []) := by
              unfold parse_integer_part
              rw [if_neg hz]
              unfold digits_loop
              rw [if_neg (by simpa using hne)]
              show (if is_digit st.peek = true ∨ st.peek = '_' then
                digits_loop is_digit st.src.length st.advance
                  (if st.peek = '_' then [] else [] ++ [st.peek])
                else (st, [])) = (st, [])
              rw [if_neg (by rw [hdot]; decide)]
            rw [hint] at hid
            injection hid with e1 e2
            rw [e1, e2] at hdec
            have hstep : st.pos < (parse_decimal_part st []).1.pos := by
              unfold parse_decimal_part
              rw [if_neg (by rw [hdot]; simp [hnext])]
              have := (evolves_digits_loop is_digit (st.src.length + 1)
                st.advance ([] ++ ['.'])).2.2
              rw [advance_pos] at this
              omega
            rw [hdec] at hstep
            dsimp only at hstep
            omega
      · simp only [hh, hb, ho]
        have hstep := pos_lt_parse_octal_number ho
        have h4 := (evolves_skip_complex_suffix r.1 r.2).2.2
        omega
    · simp only [hh, hb]
      have hstep := pos_lt_parse_binary_number hb
      have h4 := (evolves_skip_complex_suffix r.1 r.2).2.2
      omega
  · simp only [hh]
    have hstep := pos_lt_parse_hex_number hh
    have h4 := (evolves_skip_complex_suffix r.1 r.2).2.2
    omega

theorem pos_lt_parse_identifier_or_keyword {st : TokenizerState}
    (hg : is_identifier_start st.peek) :
    st.pos < (parse_identifier_or_keyword st).2.pos := by
  have hne : ¬st.eof := by
    refine not_eof_of_peek ?_
    intro hc
    rw [hc] at hg
    exact absurd hg (by decide)
  have hchar : is_identifier_char st.peek := by
    unfold is_identifier_start at hg
    unfold is_identifier_char
    simp only [Bool.or_eq_true, decide_eq_true_eq] at hg ⊢
    tauto
  unfold parse_identifier_or_keyword
  dsimp only
  unfold ident_loop
  rw [if_neg (by simpa using hne), if_pos hchar]
  have := (evolves_ident_loop st.src.length st.advance ([] ++ [st.peek])).2.2
  rw [advance_pos] at this
  omega

theorem pos_lt_parse_operator (st : TokenizerState) :
    st.pos < (parse_operator st).2.pos := by
  unfold parse_operator
  dsimp only
  rcases h3 : try_match_three_char_operator st with _ | r
  · rcases h2 : try_match_two_char_operator st with _ | r
    · simp only [h3, h2, advance_pos]
      omega
    · simp only [h3, h2]
      unfold try_match_two_char_operator at h2
      simp only [] at h2
      split at h2
      · exact Option.noConfusion h2
      · split at h2
        · obtain rfl := Option.some.inj h2
          simp only [advance_pos]
          omega
        · exact Option.noConfusion h2
  · simp only [h3]
    unfold try_match_three_char_operator at h3
    simp only [] at h3
    split at h3
    · exact Option.noConfusion h3
    · split at h3
      · obtain rfl := Option.some.inj h3
        simp only [advance_pos]
        omega
      · exact Option.noConfusion h3

theorem pos_lt_skip_comment {st : TokenizerState} (fuel : Nat)
    (hne : ¬st.eof) (hnl : st.peek ≠ '\n') :
    st.pos < (skip_comment (fuel + 1) st).pos := by
  unfold skip_comment
  rw [if_neg (by simpa using hne), if_neg (by simpa using hnl)]
  have := (evolves_skip_comment fuel st.advance).2.2
  rw [advance_pos] at this
  omega

theorem pos_lt_skip_to_end_of_line {st : TokenizerState} (fuel : Nat)
    (hne : ¬st.eof) (h1 : st.peek ≠ '\n') (h2 : st.peek ≠ '\\')
    (h3 : st.peek ≠ '(') :
    st.pos < (skip_to_end_of_line (fuel + 1) st).pos := by
  unfold skip_to_end_of_line
  rw [if_neg (by simpa using hne)]
  simp only []
  rw [if_neg (by simpa using h1), if_neg (by simpa using h2),
    if_neg (by simpa using h3)]
  have := (evolves_skip_to_end_of_line fuel st.advance).2.2
  rw [advance_pos] at this
  omega

theorem pos_lt_dispatch (st : TokenizerState) (m : LineMetrics)
    (r : TokenizedFile) (hne : ¬st.eof) :
    st.pos < (dispatch st st.peek m r).1.pos := by
  unfold dispatch
  cases h1 : skip_whitespace st st.peek with
  | some p =>
    unfold skip_whitespace at h1
    split at h1
    · obtain rfl := Option.some.inj h1
      rw [advance_pos]
      omega
    · exact Option.noConfusion h1
  | none =>
  cases h2 : process_newline st st.peek r with
  | some p =>
    unfold process_newline at h2
    split at h2
    · exact Option.noConfusion h2
    · obtain rfl := Option.some.inj h2
      rw [advance_pos]
      omega
  | none =>
  cases h3 : process_comment st st.peek m with
  | some p =>
    unfold process_comment at h3
    split at h3
    · exact Option.noConfusion h3
    · obtain rfl := Option.some.inj h3
      have hq : st.peek = '#' := by
        by_contra hq
        simp [hq] at *
      exact pos_lt_skip_comment _ hne (by rw [hq]; decide)
  | none =>
  cases h4 : process_import st m with
  | some p =>
    unfold process_import at h4
    split at h4
    · exact Option.noConfusion h4
    · obtain rfl := Option.some.inj h4
      have himp : is_import_statement st := by
        by_contra hq
        simp [hq] at *
      unfold is_import_statement at himp
      simp only [Bool.or_eq_true, decide_eq_true_eq] at himp
      have hpk : st.peek = 'i' ∨ st.peek = 'f' := by
        rcases himp with h | h
        · obtain ⟨t, ht⟩ := List.isPrefixOf_iff_prefix.mp h
          exact Or.inl (peek_head (by rw [← ht]; rfl)).1
        · obtain ⟨t, ht⟩ := List.isPrefixOf_iff_prefix.mp h
          exact Or.inr (peek_head (by rw [← ht]; rfl)).1
      rcases hpk with h | h <;>
        exact pos_lt_skip_to_end_of_line _ hne (by rw [h]; decide)
          (by rw [h]; decide) (by rw [h]; decide)
  | none =>
  cases h5 : process_string_or_docstring st st.peek r m with
  | some p =>
    unfold process_string_or_docstring at h5
    split at h5
    · split at h5
      · obtain rfl := Option.some.inj h5
        dsimp only
        unfold skip_docstring
        have := (evolves_skip_docstring_loop st.peek
          (st.advance.advance.advance.src.length + 1)
          st.advance.advance.advance).2.2
        simp only [advance_pos] at this ⊢
        omega
      · obtain rfl := Option.some.inj h5
        dsimp only
        exact pos_lt_parse_string st
    · split at h5
      · obtain rfl := Option.some.inj h5
        dsimp only
        have := pos_lt_parse_string st.advance
        rw [advance_pos] at this
        omega
      · split at h5
        · obtain rfl := Option.some.inj h5
          dsimp only
          have := pos_lt_parse_string st.advance.advance
          simp only [advance_pos] at this
          omega
        · exact Option.noConfusion h5
  | none =>
  cases h6 : process_number st st.peek r m with
  | some p =>
    unfold process_number at h6
    split at h6
    · exact Option.noConfusion h6
    · obtain rfl := Option.some.inj h6
      have hg : is_digit st.peek ∨ (st.peek = '.' ∧ is_digit st.peek_next) := by
        by_contra hq
        simp only [not_or, not_and] at hq
        rename_i hcond
        exact hcond (by
          push_neg
          constructor
          · simpa using hq.1
          · intro hd
            have := hq.2 hd
            simpa using this)
      exact pos_lt_parse_number hg
  | none =>
  cases h7 : process_identifier st st.peek r m with
  | some p =>
    unfold process_identifier at h7
    split at h7
    · exact Option.noConfusion h7
    · obtain rfl := Option.some.inj h7
      have hg : is_identifier_start st.peek := by
        by_contra hq
        simp [hq] at *
      exact pos_lt_parse_identifier_or_keyword hg
  | none =>
  cases h8 : process_operator st st.peek r m with
  | some p =>
    unfold process_operator at h8
    split at h8
    · exact Option.noConfusion h8
    · obtain rfl := Option.some.inj h8
      exact pos_lt_parse_operator st
  | none =>
    rw [advance_pos]
    omega

end PythonNormalizer

namespace PythonNormalizer

theorem handle_indentation_src_pos (st : TokenizerState) (cur : Nat) :
    (handle_indentation st cur).1.src = st.src ∧
    (handle_indentation st cur).1.pos = st.pos := by
  unfold handle_indentation
  dsimp only
  split
  · exact ⟨rfl, rfl⟩
  · split
    · exact ⟨rfl, rfl⟩
    · exact ⟨rfl, rfl⟩

theorem process_indentation_src_pos (st : TokenizerState) (r : TokenizedFile) :
    (process_indentation st r).1.src = st.src ∧
    st.pos ≤ (process_indentation st r).1.pos := by
  unfold process_indentation
  dsimp only
  have hw := evolves_indent_ws_loop (st.src.length + 1) st 0
  split
  · have hh := handle_indentation_src_pos
      (indent_ws_loop (st.src.length + 1) st 0).1
      (indent_ws_loop (st.src.length + 1) st 0).2
    exact ⟨hh.1.trans hw.1, le_trans hw.2.2 (le_of_eq hh.2.symm)⟩
  · exact ⟨hw.1, hw.2.2⟩

/-- Fuel adequacy for the Python scan loop: with fuel exceeding the
number of unscanned characters, the loop reaches end of input. -/
theorem loop_total :
    ∀ (fuel : Nat) (st : TokenizerState) (m : LineMetrics) (r : TokenizedFile),
      st.src.length - st.pos < fuel →
      ∃ out, loop fuel st m r = some out ∧ out.1.eof := by
  intro fuel
  induction fuel with
  | zero => intro st m r h; omega
  | succ fuel ih =>
    intro st m r h
    unfold loop
    by_cases he : st.eof = true
    · rw [if_pos he]
      exact ⟨(st, m, r), rfl, he⟩
    · rw [if_neg he]
      have hlt : st.pos < st.src.length := by
        unfold TokenizerState.eof at he
        simp only [decide_eq_true_eq] at he
        omega
      simp only []
      split
      · by_cases hpe : (process_indentation st r).1.eof = true
        · rw [if_pos hpe]
          exact ⟨_, rfl, hpe⟩
        · rw [if_neg hpe]
          have hp := process_indentation_src_pos st r
          have hd := evolves_dispatch (process_indentation st r).1
            (process_indentation st r).1.peek (update_line_metrics st m)
            (process_indentation st r).2
          have hstrict := pos_lt_dispatch (process_indentation st r).1
            (update_line_metrics st m) (process_indentation st r).2 hpe
          apply ih
          rw [hd.1, hp.1]
          omega
      · have hd := evolves_dispatch st st.peek (update_line_metrics st m) r
        have hstrict := pos_lt_dispatch st (update_line_metrics st m) r he
        apply ih
        rw [hd.1]
        omega

end PythonNormalizer

namespace CppNormalizer

/-- What every C++ scanning step does to the cursor: same source,
position not decreased. -/
def Evolves (a b : TokenizerState) : Prop :=
  b.src = a.src ∧ a.pos ≤ b.pos

theorem Evolves.erefl {a : TokenizerState} : Evolves a a :=
  ⟨Eq.refl _, Nat.le_refl _⟩

theorem Evolves.etrans {a b c : TokenizerState} (h1 : Evolves a b)
    (h2 : Evolves b c) : Evolves a c :=
  ⟨h2.1.trans h1.1, h1.2.trans h2.2⟩

theorem evolves_advance_c (st : TokenizerState) : Evolves st st.advance :=
  ⟨rfl, Nat.le_succ _⟩

theorem evolves_advance_n (st : TokenizerState) :
    ∀ n, Evolves st (st.advance_n n) := by
  intro n
  induction n generalizing st with
  | zero => exact Evolves.erefl
  | succ n ih => exact (evolves_advance_c st).etrans (ih st.advance)

theorem pos_advance_n :
    ∀ (n : Nat) (st : TokenizerState), (st.advance_n n).pos = st.pos + n := by
  intro n
  induction n with
  | zero => intro st; rfl
  | succ n ih =>
    intro st
    unfold TokenizerState.advance_n
    rw [ih st.advance, advance_pos_c]
    omega

theorem evolves_parse_string_loop_c :
    ∀ (fuel : Nat) (st : TokenizerState) (v : List Char),
      Evolves st (parse_string_loop fuel st v).1 := by
  intro fuel
  induction fuel with
  | zero => intro st v; exact Evolves.erefl
  | succ fuel ih =>
    intro st v
    unfold parse_string_loop
    dsimp only
    split
    · exact Evolves.erefl
    · split
      · exact evolves_advance_c st
      · split
        · exact Evolves.erefl
        · split
          · refine (evolves_advance_c st).etrans (Evolves.etrans ?_ (ih _ _))
            split
            · exact Evolves.erefl
            · exact evolves_advance_c _
          · exact (evolves_advance_c st).etrans (ih _ _)

theorem evolves_skip_encoding_prefixes (st : TokenizerState) :
    Evolves st (skip_encoding_prefixes st) := by
  unfold skip_encoding_prefixes
  dsimp only
  split
  · exact evolves_advance_c st
  · split
    · split
      · exact (evolves_advance_c st).etrans (evolves_advance_c _)
      · exact evolves_advance_c st
    · exact Evolves.erefl

theorem evolves_parse_string_c (st : TokenizerState) :
    Evolves st (parse_string st).2 := by
  unfold parse_string
  dsimp only
  exact ((evolves_skip_encoding_prefixes st).etrans (evolves_advance_c _)).etrans
    (evolves_parse_string_loop_c _ _ _)

theorem evolves_raw_delim_loop :
    ∀ (fuel : Nat) (st : TokenizerState) (d : List Char),
      Evolves st (raw_delim_loop fuel st d).1 := by
  intro fuel
  induction fuel with
  | zero => intro st d; exact Evolves.erefl
  | succ fuel ih =>
    intro st d
    unfold raw_delim_loop
    split
    · exact Evolves.erefl
    · split
      · exact Evolves.erefl
      · exact (evolves_advance_c st).etrans (ih _ _)

theorem evolves_raw_scan_loop (marker : List Char) :
    ∀ (fuel : Nat) (st : TokenizerState) (v : List Char),
      Evolves st (raw_scan_loop marker fuel st v).1 := by
  intro fuel
  induction fuel with
  | zero => intro st v; exact Evolves.erefl
  | succ fuel ih =>
    intro st v
    unfold raw_scan_loop
    split
    · exact Evolves.erefl
    · split
      · exact evolves_advance_n st marker.length
      · exact (evolves_advance_c st).etrans (ih _ _)

theorem evolves_parse_raw_string (st : TokenizerState) :
    Evolves st (parse_raw_string st).2 := by
  unfold parse_raw_string
  dsimp only
  obtain ⟨dl, hg⟩ : ∃ x, raw_delim_loop (st.advance.advance.src.length + 1)
      st.advance.advance [] = x := ⟨_, rfl⟩
  rw [hg]
  have h1 : Evolves st dl.1 := by
    rw [← hg]
    exact ((evolves_advance_c st).etrans (evolves_advance_c _)).etrans
      (evolves_raw_delim_loop _ _ _)
  have h2 : Evolves dl.1 (if dl.1.eof = true then dl.1 else dl.1.advance) := by
    split
    · exact Evolves.erefl
    · exact evolves_advance_c _
  exact (h1.etrans h2).etrans (evolves_raw_scan_loop _ _ _ _)

theorem evolves_parse_char_loop :
    ∀ (fuel : Nat) (st : TokenizerState) (v : List Char),
      Evolves st (parse_char_loop fuel st v).1 := by
  intro fuel
  induction fuel with
  | zero => intro st v; exact Evolves.erefl
  | succ fuel ih =>
    intro st v
    unfold parse_char_loop
    dsimp only
    split
    · exact Evolves.erefl
    · split
      · exact Evolves.erefl
      · split
        · exact Evolves.erefl
        · split
          · split
            · exact (evolves_advance_c st).etrans (ih _ _)
            · exact ((evolves_advance_c st).etrans (evolves_advance_c _)).etrans
                (ih _ _)
          · exact (evolves_advance_c st).etrans (ih _ _)

theorem evolves_parse_char (st : TokenizerState) :
    Evolves st (parse_char st).2 := by
  unfold parse_char
  dsimp only
  obtain ⟨sc, hg⟩ : ∃ x, parse_char_loop
      ((skip_encoding_prefixes st).advance.src.length + 1)
      (skip_encoding_prefixes st).advance [] = x := ⟨_, rfl⟩
  rw [hg]
  have h1 : Evolves st sc.1 := by
    rw [← hg]
    exact ((evolves_skip_encoding_prefixes st).etrans (evolves_advance_c _)).etrans
      (evolves_parse_char_loop _ _ _)
  refine h1.etrans ?_
  split
  · exact Evolves.erefl
  · exact evolves_advance_c _

theorem evolves_consume_digits (p : Char → Bool) :
    ∀ (fuel : Nat) (st : TokenizerState) (v : List Char),
      Evolves st (consume_digits_with_separator p fuel st v).1 := by
  intro fuel
  induction fuel with
  | zero => intro st v; exact Evolves.erefl
  | succ fuel ih =>
    intro st v
    unfold consume_digits_with_separator
    dsimp only
    split
    · exact Evolves.erefl
    · split
      · exact (evolves_advance_c st).etrans (ih _ _)
      · split
        · exact (evolves_advance_c st).etrans (ih _ _)
        · exact Evolves.erefl

theorem evolves_parse_integer_part_c (st : TokenizerState) (v : List Char) :
    Evolves st (parse_integer_part st v).1 :=
  evolves_consume_digits _ _ _ _

theorem evolves_parse_decimal_part_c (st : TokenizerState) (v : List Char) :
    Evolves st (parse_decimal_part st v).1 := by
  unfold parse_decimal_part
  dsimp only
  split
  · exact Evolves.erefl
  · split
    · exact Evolves.erefl
    · exact (evolves_advance_c st).etrans (evolves_consume_digits _ _ _ _)

theorem evolves_parse_exponent_part_c (st : TokenizerState) (v : List Char) :
    Evolves st (parse_exponent_part st v).1 := by
  unfold parse_exponent_part
  dsimp only
  split
  · exact Evolves.erefl
  · split
    · exact ((evolves_advance_c st).etrans (evolves_advance_c _)).etrans
        (evolves_consume_digits _ _ _ _)
    · exact (evolves_advance_c st).etrans (evolves_consume_digits _ _ _ _)

theorem evolves_skip_number_suffix :
    ∀ (fuel : Nat) (st : TokenizerState),
      Evolves st (skip_number_suffix fuel st) := by
  intro fuel
  induction fuel with
  | zero => intro st; exact Evolves.erefl
  | succ fuel ih =>
    intro st
    unfold skip_number_suffix
    dsimp only
    split
    · exact Evolves.erefl
    · split
      · exact (evolves_advance_c st).etrans (ih _)
      · exact Evolves.erefl

theorem evolves_parse_hex_number_c {st : TokenizerState} {v : List Char}
    {out : TokenizerState × List Char} (h : parse_hex_number st v = some out) :
    Evolves st out.1 ∧ st.pos + 1 ≤ out.1.pos := by
  unfold parse_hex_number at h
  simp only [] at h
  split at h
  · exact Option.noConfusion h
  · obtain rfl := Option.some.inj h
    have he := evolves_consume_digits is_hex_digit (st.src.length + 1)
      st.advance.advance (v ++ [st.peek, st.peek_next])
    refine ⟨((evolves_advance_c st).etrans (evolves_advance_c _)).etrans he, ?_⟩
    have := he.2
    simp only [advance_pos_c] at this
    omega

theorem evolves_parse_binary_number_c {st : TokenizerState} {v : List Char}
    {out : TokenizerState × List Char}
    (h : parse_binary_number st v = some out) :
    Evolves st out.1 ∧ st.pos + 1 ≤ out.1.pos := by
  unfold parse_binary_number at h
  simp only [] at h
  split at h
  · exact Option.noConfusion h
  · obtain rfl := Option.some.inj h
    have he := evolves_consume_digits is_binary_digit (st.src.length + 1)
      st.advance.advance (v ++ [st.peek, st.peek_next])
    refine ⟨((evolves_advance_c st).etrans (evolves_advance_c _)).etrans he, ?_⟩
    have := he.2
    simp only [advance_pos_c] at this
    omega

theorem evolves_parse_octal_number_c {st : TokenizerState} {v : List Char}
    {out : TokenizerState × List Char}
    (h : parse_octal_number st v = some out) :
    Evolves st out.1 ∧ st.pos + 1 ≤ out.1.pos := by
  unfold parse_octal_number at h
  simp only [] at h
  split at h
  · exact Option.noConfusion h
  · obtain rfl := Option.some.inj h
    have he := evolves_consume_digits is_octal_digit (st.src.length + 1)
      st.advance (v ++ [st.peek])
    refine ⟨(evolves_advance_c st).etrans he, ?_⟩
    have := he.2
    simp only [advance_pos_c] at this
    omega

theorem evolves_parse_number_c (st : TokenizerState) :
    Evolves st (parse_number st).2 := by
  unfold parse_number
  dsimp only
  refine Evolves.etrans (Evolves.etrans (Evolves.etrans ?_
    (evolves_parse_decimal_part_c _ _)) (evolves_parse_exponent_part_c _ _))
    (evolves_skip_number_suffix _ _)
  split
  · rcases hh : parse_hex_number st [] with _ | r
    · rcases hb : parse_binary_number st [] with _ | r
      · rcases ho : parse_octal_number st [] with _ | r
        · simp only [hh, hb, ho]
          exact evolves_advance_c st
        · simp only [hh, hb, ho]
          split
          · exact ((evolves_parse_octal_number_c ho).1).etrans
              (evolves_parse_integer_part_c _ _)
          · exact (evolves_parse_octal_number_c ho).1
      · simp only [hh, hb]
        split
        · exact ((evolves_parse_binary_number_c hb).1).etrans
            (evolves_parse_integer_part_c _ _)
        · exact (evolves_parse_binary_number_c hb).1
    · simp only [hh]
      split
      · exact ((evolves_parse_hex_number_c hh).1).etrans
          (evolves_parse_integer_part_c _ _)
      · exact (evolves_parse_hex_number_c hh).1
  · split
    · exact evolves_parse_integer_part_c _ _
    · exact Evolves.erefl

theorem evolves_ident_loop_c :
    ∀ (fuel : Nat) (st : TokenizerState) (v : List Char),
      Evolves st (ident_loop fuel st v).1 := by
  intro fuel
  induction fuel with
  | zero => intro st v; exact Evolves.erefl
  | succ fuel ih =>
    intro st v
    unfold ident_loop
    split
    · exact Evolves.erefl
    · split
      · exact (evolves_advance_c st).etrans (ih _ _)
      · exact Evolves.erefl

theorem evolves_parse_identifier_or_keyword_c (st : TokenizerState) :
    Evolves st (parse_identifier_or_keyword st).2 := by
  unfold parse_identifier_or_keyword
  exact evolves_ident_loop_c _ _ _

theorem evolves_parse_operator_c (st : TokenizerState) :
    Evolves st (parse_operator st).2 := by
  unfold parse_operator
  dsimp only
  rcases h4 : try_match_four_char_operator st with _ | r
  · rcases h3 : try_match_three_char_operator st with _ | r
    · rcases h2 : try_match_two_char_operator st with _ | r
      · simp only [h4, h3, h2]
        exact evolves_advance_c st
      · simp only [h4, h3, h2]
        unfold try_match_two_char_operator at h2
        simp only [] at h2
        split at h2
        · exact Option.noConfusion h2
        · split at h2
          · obtain rfl := Option.some.inj h2
            exact (evolves_advance_c st).etrans (evolves_advance_c _)
          · exact Option.noConfusion h2
    · simp only [h4, h3]
      unfold try_match_three_char_operator at h3
      simp only [] at h3
      split at h3
      · exact Option.noConfusion h3
      · split at h3
        · obtain rfl := Option.some.inj h3
          exact ((evolves_advance_c st).etrans (evolves_advance_c _)).etrans
            (evolves_advance_c _)
        · exact Option.noConfusion h3
  · simp only [h4]
    unfold try_match_four_char_operator at h4
    simp only [] at h4
    split at h4
    · exact Option.noConfusion h4
    · split at h4
      · obtain rfl := Option.some.inj h4
        exact evolves_advance_n st 4
      · exact Option.noConfusion h4

theorem evolves_skip_preprocessor_loop :
    ∀ (fuel : Nat) (st : TokenizerState),
      Evolves st (skip_preprocessor_loop fuel st) := by
  intro fuel
  induction fuel with
  | zero => intro st; exact Evolves.erefl
  | succ fuel ih =>
    intro st
    unfold skip_preprocessor_loop
    dsimp only
    split
    · exact Evolves.erefl
    · split
      · exact Evolves.erefl
      · split
        · split
          · exact ((evolves_advance_c st).etrans (evolves_advance_c _)).etrans (ih _)
          · exact (evolves_advance_c st).etrans (ih _)
        · exact (evolves_advance_c st).etrans (ih _)

theorem evolves_skip_single_line_comment :
    ∀ (fuel : Nat) (st : TokenizerState),
      Evolves st (skip_single_line_comment fuel st) := by
  intro fuel
  induction fuel with
  | zero => intro st; exact Evolves.erefl
  | succ fuel ih =>
    intro st
    unfold skip_single_line_comment
    split
    · exact Evolves.erefl
    · split
      · exact Evolves.erefl
      · exact (evolves_advance_c st).etrans (ih _)

theorem evolves_multi_line_comment_loop :
    ∀ (fuel : Nat) (st : TokenizerState),
      Evolves st (multi_line_comment_loop fuel st) := by
  intro fuel
  induction fuel with
  | zero => intro st; exact Evolves.erefl
  | succ fuel ih =>
    intro st
    unfold multi_line_comment_loop
    split
    · exact Evolves.erefl
    · split
      · exact (evolves_advance_c st).etrans (evolves_advance_c _)
      · exact (evolves_advance_c st).etrans (ih _)

end CppNormalizer

namespace CppNormalizer

theorem pos_lt_parse_string_c (st : TokenizerState) :
    st.pos < (parse_string st).2.pos := by
  unfold parse_string
  dsimp only
  have h1 := (evolves_skip_encoding_prefixes st).2
  have h2 := (evolves_parse_string_loop_c
    ((skip_encoding_prefixes st).advance.src.length + 1)
    (skip_encoding_prefixes st).advance []).2
  rw [advance_pos_c] at h2
  omega

theorem pos_lt_parse_raw_string (st : TokenizerState) :
    st.pos < (parse_raw_string st).2.pos := by
  unfold parse_raw_string
  dsimp only
  obtain ⟨dl, hg⟩ : ∃ x, raw_delim_loop (st.advance.advance.src.length + 1)
      st.advance.advance [] = x := ⟨_, rfl⟩
  rw [hg]
  have h1 : st.pos + 2 ≤ dl.1.pos := by
    have := (evolves_raw_delim_loop (st.advance.advance.src.length + 1)
      st.advance.advance []).2
    rw [hg] at this
    simp only [advance_pos_c] at this
    omega
  have h2 : dl.1.pos ≤ (if dl.1.eof = true then dl.1 else dl.1.advance).pos := by
    split
    · exact le_refl _
    · rw [advance_pos_c]
      omega
  have h3 := (evolves_raw_scan_loop ([')'] ++ dl.2 ++ ['"'])
    ((if dl.1.eof = true then dl.1 else dl.1.advance).src.length + 1)
    (if dl.1.eof = true then dl.1 else dl.1.advance) []).2
  omega

theorem pos_lt_parse_char (st : TokenizerState) :
    st.pos < (parse_char st).2.pos := by
  unfold parse_char
  dsimp only
  obtain ⟨sc, hg⟩ : ∃ x, parse_char_loop
      ((skip_encoding_prefixes st).advance.src.length + 1)
      (skip_encoding_prefixes st).advance [] = x := ⟨_, rfl⟩
  rw [hg]
  have h0 := (evolves_skip_encoding_prefixes st).2
  have h1 : st.pos + 1 ≤ sc.1.pos := by
    have := (evolves_parse_char_loop
      ((skip_encoding_prefixes st).advance.src.length + 1)
      (skip_encoding_prefixes st).advance []).2
    rw [hg] at this
    rw [advance_pos_c] at this
    omega
  split
  · omega
  · rw [advance_pos_c]
    omega

theorem consume_digits_strict (p : Char → Bool) (fuel : Nat)
    {st : TokenizerState} {v : List Char} (hne : ¬st.eof)
    (hp : p st.peek) :
    st.pos < (consume_digits_with_separator p (fuel + 1) st v).1.pos := by
  unfold consume_digits_with_separator
  rw [if_neg (by simpa using hne)]
  show st.pos < (if p st.peek = true then
    consume_digits_with_separator p fuel st.advance (v ++ [st.peek])
    else if st.peek = '\'' then
      consume_digits_with_separator p fuel st.advance v
    else (st, v)).1.pos
  rw [if_pos hp]
  have := (evolves_consume_digits p fuel st.advance (v ++ [st.peek])).2
  rw [advance_pos_c] at this
  omega

theorem pos_lt_parse_number_c {st : TokenizerState}
    (hg : is_digit st.peek ∨ (st.peek = '.' ∧ is_digit st.peek_next)) :
    st.pos < (parse_number st).2.pos := by
  have hne : ¬st.eof := by
    refine not_eof_of_peek_c ?_
    rcases hg with h | ⟨h, _⟩
    · intro hc
      rw [hc] at h
      simp [is_digit] at h
    · intro hc
      rw [hc] at h
      simp at h
  unfold parse_number
  dsimp only
  obtain ⟨az, haz⟩ : ∃ x, (if st.peek = '0' ∧ ¬st.eof = true then
      match parse_hex_number st [] with
      | some r => r
      | none =>
        match parse_binary_number st [] with
        | some r => r
        | none =>
          match parse_octal_number st [] with
          | some r => r
          | none => (st.advance, [st.peek])
    else (st, [])) = x := ⟨_, rfl⟩
  rw [haz]
  obtain ⟨ai, hai⟩ : ∃ x, (if az.2.isEmpty = true then
      parse_integer_part az.1 az.2 else az) = x := ⟨_, rfl⟩
  rw [hai]
  have hmono2 := (evolves_parse_decimal_part_c ai.1 ai.2).2
  have hmono3 := (evolves_parse_exponent_part_c
    (parse_decimal_part ai.1 ai.2).1 (parse_decimal_part ai.1 ai.2).2).2
  have hmono4 := (evolves_skip_number_suffix
    ((parse_exponent_part (parse_decimal_part ai.1 ai.2).1
        (parse_decimal_part ai.1 ai.2).2).1.src.length + 1)
    (parse_exponent_part (parse_decimal_part ai.1 ai.2).1
        (parse_decimal_part ai.1 ai.2).2).1).2
  by_cases hz : st.peek = '0'
  · -- leading zero: each special branch and the bare-zero fallback consume
    have h1 : st.pos < az.1.pos := by
      rw [if_pos ⟨hz, by simpa using hne⟩] at haz
      rcases hh : parse_hex_number st [] with _ | r
      · rcases hb : parse_binary_number st [] with _ | r
        · rcases ho : parse_octal_number st [] with _ | r
          · rw [hh, hb, ho] at haz
            simp only [] at haz
            rw [← haz]
            show st.pos < st.advance.pos
            rw [advance_pos_c]
            omega
          · rw [hh, hb, ho] at haz
            simp only [] at haz
            have := (evolves_parse_octal_number_c ho).2
            rw [haz] at this
            omega
        · rw [hh, hb] at haz
          simp only [] at haz
          have := (evolves_parse_binary_number_c hb).2
          rw [haz] at this
          omega
      · rw [hh] at haz
        simp only [] at haz
        have := (evolves_parse_hex_number_c hh).2
        rw [haz] at this
        omega
    have h15 : az.1.pos ≤ ai.1.pos := by
      rw [← hai]
      split
      · exact (evolves_parse_integer_part_c az.1 az.2).2
      · exact le_refl _
    omega
  · -- no leading zero
    have haz' : az = (st, []) := by
      rw [← haz, if_neg]
      intro hcon
      exact hz hcon.1
    rcases hg with hdig | ⟨hdot, hnext⟩
    · have h1 : st.pos < ai.1.pos := by
        rw [← hai, haz']
        show st.pos < (parse_integer_part st []).1.pos
        unfold parse_integer_part
        exact consume_digits_strict is_digit _ hne hdig
      omega
    · have hai' : ai = (st, []) := by
        rw [← hai, haz']
        show parse_integer_part st [] = (st, [])
        unfold parse_integer_part
        unfold consume_digits_with_separator
        rw [if_neg (by simpa using hne)]
        show (if is_digit st.peek = true then
          consume_digits_with_separator is_digit st.src.length st.advance
            ([] ++ [st.peek])
          else if st.peek = '\'' then
            consume_digits_with_separator is_digit st.src.length st.advance []
          else (st, [])) = (st, [])
        rw [if_neg (by rw [hdot]; decide), if_neg (by rw [hdot]; decide)]
      have h2 : st.pos < (parse_decimal_part ai.1 ai.2).1.pos := by
        rw [hai']
        unfold parse_decimal_part
        dsimp only
        rw [if_neg (by rw [hdot]; simp), if_neg (by simp [hnext])]
        have := (evolves_consume_digits is_digit (st.src.length + 1)
          st.advance ([] ++ ['.'])).2
        rw [advance_pos_c] at this
        omega
      omega

theorem pos_lt_parse_identifier_or_keyword_c {st : TokenizerState}
    (hg : is_identifier_start st.peek) :
    st.pos < (parse_identifier_or_keyword st).2.pos := by
  have hne : ¬st.eof := by
    refine not_eof_of_peek_c ?_
    intro hc
    rw [hc] at hg
    exact absurd hg (by decide)
  have hchar : is_identifier_char st.peek := by
    unfold is_identifier_start at hg
    unfold is_identifier_char
    simp only [Bool.or_eq_true, decide_eq_true_eq] at hg ⊢
    tauto
  unfold parse_identifier_or_keyword
  dsimp only
  unfold ident_loop
  rw [if_neg (by simpa using hne), if_pos hchar]
  have := (evolves_ident_loop_c st.src.length st.advance ([] ++ [st.peek])).2
  rw [advance_pos_c] at this
  omega

theorem pos_lt_parse_operator_c (st : TokenizerState) :
    st.pos < (parse_operator st).2.pos := by
  unfold parse_operator
  dsimp only
  rcases h4 : try_match_four_char_operator st with _ | r
  · rcases h3 : try_match_three_char_operator st with _ | r
    · rcases h2 : try_match_two_char_operator st with _ | r
      · simp only [h4, h3, h2, advance_pos_c]
        omega
      · simp only [h4, h3, h2]
        unfold try_match_two_char_operator at h2
        simp only [] at h2
        split at h2
        · exact Option.noConfusion h2
        · split at h2
          · obtain rfl := Option.some.inj h2
            simp only [advance_pos_c]
            omega
          · exact Option.noConfusion h2
    · simp only [h4, h3]
      unfold try_match_three_char_operator at h3
      simp only [] at h3
      split at h3
      · exact Option.noConfusion h3
      · split at h3
        · obtain rfl := Option.some.inj h3
          simp only [advance_pos_c]
          omega
        · exact Option.noConfusion h3
  · simp only [h4]
    unfold try_match_four_char_operator at h4
    simp only [] at h4
    split at h4
    · exact Option.noConfusion h4
    · split at h4
      · obtain rfl := Option.some.inj h4
        rw [pos_advance_n]
        omega
      · exact Option.noConfusion h4

theorem pos_lt_skip_preprocessor (st : TokenizerState) :
    st.pos < (skip_preprocessor st).pos := by
  unfold skip_preprocessor
  have := (evolves_skip_preprocessor_loop (st.src.length + 1) st.advance).2
  rw [advance_pos_c] at this
  omega

theorem pos_lt_skip_single_line_comment {st : TokenizerState} (fuel : Nat)
    (hne : ¬st.eof) (hnl : st.peek ≠ '\n') :
    st.pos < (skip_single_line_comment (fuel + 1) st).pos := by
  unfold skip_single_line_comment
  rw [if_neg (by simpa using hne), if_neg (by simpa using hnl)]
  have := (evolves_skip_single_line_comment fuel st.advance).2
  rw [advance_pos_c] at this
  omega

theorem pos_lt_skip_multi_line_comment (st : TokenizerState) :
    st.pos < (skip_multi_line_comment st).pos := by
  unfold skip_multi_line_comment
  dsimp only
  have := (evolves_multi_line_comment_loop (st.advance.advance.src.length + 1)
    st.advance.advance).2
  simp only [advance_pos_c] at this
  omega

theorem pos_lt_dispatch_c (st : TokenizerState) (m : LineMetrics)
    (r : TokenizedFile) (hne : ¬st.eof) :
    st.pos < (dispatch st m r).1.pos := by
  unfold dispatch
  cases h1 : skip_whitespace_and_newline st with
  | some p =>
    unfold skip_whitespace_and_newline at h1
    simp only [] at h1
    split at h1
    · obtain rfl := Option.some.inj h1
      rw [advance_pos_c]
      omega
    · split at h1
      · obtain rfl := Option.some.inj h1
        rw [advance_pos_c]
        omega
      · exact Option.noConfusion h1
  | none =>
  cases h2 : process_preprocessor st m with
  | some p =>
    unfold process_preprocessor at h2
    split at h2
    · obtain rfl := Option.some.inj h2
      dsimp only
      exact pos_lt_skip_preprocessor st
    · exact Option.noConfusion h2
  | none =>
  cases h3 : process_comment st m with
  | some p =>
    unfold process_comment at h3
    split at h3
    · obtain rfl := Option.some.inj h3
      dsimp only
      refine pos_lt_skip_single_line_comment _ hne ?_
      rename_i hcond
      rw [hcond.1]
      decide
    · split at h3
      · obtain rfl := Option.some.inj h3
        dsimp only
        exact pos_lt_skip_multi_line_comment st
      · exact Option.noConfusion h3
  | none =>
  cases h4 : process_string_literal st r m with
  | some p =>
    unfold process_string_literal at h4
    simp only [] at h4
    split at h4
    · obtain rfl := Option.some.inj h4
      dsimp only
      exact pos_lt_parse_raw_string st
    · split at h4
      · obtain rfl := Option.some.inj h4
        dsimp only
        exact pos_lt_parse_string_c st
      · split at h4
        · obtain rfl := Option.some.inj h4
          dsimp only
          exact pos_lt_parse_char st
        · exact Option.noConfusion h4
  | none =>
  cases h5 : process_number st r m with
  | some p =>
    unfold process_number at h5
    split at h5
    · obtain rfl := Option.some.inj h5
      dsimp only
      rename_i hcond
      refine pos_lt_parse_number_c ?_
      simpa using hcond
    · exact Option.noConfusion h5
  | none =>
  cases h6 : process_identifier st r m with
  | some p =>
    unfold process_identifier at h6
    split at h6
    · obtain rfl := Option.some.inj h6
      dsimp only
      rename_i hcond
      exact pos_lt_parse_identifier_or_keyword_c hcond
    · exact Option.noConfusion h6
  | none =>
  cases h7 : process_operator st r m with
  | some p =>
    unfold process_operator at h7
    split at h7
    · obtain rfl := Option.some.inj h7
      dsimp only
      exact pos_lt_parse_operator_c st
    · exact Option.noConfusion h7
  | none =>
    rw [advance_pos_c]
    omega

theorem evolves_skip_whitespace_and_newline_some {st p : TokenizerState}
    (h : skip_whitespace_and_newline st = some p) : Evolves st p := by
  unfold skip_whitespace_and_newline at h
  simp only [] at h
  split at h
  · obtain rfl := Option.some.inj h
    exact evolves_advance_c st
  · split at h
    · obtain rfl := Option.some.inj h
      exact evolves_advance_c st
    · exact Option.noConfusion h

theorem evolves_process_preprocessor_c {st : TokenizerState} {m : LineMetrics}
    {out : TokenizerState × LineMetrics}
    (h : process_preprocessor st m = some out) : Evolves st out.1 := by
  unfold process_preprocessor at h
  split at h
  · obtain rfl := Option.some.inj h
    unfold skip_preprocessor
    exact (evolves_advance_c st).etrans (evolves_skip_preprocessor_loop _ _)
  · exact Option.noConfusion h

theorem evolves_process_comment_c {st : TokenizerState} {m : LineMetrics}
    {out : TokenizerState × LineMetrics}
    (h : process_comment st m = some out) : Evolves st out.1 := by
  unfold process_comment at h
  split at h
  · obtain rfl := Option.some.inj h
    exact evolves_skip_single_line_comment _ _
  · split at h
    · obtain rfl := Option.some.inj h
      unfold skip_multi_line_comment
      exact ((evolves_advance_c st).etrans (evolves_advance_c _)).etrans
        (evolves_multi_line_comment_loop _ _)
    · exact Option.noConfusion h

theorem evolves_process_string_literal_c {st : TokenizerState}
    {r : TokenizedFile} {m : LineMetrics}
    {out : TokenizerState × TokenizedFile × LineMetrics}
    (h : process_string_literal st r m = some out) : Evolves st out.1 := by
  unfold process_string_literal at h
  simp only [] at h
  split at h
  · obtain rfl := Option.some.inj h
    exact evolves_parse_raw_string st
  · split at h
    · obtain rfl := Option.some.inj h
      exact evolves_parse_string_c st
    · split at h
      · obtain rfl := Option.some.inj h
        exact evolves_parse_char st
      · exact Option.noConfusion h

theorem evolves_process_number_c {st : TokenizerState}
    {r : TokenizedFile} {m : LineMetrics}
    {out : TokenizerState × TokenizedFile × LineMetrics}
    (h : process_number st r m = some out) : Evolves st out.1 := by
  unfold process_number at h
  by_cases hg : is_digit st.peek ∨ (st.peek = '.' ∧ is_digit st.peek_next)
  · rw [if_pos hg] at h
    dsimp only at h
    injection h with hinj
    rw [← hinj]
    dsimp only
    exact evolves_parse_number_c st
  · rw [if_neg hg] at h
    exact Option.noConfusion h

theorem evolves_process_identifier_c {st : TokenizerState}
    {r : TokenizedFile} {m : LineMetrics}
    {out : TokenizerState × TokenizedFile × LineMetrics}
    (h : process_identifier st r m = some out) : Evolves st out.1 := by
  unfold process_identifier at h
  split at h
  · obtain rfl := Option.some.inj h
    exact evolves_parse_identifier_or_keyword_c st
  · exact Option.noConfusion h

theorem evolves_process_operator_c {st : TokenizerState}
    {r : TokenizedFile} {m : LineMetrics}
    {out : TokenizerState × TokenizedFile × LineMetrics}
    (h : process_operator st r m = some out) : Evolves st out.1 := by
  unfold process_operator at h
  split at h
  · obtain rfl := Option.some.inj h
    exact evolves_parse_operator_c st
  · exact Option.noConfusion h

theorem evolves_dispatch_c (st : TokenizerState) (m : LineMetrics)
    (r : TokenizedFile) : Evolves st (dispatch st m r).1 := by
  unfold dispatch
  cases h1 : skip_whitespace_and_newline st with
  | some p => exact evolves_skip_whitespace_and_newline_some h1
  | none =>
  cases h2 : process_preprocessor st m with
  | some p => exact evolves_process_preprocessor_c h2
  | none =>
  cases h3 : process_comment st m with
  | some p => exact evolves_process_comment_c h3
  | none =>
  cases h4 : process_string_literal st r m with
  | some p => exact evolves_process_string_literal_c h4
  | none =>
  cases h5 : process_number st r m with
  | some p => exact evolves_process_number_c h5
  | none =>
  cases h6 : process_identifier st r m with
  | some p => exact evolves_process_identifier_c h6
  | none =>
  cases h7 : process_operator st r m with
  | some p => exact evolves_process_operator_c h7
  | none => exact evolves_advance_c st

/-- Fuel adequacy for the C++ scan loop. -/
theorem loop_total_c :
    ∀ (fuel : Nat) (st : TokenizerState) (m : LineMetrics) (r : TokenizedFile),
      st.src.length - st.pos < fuel →
      ∃ out, loop fuel st m r = some out ∧ out.1.eof := by
  intro fuel
  induction fuel with
  | zero => intro st m r h; omega
  | succ fuel ih =>
    intro st m r h
    unfold loop
    by_cases he : st.eof = true
    · rw [if_pos he]
      exact ⟨(st, m, r), rfl, he⟩
    · rw [if_neg he]
      have hlt : st.pos < st.src.length := by
        unfold TokenizerState.eof at he
        simp only [decide_eq_true_eq] at he
        omega
      have hd := evolves_dispatch_c st (handle_line_metrics st m) r
      have hstrict := pos_lt_dispatch_c st (handle_line_metrics st m) r he
      apply ih
      rw [hd.1]
      omega

end CppNormalizer

/-- C6.  Tokenization is total for both engines: for every input text
(empty, binary, or malformed alike) the scan loop, supplied with fuel
`length + 1`, returns a result with the cursor at end of input — every
scanning step consumes at least one character, so unterminated strings,
raw strings and comments are closed implicitly by consuming to end of
line or end of input rather than looping. -/
theorem C6_tokenization_total (src : List Char) :
    (∃ out, PythonNormalizer.loop (src.length + 1)
        { src := src } {} {} = some out ∧ out.1.eof) ∧
    (∃ out, CppNormalizer.loop (src.length + 1)
        { src := src } {} {} = some out ∧ out.1.eof) :=
  ⟨PythonNormalizer.loop_total _ _ _ _ (by simp),
   CppNormalizer.loop_total_c _ _ _ _ (by simp)⟩

/-- C1.  The spec claims `code_lines + blank_lines + comment_lines =
total_lines` for every input, each physical line classified exactly
once.  The code violates this: a physical line lying strictly inside a
multi-line token (a Python triple-quoted string, a C/C++ block comment)
is skipped by the line-change bookkeeping and classified in neither
bucket.  This theorem evaluates both engines at such inputs: the Python
input `x = \"\"\"a\nb\nc\"\"\"` has 3 physical lines but only 1
classified; the C++ input `/*\n\n*/x` has 3 physical lines but only 2
classified. -/
theorem C1_line_classification_fails_inside_multiline_tokens :
    (let r := PythonNormalizer.normalize "x = \"\"\"a\nb\nc\"\"\"".data
     r.code_lines + r.blank_lines + r.comment_lines = 1 ∧ r.total_lines = 3) ∧
    (let r := CppNormalizer.normalize "/*\n\n*/x".data
     r.code_lines + r.blank_lines + r.comment_lines = 2 ∧ r.total_lines = 3) := by
  decide

/-!  C5: the docstring heuristic. -/

theorem is_docstring_context_rev_eq (l : List NormalizedToken) :
    PythonNormalizer.is_docstring_context_rev l = docstring_amended_rev l := by
  induction l with
  | nil => rfl
  | cons t rest ih =>
    unfold PythonNormalizer.is_docstring_context_rev docstring_amended_rev
    rw [List.dropWhile_cons]
    by_cases hskip : t.type = TokenType.NEWLINE ∨ t.type = TokenType.INDENT
    · rw [if_pos hskip, if_pos (by simpa using hskip)]
      exact ih
    · rw [if_neg hskip,
          if_neg (show ¬(decide (t.type = TokenType.NEWLINE ∨
            t.type = TokenType.INDENT) = true) from by
              simpa using hskip)]
      by_cases hp : t.type = TokenType.PUNCTUATION
      · simp [hp]
      · simp [hp]

/-- C5.  The claim says a triple-quoted string is elided exactly when,
skipping back over NEWLINE/INDENT/DEDENT tokens, it is at start of file
or preceded by a `:` PUNCTUATION token.  The code disagrees twice: its
backward scan does not skip DEDENT tokens, and it additionally requires
that no code token has yet been seen on the current line.  Both inputs
here are docstring contexts in the claim's sense
(`docstring_context_claim` of the tokens before the literal is true),
yet the engine emits the literal as a STRING_LITERAL token and counts
no comment line: `if a:\n b:\n\"\"\"d\"\"\"` (a DEDENT intervenes) and
`: \"\"\"d\"\"\"` (the colon sits on the same line, so line_has_code
blocks the heuristic). -/
theorem C5_docstring_eliding_counterexample :
    (let outA := PythonNormalizer.normalize "if a:\n b:\n\"\"\"d\"\"\"".data
     docstring_context_claim outA.tokens.dropLast = true ∧
     outA.tokens.getLast?.map (fun t => t.type) =
       some TokenType.STRING_LITERAL ∧
     outA.comment_lines = 0) ∧
    (let outB := PythonNormalizer.normalize ": \"\"\"d\"\"\"".data
     docstring_context_claim outB.tokens.dropLast = true ∧
     outB.tokens.getLast?.map (fun t => t.type) =
       some TokenType.STRING_LITERAL ∧
     outB.comment_lines = 0) := by
  decide

/-- C5 amended.  A triple-quoted string literal is elided exactly when
no code token has yet been seen on the current line AND — skipping back
over NEWLINE and INDENT tokens only, not DEDENT — it is at start of
file or immediately preceded by a PUNCTUATION token spelling `:`.
Part 1: the engine's backward scan equals that description.  Part 2:
for a triple-quoted literal, the token list is left unchanged (the
literal is elided) iff that condition holds.  Part 3: the scenario — the
file `\"\"\"hello\"\"\"` yields no tokens and one comment line. -/
theorem C5_amended_docstring_eliding :
    (∀ tokens, PythonNormalizer.is_docstring_context tokens =
        docstring_context_amended tokens) ∧
    (∀ (st : PythonNormalizer.TokenizerState) (c : Char)
        (r : TokenizedFile) (m : PythonNormalizer.LineMetrics),
        (c = '"' ∨ c = '\'') →
        (st.peek_next = c ∧ st.pos + 2 < st.src.length ∧
         st.src.getD (st.pos + 2) '\x00' = c) →
        ((PythonNormalizer.process_string_or_docstring st c r m).map
            (fun out => out.2.1.tokens) = some r.tokens ↔
          (m.line_has_code = false ∧
           PythonNormalizer.is_docstring_context r.tokens = true))) ∧
    PythonNormalizer.normalize "\"\"\"hello\"\"\"".data =
      { tokens := [], total_lines := 1, code_lines := 0, blank_lines := 0,
        comment_lines := 1 } := by
  refine ⟨?_, ?_, by decide⟩
  · intro tokens
    unfold PythonNormalizer.is_docstring_context docstring_context_amended
    exact is_docstring_context_rev_eq tokens.reverse
  · intro st c r m hc htrip
    unfold PythonNormalizer.process_string_or_docstring
    rw [if_pos hc]
    by_cases hd : ¬m.line_has_code = true ∧
        PythonNormalizer.is_docstring_context r.tokens = true
    · rw [if_pos ⟨htrip, hd⟩]
      constructor
      · intro _
        refine ⟨?_, hd.2⟩
        cases hb : m.line_has_code
        · rfl
        · exact absurd hb hd.1
      · intro _
        rfl
    · rw [if_neg (fun hcon => hd hcon.2)]
      dsimp only
      constructor
      · intro hmap
        exfalso
        have hinj := Option.some.inj hmap
        have hlen := congrArg List.length hinj
        simp at hlen
      · intro hcon
        exact absurd ⟨by simp [hcon.1], hcon.2⟩ hd

/-- Witness for the amended C5 theorem: at the start of the file
`\"\"\"x\"\"\"` the triple-quoted literal is elided — the token list
stays empty. -/
theorem C5_amended_docstring_eliding_witness :
    (PythonNormalizer.process_string_or_docstring
        { src := "\"\"\"x\"\"\"".data } '"' {} {}).map
      (fun out => out.2.1.tokens) = some ([] : List NormalizedToken) :=
  (C5_amended_docstring_eliding.2.1 { src := "\"\"\"x\"\"\"".data } '"' {} {}
    (Or.inl rfl) (by decide)).mpr (by decide)

/-!  C8: import-line consumption. -/

namespace PythonNormalizer

theorem skip_to_end_of_line_post :
    ∀ (fuel : Nat) (st : TokenizerState),
      st.src.length - st.pos < fuel →
      (skip_to_end_of_line fuel st).eof = true ∨
      (skip_to_end_of_line fuel st).peek = '\n' := by
  intro fuel
  induction fuel with
  | zero => intro st h; omega
  | succ fuel ih =>
    intro st h
    unfold skip_to_end_of_line
    by_cases he : st.eof = true
    · rw [if_pos he]
      exact Or.inl he
    · rw [if_neg he]
      dsimp only
      have hlt : st.pos < st.src.length := by
        unfold TokenizerState.eof at he
        simp only [decide_eq_true_eq] at he
        omega
      by_cases h1 : st.peek = '\n'
      · rw [if_pos h1]
        exact Or.inr h1
      · rw [if_neg h1]
        by_cases h2 : st.peek = '\\'
        · rw [if_pos h2]
          by_cases h3 : ¬st.advance.eof = true ∧ st.advance.peek = '\n'
          · rw [if_pos h3]
            apply ih
            simp only [advance_src, advance_pos]
            omega
          · rw [if_neg h3]
            apply ih
            simp only [advance_src, advance_pos]
            omega
        · rw [if_neg h2]
          by_cases h4 : st.peek = '('
          · rw [if_pos h4]
            apply ih
            have hev := evolves_skip_parens_loop (st.src.length + 1) st.advance 1
            rw [hev.1, advance_src]
            have hpos := hev.2.2
            rw [advance_pos] at hpos
            omega
          · rw [if_neg h4]
            apply ih
            simp only [advance_src, advance_pos]
            omega

end PythonNormalizer

/-- C8.  A logical line beginning with `import ` or `from ` before any
other token on the line is consumed as one unit and counted as a code
line with zero tokens emitted.  Part 1: the scenario — the file
`from os import path` yields one code line and an empty token sequence.
Part 2: the import branch fires exactly when no code token has yet been
seen on the line and the remaining input starts with `import ` or
`from `; its result type carries no token list, so it can emit no
token.  Part 3: when it fires it marks the line as code and consumes
the whole remainder of the logical line — the resulting cursor is at
end of input or on a significant `\n` (backslash continuations and
parenthesised groups are consumed inside skip_to_end_of_line). -/
theorem C8_import_line_consumption :
    PythonNormalizer.normalize "from os import path".data =
      { tokens := [], total_lines := 1, code_lines := 1, blank_lines := 0,
        comment_lines := 0 } ∧
    (∀ (st : PythonNormalizer.TokenizerState)
        (m : PythonNormalizer.LineMetrics),
        (PythonNormalizer.process_import st m).isSome = true ↔
          (m.line_has_code = false ∧
           PythonNormalizer.is_import_statement st = true)) ∧
    (∀ (st : PythonNormalizer.TokenizerState)
        (m : PythonNormalizer.LineMetrics)
        (out : PythonNormalizer.TokenizerState × PythonNormalizer.LineMetrics),
        PythonNormalizer.process_import st m = some out →
        out.2.line_has_code = true ∧
        (out.1.eof = true ∨ out.1.peek = '\n')) := by
  refine ⟨by decide, ?_, ?_⟩
  · intro st m
    unfold PythonNormalizer.process_import
    by_cases hc : m.line_has_code = true ∨
        ¬PythonNormalizer.is_import_statement st = true
    · rw [if_pos hc]
      constructor
      · intro hf
        exact Bool.noConfusion hf
      · rintro ⟨hm, hi⟩
        rcases hc with hcc | hcc
        · rw [hm] at hcc
          exact Bool.noConfusion hcc
        · exact absurd hi hcc
    · rw [if_neg hc]
      push_neg at hc
      constructor
      · intro _
        refine ⟨?_, hc.2⟩
        cases hb : m.line_has_code
        · rfl
        · exact absurd hb hc.1
      · intro _
        rfl
  · intro st m out hout
    unfold PythonNormalizer.process_import at hout
    split at hout
    · exact Option.noConfusion hout
    · obtain rfl := Option.some.inj hout
      refine ⟨rfl, ?_⟩
      exact PythonNormalizer.skip_to_end_of_line_post (st.src.length + 1) st
        (by omega)

/-- Witness for C8: on the file `import x` with fresh line metrics, the
branch that consumes the whole line fires. -/
theorem C8_import_line_consumption_witness :
    (PythonNormalizer.process_import
        { src := "import x".data } {}).isSome = true :=
  (C8_import_line_consumption.2.1 { src := "import x".data } {}).mpr
    (by decide)

/-!  C9: raw strings with custom delimiters. -/

namespace CppNormalizer

theorem drop_peek_c {st : TokenizerState} {c : Char} {tail : List Char}
    (h : st.src.drop st.pos = c :: tail) : st.peek = c := by
  unfold TokenizerState.peek
  have h0 : (st.src.drop st.pos).head? = some c := by rw [h]; rfl
  rw [List.head?_drop] at h0
  rw [List.getD_eq_getElem?_getD, h0]
  rfl

theorem drop_not_eof_c {st : TokenizerState} {c : Char} {tail : List Char}
    (h : st.src.drop st.pos = c :: tail) : st.eof = false := by
  unfold TokenizerState.eof
  have hl := congrArg List.length h
  rw [List.length_drop] at hl
  simp only [List.length_cons] at hl
  simp only [decide_eq_false_iff_not]
  omega

theorem advance_drop_c {st : TokenizerState} {c : Char} {tail : List Char}
    (h : st.src.drop st.pos = c :: tail) :
    st.advance.src.drop st.advance.pos = tail := by
  rw [advance_src_c, advance_pos_c, ← List.tail_drop, h]
  rfl

theorem src_advance_n (n : Nat) (st : TokenizerState) :
    (st.advance_n n).src = st.src :=
  (evolves_advance_n st n).1

theorem marker_match_of_leading {st : TokenizerState} {marker tail : List Char}
    (h : st.src.drop st.pos = marker ++ tail) :
    marker_match st marker = true := by
  unfold marker_match
  rw [List.all_eq_true]
  intro i hi
  rw [List.mem_range] at hi
  simp only [decide_eq_true_eq]
  unfold TokenizerState.peek_at
  have h2 : st.src[st.pos + i]? = (marker ++ tail)[i]? := by
    rw [← List.getElem?_drop, h]
  rw [List.getD_eq_getElem?_getD, h2, List.getD_eq_getElem?_getD,
    List.getElem?_append, if_pos hi]

theorem prefix_of_marker_match {st : TokenizerState} {marker tail : List Char}
    (h : st.src.drop st.pos = tail) (hlen : marker.length ≤ tail.length)
    (hm : marker_match st marker = true) :
    marker.isPrefixOf tail = true := by
  rw [List.isPrefixOf_iff_prefix, List.prefix_iff_eq_take]
  unfold marker_match at hm
  rw [List.all_eq_true] at hm
  apply List.ext_getElem
  · rw [List.length_take]
    omega
  · intro i hi1 hi2
    have hx := hm i (by rw [List.mem_range]; exact hi1)
    simp only [decide_eq_true_eq] at hx
    unfold TokenizerState.peek_at at hx
    have h2 : st.src[st.pos + i]? = tail[i]? := by
      rw [← List.getElem?_drop, h]
    rw [List.getD_eq_getElem?_getD, h2, List.getD_eq_getElem?_getD,
      List.getElem?_eq_getElem (by omega : i < tail.length),
      List.getElem?_eq_getElem hi1] at hx
    simp only [Option.getD_some] at hx
    rw [List.getElem_take]
    exact hx.symm

theorem raw_delim_loop_run :
    ∀ (d : List Char) (fuel : Nat) (st : TokenizerState) (v tail : List Char),
      st.src.drop st.pos = d ++ ('(' :: tail) →
      (∀ c ∈ d, c ≠ '(') →
      d.length < fuel →
      ∃ stA, raw_delim_loop fuel st v = (stA, v ++ d) ∧
        stA.src = st.src ∧ stA.pos = st.pos + d.length ∧
        stA.src.drop stA.pos = '(' :: tail := by
  intro d
  induction d with
  | nil =>
    intro fuel st v tail h hd hf
    cases fuel with
    | zero => simp at hf
    | succ fuel =>
      have hc : st.src.drop st.pos = '(' :: tail := by simpa using h
      unfold raw_delim_loop
      rw [if_neg (by simp [drop_not_eof_c hc]), if_pos (drop_peek_c hc)]
      exact ⟨st, by rw [List.append_nil], rfl, by simp, hc⟩
  | cons c d' ih =>
    intro fuel st v tail h hd hf
    cases fuel with
    | zero => simp at hf
    | succ fuel =>
      have hcons : st.src.drop st.pos = c :: (d' ++ ('(' :: tail)) := by
        simpa using h
      have hpk := drop_peek_c hcons
      unfold raw_delim_loop
      rw [if_neg (by simp [drop_not_eof_c hcons]),
        if_neg (by rw [hpk]; exact hd c (by simp)), hpk]
      obtain ⟨stA, hrun, hsrc, hpos, hdrop⟩ :=
        ih fuel st.advance (v ++ [c]) tail (advance_drop_c hcons)
          (fun x hx => hd x (by simp [hx])) (by simp at hf; omega)
      refine ⟨stA, ?_, by rw [hsrc, advance_src_c], ?_, hdrop⟩
      · rw [hrun, List.append_assoc]
        rfl
      · rw [hpos, advance_pos_c]
        simp only [List.length_cons]
        omega

theorem raw_scan_loop_run :
    ∀ (content marker : List Char) (fuel : Nat) (st : TokenizerState)
      (v rest : List Char),
      marker ≠ [] →
      st.src.drop st.pos = content ++ marker ++ rest →
      (∀ i, i < content.length →
        marker.isPrefixOf ((content ++ marker ++ rest).drop i) = false) →
      content.length < fuel →
      ∃ stB, raw_scan_loop marker fuel st v = (stB, v ++ content) ∧
        stB.src = st.src ∧
        stB.pos = st.pos + content.length + marker.length := by
  intro content
  induction content with
  | nil =>
    intro marker fuel st v rest hm h hocc hf
    cases fuel with
    | zero => simp at hf
    | succ fuel =>
      simp only [List.nil_append] at h
      obtain ⟨mc, mtl, rfl⟩ : ∃ mc mtl, marker = mc :: mtl := by
        cases marker with
        | nil => exact absurd rfl hm
        | cons mc mtl => exact ⟨mc, mtl, rfl⟩
      have hc : st.src.drop st.pos = mc :: (mtl ++ rest) := by simpa using h
      unfold raw_scan_loop
      rw [if_neg (by simp [drop_not_eof_c hc]),
        if_pos (marker_match_of_leading h)]
      refine ⟨st.advance_n (mc :: mtl).length, by rw [List.append_nil], ?_, ?_⟩
      · exact src_advance_n _ _
      · rw [pos_advance_n]
        simp only [List.length_nil]
        omega
  | cons c content' ih =>
    intro marker fuel st v rest hm h hocc hf
    cases fuel with
    | zero => simp at hf
    | succ fuel =>
      have hcons : st.src.drop st.pos = c :: (content' ++ marker ++ rest) := by
        simpa using h
      have hnm : marker_match st marker = false := by
        cases hmm : marker_match st marker with
        | false => rfl
        | true =>
          exfalso
          have hpre := prefix_of_marker_match hcons
            (by simp only [List.length_cons, List.length_append]; omega) hmm
          have h0 := hocc 0 (by simp)
          rw [List.drop_zero, List.cons_append, List.cons_append] at h0
          rw [hpre] at h0
          exact Bool.noConfusion h0
      have hpk := drop_peek_c hcons
      unfold raw_scan_loop
      rw [if_neg (by simp [drop_not_eof_c hcons]), if_neg (by simp [hnm]), hpk]
      obtain ⟨stB, hrun, hsrc, hpos⟩ :=
        ih marker fuel st.advance (v ++ [c]) rest hm (advance_drop_c hcons)
          (fun i hi => by
            have hstep := hocc (i + 1) (by simp only [List.length_cons]; omega)
            rw [List.cons_append, List.cons_append, List.drop_succ_cons] at hstep
            exact hstep)
          (by simp only [List.length_cons] at hf; omega)
      refine ⟨stB, ?_, by rw [hsrc, advance_src_c], ?_⟩
      · rw [hrun, List.append_assoc]
        rfl
      · rw [hpos, advance_pos_c]
        simp only [List.length_cons]
        omega

end CppNormalizer

/-- C9.  Custom-delimiter raw strings.  Part 1, in general: whenever
the remaining input reads `R"delim(content)delim"...` — the delimiter
free of `(`, the content containing no occurrence of the exact closing
marker `)delim"` before its end — parse_raw_string emits one
STRING_LITERAL token whose hash is the hash of the full content
(closing is found only at the exact marker built from the observed
delimiter, so an early plain `)` does not truncate) and leaves the
cursor right after the closing quote.  Part 2, the scenario:
`R"(a)b(c)"` tokenizes as a single STRING_LITERAL of length 10 hashing
the content `a)b(c`. -/
theorem C9_raw_string_exact_marker :
    (∀ (st0 : CppNormalizer.TokenizerState) (d content rest : List Char),
      st0.src.drop st0.pos =
        'R' :: '"' ::
          (d ++ ('(' :: (content ++ ([')'] ++ d ++ ['"']) ++ rest))) →
      (∀ c ∈ d, c ≠ '(') →
      (∀ i, i < content.length →
        ([')'] ++ d ++ ['"']).isPrefixOf
          ((content ++ ([')'] ++ d ++ ['"']) ++ rest).drop i) = false) →
      (CppNormalizer.parse_raw_string st0).1.type =
          TokenType.STRING_LITERAL ∧
        (CppNormalizer.parse_raw_string st0).1.original_hash =
          hashChars content ∧
        (CppNormalizer.parse_raw_string st0).2.pos =
          st0.pos + content.length + 2 * d.length + 5) ∧
    (CppNormalizer.normalize "R\"(a)b(c)\"".data).tokens.map
        (fun t => (t.type, t.length, t.original_hash)) =
      [(TokenType.STRING_LITERAL, 10, hashChars "a)b(c".data)] := by
  refine ⟨?_, by decide⟩
  intro st0 d content rest h hd hocc
  have h1 : st0.advance.advance.src.drop st0.advance.advance.pos =
      d ++ ('(' :: (content ++ ([')'] ++ d ++ ['"']) ++ rest)) :=
    CppNormalizer.advance_drop_c (CppNormalizer.advance_drop_c h)
  have hdlen : d.length < st0.advance.advance.src.length + 1 := by
    have hl := congrArg List.length h1
    rw [List.length_drop] at hl
    simp only [List.length_append, List.length_cons] at hl
    omega
  obtain ⟨stA, hAr, hAsrc, hApos, hAdrop⟩ :=
    CppNormalizer.raw_delim_loop_run d
      (st0.advance.advance.src.length + 1) st0.advance.advance [] _ h1 hd hdlen
  have hAeof : stA.eof = false := CppNormalizer.drop_not_eof_c hAdrop
  have h2 : stA.advance.src.drop stA.advance.pos =
      content ++ ([')'] ++ d ++ ['"']) ++ rest :=
    CppNormalizer.advance_drop_c hAdrop
  have hclen : content.length < stA.advance.src.length + 1 := by
    have hl := congrArg List.length h2
    rw [List.length_drop] at hl
    simp only [List.length_append, List.length_cons] at hl
    omega
  obtain ⟨stB, hBr, hBsrc, hBpos⟩ :=
    CppNormalizer.raw_scan_loop_run content ([')'] ++ d ++ ['"'])
      (stA.advance.src.length + 1) stA.advance [] rest (by simp) h2 hocc hclen
  unfold CppNormalizer.parse_raw_string
  dsimp only
  rw [hAr]
  dsimp only
  rw [if_neg (by simp [hAeof])]
  simp only [List.nil_append]
  rw [hBr]
  refine ⟨trivial, rfl, ?_⟩
  show stB.pos = st0.pos + content.length + 2 * d.length + 5
  have hA2 : stA.advance.pos = stA.pos + 1 := CppNormalizer.advance_pos_c stA
  have hp2 : st0.advance.advance.pos = st0.pos + 2 := rfl
  rw [hBpos, hA2, hApos, hp2]
  simp only [List.length_append, List.length_cons, List.length_nil]
  omega

/-- Witness for C9: the file `R"x(a)x"` — delimiter `x`, content `a` —
hashes exactly the content and ends at position 8. -/
theorem C9_raw_string_exact_marker_witness :
    (CppNormalizer.parse_raw_string
        { src := "R\"x(a)x\"".data }).1.original_hash =
        hashChars "a".data ∧
      (CppNormalizer.parse_raw_string { src := "R\"x(a)x\"".data }).2.pos = 8 :=
  ⟨(C9_raw_string_exact_marker.1 { src := "R\"x(a)x\"".data } ['x'] ['a'] []
      (by decide) (by decide) (by decide)).2.1,
   ((C9_raw_string_exact_marker.1 { src := "R\"x(a)x\"".data } ['x'] ['a'] []
      (by decide) (by decide) (by decide)).2.2).trans (by decide)⟩

/-!  C10: leading-zero numerals in the Python engine. -/

namespace PythonNormalizer

theorem advance_drop_p {st : TokenizerState} {c : Char} {tl : List Char}
    (h : st.src.drop st.pos = c :: tl) :
    st.advance.src.drop st.advance.pos = tl := by
  rw [advance_src, advance_pos, ← List.tail_drop, h]
  rfl

theorem drop_peek_next_p {st : TokenizerState} {c1 c2 : Char}
    {tl : List Char} (h : st.src.drop st.pos = c1 :: c2 :: tl) :
    st.peek_next = c2 := by
  unfold TokenizerState.peek_next
  have h2 : st.src[st.pos + 1]? = some c2 := by
    rw [← List.getElem?_drop, h]
    simp
  rw [List.getD_eq_getElem?_getD, h2]
  rfl

theorem drop_nil_eof_p {st : TokenizerState}
    (h : st.src.drop st.pos = []) : st.eof = true := by
  rw [List.drop_eq_nil_iff] at h
  unfold TokenizerState.eof
  simpa using h

theorem drop_nil_peek_p {st : TokenizerState}
    (h : st.src.drop st.pos = []) : st.peek = '\x00' := by
  rw [List.drop_eq_nil_iff] at h
  unfold TokenizerState.peek
  exact List.getD_eq_default _ _ h

theorem is_digit_excludes (c : Char) (hc : is_digit c = true) :
    c ≠ 'x' ∧ c ≠ 'X' ∧ c ≠ 'b' ∧ c ≠ 'B' ∧ c ≠ 'o' ∧ c ≠ 'O' ∧
      c ≠ '.' ∧ c ≠ 'e' ∧ c ≠ 'E' ∧ c ≠ 'j' ∧ c ≠ 'J' ∧ c ≠ '_' := by
  refine ⟨?_, ?_, ?_, ?_, ?_, ?_, ?_, ?_, ?_, ?_, ?_, ?_⟩ <;>
    (intro heq; rw [heq] at hc; exact absurd hc (by decide))

theorem digits_loop_run :
    ∀ (ds : List Char) (fuel : Nat) (st : TokenizerState) (v : List Char),
      st.src.drop st.pos = ds →
      (∀ c ∈ ds, is_digit c = true) →
      ds.length < fuel →
      ∃ stE, digits_loop is_digit fuel st v = (stE, v ++ ds) ∧
        stE.src = st.src ∧ stE.pos = st.pos + ds.length ∧
        stE.src.drop stE.pos = [] := by
  intro ds
  induction ds with
  | nil =>
    intro fuel st v h hdig hf
    cases fuel with
    | zero => simp at hf
    | succ fuel =>
      unfold digits_loop
      rw [if_pos (drop_nil_eof_p h)]
      exact ⟨st, by rw [List.append_nil], rfl, by simp, h⟩
  | cons d ds' ih =>
    intro fuel st v h hdig hf
    cases fuel with
    | zero => simp at hf
    | succ fuel =>
      have hpk := peek_head h
      have hd : is_digit d = true := hdig d (by simp)
      unfold digits_loop
      rw [if_neg (by simpa using hpk.2)]
      dsimp only
      rw [if_pos (Or.inl (by rw [hpk.1]; exact hd)), hpk.1,
        if_neg (is_digit_excludes d hd).2.2.2.2.2.2.2.2.2.2.2]
      obtain ⟨stE, hrun, hsrc, hpos, hdrop⟩ :=
        ih fuel st.advance (v ++ [d]) (advance_drop_p h)
          (fun c hc => hdig c (by simp [hc]))
          (by simp only [List.length_cons] at hf; omega)
      refine ⟨stE, ?_, by rw [hsrc, advance_src], ?_, hdrop⟩
      · rw [hrun, List.append_assoc]
        rfl
      · rw [hpos, advance_pos]
        simp only [List.length_cons]
        omega

theorem parse_number_zero_step (st : TokenizerState) (d : Char)
    (tl : List Char) (h : st.src.drop st.pos = '0' :: d :: tl)
    (hd : is_digit d = true) :
    parse_number st =
      ({ type := TokenType.NUMBER_LITERAL, line := st.line,
         column := st.column,
         length := (st.advance.pos - st.pos) % 65536,
         original_hash := hashChars ['0'],
         normalized_hash := hash_placeholder TokenType.NUMBER_LITERAL },
       st.advance) := by
  have hpk := peek_head h
  have hnext : st.peek_next = d := drop_peek_next_p h
  have hex := is_digit_excludes d hd
  have hpkA := peek_head (advance_drop_p h)
  have hhex : parse_hex_number st [] = none := by
    unfold parse_hex_number
    rw [if_neg (by simp [hpk.1, hpk.2])]
    dsimp only
    rw [if_pos (by rw [hnext]; exact ⟨hex.1, hex.2.1⟩)]
  have hbin : parse_binary_number st [] = none := by
    unfold parse_binary_number
    rw [if_neg (by simp [hpk.1, hpk.2])]
    dsimp only
    rw [if_pos (by rw [hnext]; exact ⟨hex.2.2.1, hex.2.2.2.1⟩)]
  have hoct : parse_octal_number st [] = none := by
    unfold parse_octal_number
    rw [if_neg (by simp [hpk.1, hpk.2])]
    dsimp only
    rw [if_pos (by rw [hnext]; exact ⟨hex.2.2.2.2.1, hex.2.2.2.2.2.1⟩)]
  have hdot : ¬st.advance.peek = '.' := by
    rw [hpkA.1]
    exact hex.2.2.2.2.2.2.1
  have hexp : st.advance.peek ≠ 'e' ∧ st.advance.peek ≠ 'E' := by
    rw [hpkA.1]
    exact ⟨hex.2.2.2.2.2.2.2.1, hex.2.2.2.2.2.2.2.2.1⟩
  have hsuf : ¬(st.advance.peek = 'j' ∨ st.advance.peek = 'J') := by
    rw [hpkA.1]
    rintro (hc | hc)
    · exact hex.2.2.2.2.2.2.2.2.2.1 hc
    · exact hex.2.2.2.2.2.2.2.2.2.2.1 hc
  unfold parse_number
  dsimp only
  rw [hhex, hbin, hoct]
  simp only []
  unfold parse_integer_part
  rw [if_pos hpk.1]
  dsimp only
  unfold parse_decimal_part
  rw [if_pos (Or.inl hdot)]
  dsimp only
  unfold parse_exponent_part
  rw [if_pos hexp]
  dsimp only
  unfold skip_complex_suffix
  rw [if_neg hsuf]
  rfl

theorem parse_number_digit_run (st : TokenizerState) (d : Char)
    (ds' : List Char) (h : st.src.drop st.pos = d :: ds')
    (hdig : ∀ c ∈ d :: ds', is_digit c = true) (hd0 : d ≠ '0') :
    ∃ stE, parse_number st =
      ({ type := TokenType.NUMBER_LITERAL, line := st.line,
         column := st.column,
         length := (stE.pos - st.pos) % 65536,
         original_hash := hashChars (d :: ds'),
         normalized_hash := hash_placeholder TokenType.NUMBER_LITERAL },
       stE) ∧ stE.pos = st.pos + (d :: ds').length := by
  have hpk := peek_head h
  have hne0 : ¬st.peek = '0' := by rw [hpk.1]; exact hd0
  have hhex : parse_hex_number st [] = none := by
    unfold parse_hex_number
    rw [if_pos (Or.inl hne0)]
  have hbin : parse_binary_number st [] = none := by
    unfold parse_binary_number
    rw [if_pos (Or.inl hne0)]
  have hoct : parse_octal_number st [] = none := by
    unfold parse_octal_number
    rw [if_pos (Or.inl hne0)]
  have hlen : (d :: ds').length < st.src.length + 1 := by
    have hl := congrArg List.length h
    rw [List.length_drop] at hl
    omega
  obtain ⟨stE, hrun, hsrc, hpos, hdrop⟩ :=
    digits_loop_run (d :: ds') (st.src.length + 1) st [] h hdig hlen
  have hpkE := drop_nil_peek_p hdrop
  have hdotE : ¬stE.peek = '.' := by
    rw [hpkE]
    decide
  have hexpE : stE.peek ≠ 'e' ∧ stE.peek ≠ 'E' := by
    rw [hpkE]
    exact ⟨by decide, by decide⟩
  have hsufE : ¬(stE.peek = 'j' ∨ stE.peek = 'J') := by
    rw [hpkE]
    decide
  unfold parse_number
  dsimp only
  rw [hhex, hbin, hoct]
  simp only []
  unfold parse_integer_part
  rw [if_neg hne0, hrun]
  dsimp only
  unfold parse_decimal_part
  rw [if_pos (Or.inl hdotE)]
  dsimp only
  unfold parse_exponent_part
  rw [if_pos hexpE]
  dsimp only
  unfold skip_complex_suffix
  rw [if_neg hsufE]
  exact ⟨stE, rfl, hpos⟩

end PythonNormalizer

/-- C10.  A Python numeral starting with `0` that is not a hex, binary
or octal form is split: parse_number consumes the leading zero alone as
the whole first NUMBER_LITERAL, and a second parse_number call consumes
the remaining digit run as a separate NUMBER_LITERAL.  Part 1, in
general: whenever the remaining input is exactly `0` followed by a
nonempty digit run not itself starting with `0`, the first token hashes
`0` and stops after one character, and the second token hashes the whole
remaining run and stops at its end.  Part 2, the scenario: the file
`0123` tokenizes as two NUMBER_LITERAL tokens with contents `0` and
`123`. -/
theorem C10_leading_zero_numeral_splits :
    (∀ (st : PythonNormalizer.TokenizerState) (ds : List Char),
      st.src.drop st.pos = '0' :: ds →
      ds ≠ [] →
      (∀ c ∈ ds, PythonNormalizer.is_digit c = true) →
      ds.head? ≠ some '0' →
      (PythonNormalizer.parse_number st).1.type =
          TokenType.NUMBER_LITERAL ∧
        (PythonNormalizer.parse_number st).1.original_hash =
          hashChars ['0'] ∧
        (PythonNormalizer.parse_number st).2.pos = st.pos + 1 ∧
        (PythonNormalizer.parse_number
            ((PythonNormalizer.parse_number st).2)).1.type =
          TokenType.NUMBER_LITERAL ∧
        (PythonNormalizer.parse_number
            ((PythonNormalizer.parse_number st).2)).1.original_hash =
          hashChars ds ∧
        (PythonNormalizer.parse_number
            ((PythonNormalizer.parse_number st).2)).2.pos =
          st.pos + 1 + ds.length) ∧
    (PythonNormalizer.normalize "0123".data).tokens.map
        (fun t => (t.type, t.original_hash)) =
      [(TokenType.NUMBER_LITERAL, hashChars "0".data),
       (TokenType.NUMBER_LITERAL, hashChars "123".data)] := by
  refine ⟨?_, by decide⟩
  intro st ds h hne hdig hh0
  obtain ⟨d, ds', rfl⟩ : ∃ d ds', ds = d :: ds' := by
    cases ds with
    | nil => exact absurd rfl hne
    | cons a b => exact ⟨a, b, rfl⟩
  have hd : PythonNormalizer.is_digit d = true := hdig d (by simp)
  have hd0 : d ≠ '0' := fun heq => hh0 (by rw [heq]; rfl)
  have h1 := PythonNormalizer.parse_number_zero_step st d ds' h hd
  rw [h1]
  dsimp only
  obtain ⟨stE, h2, hpos2⟩ :=
    PythonNormalizer.parse_number_digit_run st.advance d ds'
      (PythonNormalizer.advance_drop_p h) hdig hd0
  rw [h2]
  dsimp only
  refine ⟨rfl, rfl, PythonNormalizer.advance_pos st, rfl, rfl, ?_⟩
  rw [hpos2, PythonNormalizer.advance_pos]

/-- Witness for C10: the file `0123` parsed from position 0 — the first
literal hashes `0`, the second hashes `123` and ends at position 4. -/
theorem C10_leading_zero_numeral_splits_witness :
    (PythonNormalizer.parse_number
        { src := "0123".data }).1.original_hash = hashChars ['0'] ∧
      (PythonNormalizer.parse_number
          ((PythonNormalizer.parse_number
              { src := "0123".data }).2)).1.original_hash =
        hashChars "123".data :=
  ⟨(C10_leading_zero_numeral_splits.1 { src := "0123".data } "123".data
      (by decide) (by decide) (by decide) (by decide)).2.1,
   (C10_leading_zero_numeral_splits.1 { src := "0123".data } "123".data
      (by decide) (by decide) (by decide) (by decide)).2.2.2.2.1⟩
